import Mathlib

/-!
# Polyline decoding and the polyline query handler

A shallow embedding of `http/polyline.go` (package `http` of
`go-whosonfirst-pip-v2`): the function `DecodePolyline` and the request
handler built by `PolylineHandler`, followed by theorems about them.

Conventions of the embedding.

* A Go `string` is the list of its bytes (`List Nat`, every byte below 256).
* A Go `int` is a 64-bit two's complement integer, embedded as an `Int` in
  the range `[-2^63, 2^63)`; every operation that can leave the range wraps
  explicitly (`wrapInt`).  The bitwise operators act on the 64-bit pattern
  (`toBits` / `ofBits`).
* A `float64` degree value `float64(n) / f` is kept as its integer numerator
  `n` together with the scale `f`; the scale is a natural number (the handler
  passes `1.0e5` or `1.0e6`).
* A run-time panic (index out of range) is an outcome of its own.
-/

set_option maxRecDepth 100000

namespace Polyline

/-! ## Go `int` arithmetic (64 bit, two's complement) -/

/-- The two's complement bit pattern of a Go `int`, as a number below `2^64`. -/
def toBits (x : Int) : Nat := (x % 2 ^ 64).toNat

/-- The Go `int` whose bit pattern (modulo `2^64`) is `n`. -/
def ofBits (n : Nat) : Int :=
  if n % 2 ^ 64 < 2 ^ 63 then ((n % 2 ^ 64 : Nat) : Int) else ((n % 2 ^ 64 : Nat) : Int) - 2 ^ 64

/-- Reduction of a mathematical integer to the Go `int` it wraps to. -/
def wrapInt (x : Int) : Int := ofBits (toBits x)

/-- Go `x & y` on `int`. -/
def intAnd (x y : Int) : Int := ofBits (toBits x &&& toBits y)

/-- Go `x | y` on `int`. -/
def intOr (x y : Int) : Int := ofBits (toBits x ||| toBits y)

/-- Go `x << s` on `int` with an unsigned shift count: the bits shifted out are lost and a
count of 64 or more gives 0. -/
def intShl (x : Int) (s : Nat) : Int :=
  if s < 64 then ofBits (toBits x <<< s) else 0

/-- Go `x >> 1` on `int`: the arithmetic (sign-preserving) shift. -/
def intShr1 (x : Int) : Int := x / 2

/-- Go `^x` on `int`: the bitwise complement. -/
def intNot (x : Int) : Int := -x - 1

/-- Go `x + y` on `int`. -/
def intAdd (x y : Int) : Int := wrapInt (x + y)

/-- Go `s += 5` on `uint` (64 bit). -/
def uintAdd5 (s : Nat) : Nat := (s + 5) % 2 ^ 64

/-! ## Data model -/

/-- A `geom.Coord`: `X` is the longitude and `Y` the latitude.  Each field holds the integer
numerator `n` of the `float64` value `float64(n) / f`. -/
structure Coord where
  X : Int
  Y : Int
  deriving DecidableEq, Repr

deriving instance DecidableEq for Except

/-- What a call of `DecodePolyline` can do: return `(coords, nil)`, return `(nil, err)`, or
panic because `encoded[index]` is read with `index = len(encoded)`. -/
inductive DecodeResult where
  | ok (coords : List Coord)
  | err (msg : String)
  | indexOutOfRange
  deriving DecidableEq, Repr

/-- The bytes of an ASCII string literal. -/
def bytes (s : String) : List Nat := s.toList.map Char.toNat

/-- Modelled from the spec: the validating constructor
`geojson_utils.NewCoordinateFromLatLons(lat, lon)` of the external package
`go-whosonfirst-geojson-v2/utils`, which is not part of this repository.  It is called with
`lat = float64(latN) / f` and `lon = float64(lonN) / f`; the spec gives the bounds
latitude in `[-90, 90]` and longitude in `[-180, 180]`, and the accepted pair becomes the
coordinate with `X = lon`, `Y = lat`. -/
def NewCoordinateFromLatLons (f : Nat) (latN lonN : Int) : Except String Coord :=
  if latN < -90 * (f : Int) ∨ 90 * (f : Int) < latN then .error "Invalid latitude"
  else if lonN < -180 * (f : Int) ∨ 180 * (f : Int) < lonN then .error "Invalid longitude"
  else .ok { X := lonN, Y := latN }

/-- The constructor without validation: every pair is accepted. -/
def acceptAll (_f : Nat) (latN lonN : Int) : Except String Coord :=
  .ok { X := lonN, Y := latN }

/-! ## `DecodePolyline` (polyline.go, lines 201-251) -/

/-- The variables of `DecodePolyline` that live across iterations of the outer loop:
`count`, `tempLatLng[0]` (`lat`), `tempLatLng[1]` (`lng`) and `coords`. -/
structure Vars where
  count : Nat
  lat : Int
  lng : Int
  coords : List Coord
  deriving DecidableEq, Repr

/-- Lines 214-218, one pass through the body of the inner loop on the byte `c = encoded[index]`
with the current `result` and `shift`: the new `b`, `result` and `shift`. -/
def innerStep (result : Int) (shift : Nat) (c : Nat) : Int × Int × Nat :=
  let b : Int := (c : Int) - 63
  (b, intOr result (intShl (intAnd b 0x1f) shift), uintAdd5 shift)

/-- Lines 221-226, the sign detection applied to an assembled group value. -/
def signDetect (result : Int) : Int :=
  if intAnd result 1 ≠ 0 then intNot (intShr1 result) else intShr1 result

/-- Lines 221-247, the rest of the outer loop body once the inner loop has assembled `result`:
sign detection, accumulation into `tempLatLng[count % 2]`, and on an odd `count` the validated
coordinate appended to `coords`; an error of the constructor `mk` ends the function. -/
def outerTail (mk : Nat → Int → Int → Except String Coord) (f : Nat) (result : Int) (v : Vars) :
    Except String Vars :=
  let result := signDetect result
  if v.count % 2 = 0 then
    .ok { v with lat := intAdd result v.lat, count := v.count + 1 }
  else
    let lng := intAdd result v.lng
    match mk f v.lat lng with
    | .error e => .error e
    | .ok coord => .ok { v with lng := lng, coords := v.coords ++ [coord], count := v.count + 1 }

/-- The two nested loops of `DecodePolyline` as one scan over the bytes from `index` on.

`group` is `none` at the head of the outer loop (line 208), where `result` and `shift` are
reset to 0, and `some (result, shift)` at the head of the inner loop after a byte with
`b >= 0x20` (line 213).  Reading `encoded[index]` past the end panics.  The validating
constructor is the parameter `mk`. -/
def decodeLoop (mk : Nat → Int → Int → Except String Coord) (f : Nat) :
    List Nat → Option (Int × Nat) → Vars → DecodeResult
  | [], none, v => .ok v.coords
  | [], some _, _ => .indexOutOfRange
  | c :: rest, group, v =>
    let step := innerStep (group.getD (0, 0)).1 (group.getD (0, 0)).2 c
    if step.1 ≥ 0x20 then
      decodeLoop mk f rest (some step.2) v
    else
      match outerTail mk f step.2.1 v with
      | .error e => .err e
      | .ok v' => decodeLoop mk f rest none v'

/-- `DecodePolyline(encoded, f)` with the validating constructor `mk`. -/
def DecodePolylineWith (mk : Nat → Int → Int → Except String Coord)
    (encoded : List Nat) (f : Nat) : DecodeResult :=
  decodeLoop mk f encoded none { count := 0, lat := 0, lng := 0, coords := [] }

/-- `DecodePolyline(encoded, f)`. -/
def DecodePolyline (encoded : List Nat) (f : Nat) : DecodeResult :=
  DecodePolylineWith NewCoordinateFromLatLons encoded f

/-- What the scan does once the inner loop has left a group with the value `result`:
the tail of the outer loop body, then the scan of the remaining bytes. -/
def afterGroup (mk : Nat → Int → Int → Except String Coord) (f : Nat) (rest : List Nat)
    (result : Int) (v : Vars) : DecodeResult :=
  match outerTail mk f result v with
  | .error e => .err e
  | .ok v' => decodeLoop mk f rest none v'

/-- The result of a scan with the coordinates `c0` put in front of the returned path. -/
def prepend (c0 : List Coord) : DecodeResult → DecodeResult
  | .ok cs => .ok (c0 ++ cs)
  | .err e => .err e
  | .indexOutOfRange => .indexOutOfRange

/-- The constructor applied to every pair of a path in order: the first error, or the
coordinates it returns. -/
def validateAll (mk : Nat → Int → Int → Except String Coord) (f : Nat) :
    List Coord → Except String (List Coord)
  | [] => .ok []
  | p :: ps =>
    match mk f p.Y p.X with
    | .error e => .error e
    | .ok c =>
      match validateAll mk f ps with
      | .error e => .error e
      | .ok cs => .ok (c :: cs)

/-- The encoded string does not end in the middle of a group: it is empty or its last byte
`c` has `c - 63 < 0x20`. -/
def EndsOnGroup (encoded : List Nat) : Prop :=
  ∀ c, encoded.getLast? = some c → (c : Int) - 63 < 0x20

instance (encoded : List Nat) : Decidable (EndsOnGroup encoded) :=
  match h : encoded.getLast? with
  | none => isTrue (fun c hc => by rw [h] at hc; cases hc)
  | some c =>
    if hb : (c : Int) - 63 < 0x20 then
      isTrue (fun c' hc => by rw [h] at hc; cases hc; exact hb)
    else
      isFalse (fun hall => hb (hall c h))

/-! ## The standard polyline encoder

Not part of the source file: the encoder whose output the decoder is meant to read. -/

/-- Zig-zag code of a signed value: `2n` for `n ≥ 0` and `-2n - 1` for `n < 0`. -/
def zigzag (n : Int) : Nat := if 0 ≤ n then (2 * n).toNat else (-2 * n - 1).toNat

/-- The bytes of the unsigned value `v`: 5-bit groups, low-order first, `0x20` or-ed into every
group but the last, 63 added to each.  The first argument bounds the number of groups. -/
def encodeGroups : Nat → Nat → List Nat
  | 0, v => [v + 63]
  | bound + 1, v =>
    if v < 0x20 then [v + 63] else ((0x20 ||| (v &&& 0x1f)) + 63) :: encodeGroups bound (v >>> 5)

/-- The bytes of the unsigned value `v`. -/
def encodeUnsigned (v : Nat) : List Nat := encodeGroups v v

/-- The bytes of one signed component. -/
def encodeSigned (n : Int) : List Nat := encodeUnsigned (zigzag n)

/-- The bytes of a path of integer `(lat, lon)` pairs, each component written as its delta from
the previous point `(prevLat, prevLon)`. -/
def encodeFrom : Int → Int → List (Int × Int) → List Nat
  | _, _, [] => []
  | prevLat, prevLon, p :: ps =>
    encodeSigned (p.1 - prevLat) ++ encodeSigned (p.2 - prevLon) ++ encodeFrom p.1 p.2 ps

/-- The encoded polyline of a path, the first point being a delta from `(0, 0)`. -/
def encode (path : List (Int × Int)) : List Nat := encodeFrom 0 0 path

/-- The value is a Go `int`: it lies in `[-2^63, 2^63)`. -/
def IsGoInt (x : Int) : Prop := -2 ^ 63 ≤ x ∧ x < 2 ^ 63

instance (x : Int) : Decidable (IsGoInt x) := by unfold IsGoInt; infer_instance

/-- Every delta of the path, the first taken from `(prevLat, prevLon)`, lies in
`[-2^bits, 2^bits)`. -/
def DeltasFit (bits : Nat) : Int → Int → List (Int × Int) → Prop
  | _, _, [] => True
  | prevLat, prevLon, p :: ps =>
    (-2 ^ bits ≤ p.1 - prevLat ∧ p.1 - prevLat < 2 ^ bits) ∧
    (-2 ^ bits ≤ p.2 - prevLon ∧ p.2 - prevLon < 2 ^ bits) ∧ DeltasFit bits p.1 p.2 ps

instance DeltasFit.decidable (bits : Nat) :
    ∀ (a b : Int) (path : List (Int × Int)), Decidable (DeltasFit bits a b path)
  | _, _, [] => isTrue trivial
  | a, b, p :: ps =>
    have := DeltasFit.decidable bits p.1 p.2 ps
    by unfold DeltasFit; infer_instance

/-- The coordinate a pair of numerators stands for: `X` the longitude, `Y` the latitude. -/
def toCoord (p : Int × Int) : Coord := { X := p.2, Y := p.1 }

/-! ## The handler built by `PolylineHandler` (polyline.go, lines 41-189)

The collaborators are functions of an environment; a run of the handler is the list of the
collaborator calls it made, in order, and the response it wrote. -/

/-- The parsed query string `req.URL.Query()`: its key/value pairs in order. -/
abbrev Query := List (List Nat × List Nat)

/-- `query.Get(key)`: the first value of the key, the empty string when there is none. -/
def Query.Get (query : Query) (key : List Nat) : List Nat :=
  match query.find? (fun kv => kv.1 == key) with
  | some kv => kv.2
  | none => []

/-- A `spr.StandardPlacesResult`: its identifier `Id()` and the rest of the record. -/
structure StandardPlacesResult where
  Id : String
  Rest : String
  deriving DecidableEq, Repr

/-- The struct `PolylineResultsUnique` of lines 17-20. -/
structure PolylineResultsUnique where
  Rows : List StandardPlacesResult
  deriving DecidableEq, Repr

/-- The struct `PolylineHandlerOptions` of lines 26-29. -/
structure PolylineHandlerOptions where
  AllowGeoJSON : Bool
  MaxCoords : Int
  deriving DecidableEq, Repr

/-- Lines 31-39. -/
def NewDefaultPolylineHandlerOptions : PolylineHandlerOptions :=
  { AllowGeoJSON := false, MaxCoords := 500 }

/-- A `pip.GeoJSONFeatureCollectionSet`; `Kind` is its field `Type`. -/
structure GeoJSONFeatureCollectionSet (FC : Type) where
  Kind : String
  Collections : List FC
  deriving DecidableEq, Repr

/-- The value of the variable `final` (an `interface{}`) when it is marshalled: the segment
results as returned by the index, a `*PolylineResultsUnique`, one feature collection, or a
`*GeoJSONFeatureCollectionSet`.  A segment result is the list `rs.Results()`. -/
inductive Final (FC : Type) where
  | results (results : List (List StandardPlacesResult))
  | unique (unq : PolylineResultsUnique)
  | collection (collection : FC)
  | collectionSet (collection_set : GeoJSONFeatureCollectionSet FC)
  deriving DecidableEq, Repr

/-- The collaborators of the handler, each with the result it gives: `idx.IsIndexing()`, the
validating constructor used by `DecodePolyline`, `filter.NewSPRFilterFromQuery`,
`i.GetIntersectsByPath`, `pip_utils.ResultsToFeatureCollection(_, i)` and `json.Marshal`. -/
structure Collaborators (Filters FC : Type) where
  IsIndexing : Bool
  NewCoordinateFromLatLons : Nat → Int → Int → Except String Coord
  NewSPRFilterFromQuery : Query → Except String Filters
  GetIntersectsByPath : List Coord → Filters → Except String (List (List StandardPlacesResult))
  ResultsToFeatureCollection : List StandardPlacesResult → Except String FC
  Marshal : Final FC → Except String String

/-- A call of a collaborator or of the decoder, with its arguments. -/
inductive Call (Filters FC : Type) where
  | IsIndexing
  | DecodePolyline (encoded : List Nat) (f : Nat)
  | NewSPRFilterFromQuery (query : Query)
  | GetIntersectsByPath (coords : List Coord) (filters : Filters)
  | ResultsToFeatureCollection (rs : List StandardPlacesResult)
  | Marshal (final : Final FC)
  deriving DecidableEq, Repr

/-- What the handler writes: `gohttp.Error(rsp, msg, code)`, or the two headers and
`rsp.Write(js)` of lines 181-184 (status 200). -/
inductive Response where
  | Error (msg : String) (code : Nat)
  | Write (headers : List (String × String)) (js : String)
  deriving DecidableEq, Repr

/-- The HTTP status of a response. -/
def Response.status : Response → Nat
  | .Error _ code => code
  | .Write _ _ => 200

/-- A run of the handler: the calls made, in order, and the response; the response is `none`
when the handler panicked before writing one. -/
structure Run (Filters FC : Type) where
  calls : List (Call Filters FC)
  response : Option Response
  deriving DecidableEq, Repr

/-- Lines 114-126, the inner loop of the uniqueness pass over the records of one segment, on
the variables `rows` and `seen` (the keys of the map). -/
def uniqueSegment : List StandardPlacesResult → List StandardPlacesResult × List String →
    List StandardPlacesResult × List String
  | [], state => state
  | r :: rs, (rows, seen) =>
    if r.Id ∈ seen then uniqueSegment rs (rows, seen)
    else uniqueSegment rs (rows ++ [r], r.Id :: seen)

/-- Lines 109-127, the rows collected by the uniqueness pass over all segment results. -/
def uniqueRows (results : List (List StandardPlacesResult)) : List StandardPlacesResult :=
  (results.foldl (fun state rs => uniqueSegment rs state) ([], [])).1

/-- The records of `flat` whose identifier did not occur earlier, `earlier` being the records
that precede `flat` in the flattening: the wording of the spec for the uniqueness mode. -/
def firstOccurrencesAfter (earlier : List StandardPlacesResult) :
    List StandardPlacesResult → List StandardPlacesResult
  | [] => []
  | r :: rs =>
    if r.Id ∈ earlier.map (fun e => e.Id) then firstOccurrencesAfter (earlier ++ [r]) rs
    else r :: firstOccurrencesAfter (earlier ++ [r]) rs

/-- The flattening with every record removed whose identifier already occurred earlier in it. -/
def firstOccurrences (flat : List StandardPlacesResult) : List StandardPlacesResult :=
  firstOccurrencesAfter [] flat

/-- Lines 153-163, the conversion loop over the segment results starting with the collected
`collections`: the conversion calls made, and the first error or all collections. -/
def collectionsLoop {Filters FC : Type} (convert : List StandardPlacesResult → Except String FC) :
    List (List StandardPlacesResult) → List FC → List (Call Filters FC) × Except String (List FC)
  | [], collections => ([], .ok collections)
  | rs :: rest, collections =>
    match convert rs with
    | .error e => ([.ResultsToFeatureCollection rs], .error e)
    | .ok collection =>
      let tail := collectionsLoop convert rest (collections ++ [collection])
      (.ResultsToFeatureCollection rs :: tail.1, tail.2)

/-- Lines 174-184: marshal `final` and write it, after the calls `calls`. -/
def marshalAndWrite {Filters FC : Type} (env : Collaborators Filters FC) (final : Final FC)
    (calls : List (Call Filters FC)) : Run Filters FC :=
  match env.Marshal final with
  | .error e => { calls := calls ++ [.Marshal final], response := some (.Error e 500) }
  | .ok js =>
    { calls := calls ++ [.Marshal final]
      response := some (.Write [("Content-Type", "application/json"),
        ("Access-Control-Allow-Origin", "*")] js) }

/-- Lines 104-184: the envelope built from the segment results `results` for the options
`unique` and `geojson` (`str_format == "geojson"`), marshalled and written. -/
def assemble {Filters FC : Type} (env : Collaborators Filters FC) (geojson unique : Bool)
    (results : List (List StandardPlacesResult)) (calls : List (Call Filters FC)) :
    Run Filters FC :=
  if geojson then
    if unique then
      match env.ResultsToFeatureCollection (uniqueRows results) with
      | .error e =>
        { calls := calls ++ [.ResultsToFeatureCollection (uniqueRows results)]
          response := some (.Error e 500) }
      | .ok collection =>
        marshalAndWrite env (.collection collection)
          (calls ++ [.ResultsToFeatureCollection (uniqueRows results)])
    else
      match collectionsLoop env.ResultsToFeatureCollection results [] with
      | (converted, .error e) => { calls := calls ++ converted, response := some (.Error e 500) }
      | (converted, .ok collections) =>
        marshalAndWrite env
          (.collectionSet { Kind := "FeatureCollectionSet", Collections := collections })
          (calls ++ converted)
  else if unique then
    marshalAndWrite env (.unique { Rows := uniqueRows results }) calls
  else
    marshalAndWrite env (.results results) calls

/-- Lines 67-72, the scale chosen from the `valhalla` parameter. -/
def polyFactor (str_valhalla : List Nat) : Nat :=
  if str_valhalla ≠ [] then 1000000 else 100000

/-- Lines 43-185, the function `fn` that `PolylineHandler(i, idx, opts)` returns as the
handler, run on the parsed query of a request. -/
def PolylineHandler {Filters FC : Type} (env : Collaborators Filters FC)
    (opts : PolylineHandlerOptions) (query : Query) : Run Filters FC :=
  if env.IsIndexing then
    { calls := [.IsIndexing], response := some (.Error "indexing records" 503) }
  else
    let str_polyline := query.Get (bytes "polyline")
    let str_valhalla := query.Get (bytes "valhalla")
    let str_unique := query.Get (bytes "unique")
    let str_format := query.Get (bytes "format")
    if str_polyline = [] then
      { calls := [.IsIndexing], response := some (.Error "Missing 'polyline' parameter" 400) }
    else if str_format = bytes "geojson" ∧ opts.AllowGeoJSON = false then
      { calls := [.IsIndexing], response := some (.Error "Invalid format" 400) }
    else
      let unique : Bool := decide (str_unique ≠ [])
      let poly_factor := polyFactor str_valhalla
      let calls : List (Call Filters FC) := [.IsIndexing, .DecodePolyline str_polyline poly_factor]
      match DecodePolylineWith env.NewCoordinateFromLatLons str_polyline poly_factor with
      | .indexOutOfRange => { calls := calls, response := none }
      | .err e => { calls := calls, response := some (.Error e 400) }
      | .ok coords =>
        if (coords.length : Int) > opts.MaxCoords then
          { calls := calls, response := some (.Error "E_EXCESSIVE_COORDINATES" 400) }
        else
          match env.NewSPRFilterFromQuery query with
          | .error e =>
            { calls := calls ++ [.NewSPRFilterFromQuery query]
              response := some (.Error e 400) }
          | .ok filters =>
            match env.GetIntersectsByPath coords filters with
            | .error e =>
              { calls := calls ++ [.NewSPRFilterFromQuery query,
                  .GetIntersectsByPath coords filters]
                response := some (.Error e 500) }
            | .ok results =>
              assemble env (decide (str_format = bytes "geojson")) unique results
                (calls ++ [.NewSPRFilterFromQuery query, .GetIntersectsByPath coords filters])

/-- The request passes the availability gate and the option parsing of lines 45-65: the index
is not indexing, the polyline is not empty, and GeoJSON is not asked for while disabled. -/
def PassesOptions {Filters FC : Type} (env : Collaborators Filters FC)
    (opts : PolylineHandlerOptions) (query : Query) : Prop :=
  env.IsIndexing = false ∧ query.Get (bytes "polyline") ≠ [] ∧
    ¬ (query.Get (bytes "format") = bytes "geojson" ∧ opts.AllowGeoJSON = false)

instance {Filters FC : Type} (env : Collaborators Filters FC) (opts : PolylineHandlerOptions)
    (query : Query) : Decidable (PassesOptions env opts query) := by
  unfold PassesOptions; infer_instance

/-- The result of `DecodePolyline` on the polyline of the request, at the scale chosen from its
`valhalla` parameter. -/
def decodeOf {Filters FC : Type} (env : Collaborators Filters FC) (query : Query) :
    DecodeResult :=
  DecodePolylineWith env.NewCoordinateFromLatLons (query.Get (bytes "polyline"))
    (polyFactor (query.Get (bytes "valhalla")))

/-- The call of the decoder that the handler makes for the request. -/
def decodeCall {Filters FC : Type} (query : Query) : Call Filters FC :=
  .DecodePolyline (query.Get (bytes "polyline")) (polyFactor (query.Get (bytes "valhalla")))

/-- The HTTP status of a run, `none` when no response was written. -/
def Run.status {Filters FC : Type} (run : Run Filters FC) : Option Nat :=
  run.response.map Response.status

/-- Step 9 of the pipeline in the spec for the collection-set: every segment result converted
on its own, in order; the first failure is the result. -/
def convertAll {FC : Type} (convert : List StandardPlacesResult → Except String FC) :
    List (List StandardPlacesResult) → Except String (List FC)
  | [] => .ok []
  | rs :: rest =>
    match convert rs with
    | .error e => .error e
    | .ok collection =>
      match convertAll convert rest with
      | .error e => .error e
      | .ok collections => .ok (collection :: collections)

/-- Steps 7 to 9 of the pipeline in the spec: the envelope for the options `geojson` and
`unique`, or the error of a conversion. -/
def envelope {Filters FC : Type} (env : Collaborators Filters FC) (geojson unique : Bool)
    (results : List (List StandardPlacesResult)) : Except String (Final FC) :=
  match geojson, unique with
  | false, false => .ok (.results results)
  | false, true => .ok (.unique { Rows := firstOccurrences results.flatten })
  | true, true =>
    match env.ResultsToFeatureCollection (firstOccurrences results.flatten) with
    | .error e => .error e
    | .ok collection => .ok (.collection collection)
  | true, false =>
    match convertAll env.ResultsToFeatureCollection results with
    | .error e => .error e
    | .ok collections =>
      .ok (.collectionSet { Kind := "FeatureCollectionSet", Collections := collections })

/-- No step of the pipeline fails: the request passes the gate and the option parsing, the
polyline decodes to at most `MaxCoords` coordinates, the filters parse, the index answers, the
envelope is built and it is marshalled. -/
def AllStepsSucceed {Filters FC : Type} (env : Collaborators Filters FC)
    (opts : PolylineHandlerOptions) (query : Query) : Prop :=
  PassesOptions env opts query ∧
  ∃ coords, decodeOf env query = .ok coords ∧ ¬ (coords.length : Int) > opts.MaxCoords ∧
  ∃ filters, env.NewSPRFilterFromQuery query = .ok filters ∧
  ∃ results, env.GetIntersectsByPath coords filters = .ok results ∧
  ∃ final, envelope env (decide (query.Get (bytes "format") = bytes "geojson"))
      (decide (query.Get (bytes "unique") ≠ [])) results = .ok final ∧
  ∃ js, env.Marshal final = .ok js

/-- An environment for examples: the validating constructor of the spec, a filter parser and
an index that always succeed (one empty segment result per coordinate), a conversion that
names the number of records and a marshaller that returns a fixed body. -/
def exampleEnv (indexing : Bool) : Collaborators Unit String :=
  { IsIndexing := indexing
    NewCoordinateFromLatLons := NewCoordinateFromLatLons
    NewSPRFilterFromQuery := fun _ => .ok ()
    GetIntersectsByPath := fun coords _ => .ok (coords.map fun _ => [])
    ResultsToFeatureCollection := fun rs => .ok (toString rs.length)
    Marshal := fun _ => .ok "{}" }

/-! ## Definitions for the claims on groups, deltas and indices -/

/-- Lines 213-219, the inner loop on the bytes from `index` on, started with `result` and
`shift`: the assembled `result` and the bytes that follow the group, or `none` when
`encoded[index]` is read past the end. -/
def innerLoop : List Nat → Int → Nat → Option (Int × List Nat)
  | [], _, _ => none
  | c :: rest, result, shift =>
    if (innerStep result shift c).1 ≥ 0x20 then
      innerLoop rest (innerStep result shift c).2.1 (innerStep result shift c).2.2
    else some ((innerStep result shift c).2.1, rest)

/-- The value of a group of bytes as the spec writes it: the payloads `(c_i - 63) mod 32`,
low-order first, the i-th at weight `32^i`. -/
def groupPayload : List Nat → Nat
  | [] => 0
  | c :: cs => (c - 63) % 32 + 32 * groupPayload cs

/-- The signed values of the complete groups among the bytes from `index` on, in input order,
each as lines 213-226 compute it; `group` is the state of the inner loop as in `decodeLoop`.
Bytes after the last complete group give no value. -/
def groupValues : List Nat → Option (Int × Nat) → List Int
  | [], _ => []
  | c :: rest, group =>
    if (innerStep (group.getD (0, 0)).1 (group.getD (0, 0)).2 c).1 ≥ 0x20 then
      groupValues rest (some (innerStep (group.getD (0, 0)).1 (group.getD (0, 0)).2 c).2)
    else
      signDetect (innerStep (group.getD (0, 0)).1 (group.getD (0, 0)).2 c).2.1
        :: groupValues rest none

/-- The path of the running sums of a list of deltas: a value met at an even `count` is added
to the latitude, a value met at an odd `count` is added to the longitude and gives a
coordinate; the additions are those of Go `int`. -/
def deltaPath : List Int → Nat → Int → Int → List Coord
  | [], _, _, _ => []
  | d :: ds, count, lat, lng =>
    if count % 2 = 0 then deltaPath ds (count + 1) (intAdd d lat) lng
    else { X := intAdd d lng, Y := lat } :: deltaPath ds (count + 1) lat (intAdd d lng)

/-- The byte has its continuation bit set for the inner loop: `c - 63 >= 0x20`. -/
def continues (c : Nat) : Bool := decide ((c : Int) - 63 ≥ 0x20)

/-- The encoded string with its final group removed: the last byte goes, and with it the
continuation bytes right before it. -/
def dropLastGroup (encoded : List Nat) : List Nat :=
  encoded.dropLast.rdropWhile continues

/-- A finished run of the loops with the index made explicit: the indices at which
`encoded[index]` was read, in order, the value of `index` at the end, and the result. -/
structure IndexedRun where
  reads : List Nat
  index : Nat
  result : DecodeResult
  deriving DecidableEq, Repr

/-- The loops of `DecodePolyline` with the variable `index` and the reads `encoded[index]`
explicit; the first argument bounds the number of bytes read, `none` when it is used up.
The outer loop ends when `index < len(encoded)` fails at its head (line 208); a read with
`index` out of range panics (line 214); `reads` are the indices read so far. -/
def decodeAt (mk : Nat → Int → Int → Except String Coord) (f : Nat) (encoded : List Nat) :
    Nat → Nat → Option (Int × Nat) → Vars → List Nat → Option IndexedRun
  | 0, _, _, _, _ => none
  | fuel + 1, index, group, v, reads =>
    if group = none ∧ ¬ index < encoded.length then
      some { reads := reads, index := index, result := .ok v.coords }
    else
      match encoded[index]? with
      | none => some { reads := reads ++ [index], index := index, result := .indexOutOfRange }
      | some c =>
        if (innerStep (group.getD (0, 0)).1 (group.getD (0, 0)).2 c).1 ≥ 0x20 then
          decodeAt mk f encoded fuel (index + 1)
            (some (innerStep (group.getD (0, 0)).1 (group.getD (0, 0)).2 c).2) v
            (reads ++ [index])
        else
          match outerTail mk f (innerStep (group.getD (0, 0)).1 (group.getD (0, 0)).2 c).2.1 v
          with
          | .error e => some { reads := reads ++ [index], index := index + 1, result := .err e }
          | .ok v' => decodeAt mk f encoded fuel (index + 1) none v' (reads ++ [index])

/-! ## Lemmas on the Go `int` operations -/

theorem toBits_natCast {a : Nat} (h : a < 2 ^ 64) : toBits (a : Int) = a := by
  unfold toBits
  omega

theorem toBits_lt (x : Int) : toBits x < 2 ^ 64 := by
  unfold toBits
  omega

theorem ofBits_of_lt {n : Nat} (h : n < 2 ^ 63) : ofBits n = (n : Int) := by
  unfold ofBits
  have h1 : n % 2 ^ 64 = n := Nat.mod_eq_of_lt (by omega)
  rw [h1, if_pos h]

theorem wrapInt_of_range {x : Int} (h0 : -2 ^ 63 ≤ x) (h1 : x < 2 ^ 63) : wrapInt x = x := by
  unfold wrapInt ofBits toBits
  split <;> omega

theorem intAnd_0x1f (b : Int) : intAnd b 0x1f = b % 32 := by
  unfold intAnd
  have h31 : toBits 0x1f = 2 ^ 5 - 1 := by decide
  rw [h31, Nat.and_pow_two_sub_one_eq_mod]
  have hlt : toBits b % 2 ^ 5 < 2 ^ 63 := by omega
  rw [ofBits_of_lt hlt]
  unfold toBits
  omega

theorem intAnd_one (x : Int) : intAnd x 1 = x % 2 := by
  unfold intAnd
  have h1 : toBits 1 = 1 := by decide
  rw [h1, Nat.and_one_is_mod]
  have hlt : toBits x % 2 < 2 ^ 63 := by omega
  rw [ofBits_of_lt hlt]
  unfold toBits
  omega

theorem intShl_natCast {a s : Nat} (hs : s < 64) (h : a * 2 ^ s < 2 ^ 63) :
    intShl (a : Int) s = ((a * 2 ^ s : Nat) : Int) := by
  unfold intShl
  have ha : a < 2 ^ 64 := by
    have : a ≤ a * 2 ^ s := Nat.le_mul_of_pos_right a (Nat.two_pow_pos s)
    omega
  rw [if_pos hs, toBits_natCast ha, Nat.shiftLeft_eq, ofBits_of_lt h]

theorem intOr_natCast {a b : Nat} (ha : a < 2 ^ 63) (hb : b < 2 ^ 63) :
    intOr (a : Int) (b : Int) = ((a ||| b : Nat) : Int) := by
  unfold intOr
  rw [toBits_natCast (by omega), toBits_natCast (by omega), ofBits_of_lt (Nat.or_lt_two_pow ha hb)]

/-- Or-ing a payload above the bits already assembled adds it. -/
theorem or_shift_eq_add {r p s : Nat} (hr : r < 2 ^ s) : r ||| (p * 2 ^ s) = r + p * 2 ^ s := by
  rw [Nat.lor_comm, Nat.mul_comm p, ← Nat.mul_add_lt_is_or hr, Nat.add_comm]

/-! ## The scan, one byte and one group at a time -/

theorem decodeLoop_cons (mk : Nat → Int → Int → Except String Coord) (f : Nat) (c : Nat)
    (rest : List Nat) (group : Option (Int × Nat)) (v : Vars) :
    decodeLoop mk f (c :: rest) group v =
      if (innerStep (group.getD (0, 0)).1 (group.getD (0, 0)).2 c).1 ≥ 0x20 then
        decodeLoop mk f rest
          (some (innerStep (group.getD (0, 0)).1 (group.getD (0, 0)).2 c).2) v
      else
        afterGroup mk f rest (innerStep (group.getD (0, 0)).1 (group.getD (0, 0)).2 c).2.1 v := by
  rw [decodeLoop]
  rfl

/-- The inner loop body on a byte of at least 63, while the assembled bits stay below the sign
bit: the payload `(c - 63) mod 32` is added at weight `2^shift`. -/
theorem innerStep_natCast {r s c : Nat} (hc : 63 ≤ c) (hs : s < 64) (hr : r < 2 ^ s)
    (hp : r + (c - 63) % 32 * 2 ^ s < 2 ^ 63) :
    innerStep (r : Int) s c
      = (((c - 63 : Nat) : Int), ((r + (c - 63) % 32 * 2 ^ s : Nat) : Int), s + 5) := by
  unfold innerStep
  have hb : (c : Int) - 63 = ((c - 63 : Nat) : Int) := by omega
  have hpay : ((c - 63 : Nat) : Int) % 32 = (((c - 63) % 32 : Nat) : Int) := by omega
  have h5 : uintAdd5 s = s + 5 := by unfold uintAdd5; omega
  simp only [hb, intAnd_0x1f, hpay, h5]
  rw [intShl_natCast hs (by omega), intOr_natCast (by omega) (by omega), or_shift_eq_add hr]

/-! ## Decoding what the encoder wrote -/

theorem encodeGroups_step {bound V : Nat} (h : ¬ V < 0x20) :
    encodeGroups (bound + 1) V = (V % 32 + 32 + 63) :: encodeGroups bound (V / 32) := by
  have h31 : (0x1f : Nat) = 2 ^ 5 - 1 := by decide
  have hor : 0x20 ||| (V % 2 ^ 5) = V % 32 + 32 := by
    have hlt : V % 2 ^ 5 < 2 ^ 5 := Nat.mod_lt _ (by decide)
    have h1 := Nat.mul_add_lt_is_or hlt 1
    have h2 : 2 ^ 5 * 1 = 0x20 := by decide
    rw [h2] at h1
    omega
  rw [encodeGroups, if_neg h, h31, Nat.and_pow_two_sub_one_eq_mod, hor, Nat.shiftRight_eq_div_pow]

/-- The scan reads the bytes written for the unsigned value `V` as one group and leaves the
inner loop with `r + V * 2^s`, where `r` and `s` are the `result` and `shift` it started the
group with. -/
theorem decodeLoop_encodeGroups (mk : Nat → Int → Int → Except String Coord) (f : Nat)
    (rest : List Nat) (v : Vars) :
    ∀ (bound V r s : Nat) (group : Option (Int × Nat)), V ≤ bound → s < 64 → r < 2 ^ s →
      r + V * 2 ^ s < 2 ^ 63 → group.getD (0, 0) = ((r : Int), s) →
      decodeLoop mk f (encodeGroups bound V ++ rest) group v
        = afterGroup mk f rest ((r + V * 2 ^ s : Nat) : Int) v := by
  intro bound
  induction bound with
  | zero =>
    intro V r s group hV hs hr hlt hg
    have hV0 : V = 0 := by omega
    subst hV0
    simp only [encodeGroups, List.singleton_append]
    rw [decodeLoop_cons, hg, innerStep_natCast (by omega) hs hr (by simpa using hlt)]
    simp
  | succ bound ih =>
    intro V r s group hV hs hr hlt hg
    by_cases hsmall : V < 0x20
    · rw [encodeGroups, if_pos hsmall, List.singleton_append, decodeLoop_cons, hg]
      have hmod : (V + 63 - 63) % 32 = V := by omega
      rw [innerStep_natCast (by omega) hs hr (by rw [hmod]; exact hlt), hmod]
      have : ¬ ((V + 63 - 63 : Nat) : Int) ≥ 0x20 := by omega
      simp only [this, if_false]
    · rw [encodeGroups_step hsmall, List.cons_append, decodeLoop_cons, hg]
      have hmod : (V % 32 + 32 + 63 - 63) % 32 = V % 32 := by omega
      have hsplit : V * 2 ^ s = V % 32 * 2 ^ s + V / 32 * 2 ^ (s + 5) := by
        have h1 : V = 32 * (V / 32) + V % 32 := (Nat.div_add_mod V 32).symm
        rw [pow_add]
        nlinarith [h1]
      have hpos : 0 < V / 32 := by omega
      have hpow : 2 ^ (s + 5) ≤ V / 32 * 2 ^ (s + 5) := Nat.le_mul_of_pos_left _ hpos
      have hs5 : s + 5 < 63 := by
        have h2 : 2 ^ (s + 5) < 2 ^ 63 := by omega
        exact (Nat.pow_lt_pow_iff_right (by decide)).1 h2
      have hr5 : r + V % 32 * 2 ^ s < 2 ^ (s + 5) := by
        have h3 : V % 32 < 32 := Nat.mod_lt _ (by decide)
        have h4 : V % 32 * 2 ^ s ≤ 31 * 2 ^ s := Nat.mul_le_mul_right _ (by omega)
        have h5 : 2 ^ (s + 5) = 32 * 2 ^ s := by rw [pow_add]; ring
        omega
      rw [innerStep_natCast (by omega) hs hr (by rw [hmod]; omega), hmod]
      have hb : ((V % 32 + 32 + 63 - 63 : Nat) : Int) ≥ 0x20 := by omega
      simp only [hb, if_true]
      rw [ih (V / 32) (r + V % 32 * 2 ^ s) (s + 5)
        (some (((r + V % 32 * 2 ^ s : Nat) : Int), s + 5)) (by omega) (by omega) hr5 (by omega) rfl]
      congr 2
      omega

theorem decodeLoop_encodeUnsigned (mk : Nat → Int → Int → Except String Coord) (f : Nat)
    (rest : List Nat) (v : Vars) (V : Nat) (hV : V < 2 ^ 63) :
    decodeLoop mk f (encodeUnsigned V ++ rest) none v = afterGroup mk f rest (V : Int) v := by
  have h := decodeLoop_encodeGroups mk f rest v V V 0 0 none (Nat.le_refl V) (by decide)
    (by decide) (by simpa using hV) rfl
  simpa [encodeUnsigned] using h

/-- Sign detection undoes the zig-zag code. -/
theorem signDetect_zigzag (n : Int) : signDetect ((zigzag n : Nat) : Int) = n := by
  unfold signDetect zigzag intShr1 intNot
  rw [intAnd_one]
  split <;> split <;> omega

theorem zigzag_lt {n : Int} (h0 : -2 ^ 62 ≤ n) (h1 : n < 2 ^ 62) : zigzag n < 2 ^ 63 := by
  unfold zigzag
  split <;> omega

theorem decodeLoop_encodeSigned (mk : Nat → Int → Int → Except String Coord) (f : Nat)
    (rest : List Nat) (v : Vars) (n : Int) (h0 : -2 ^ 62 ≤ n) (h1 : n < 2 ^ 62) :
    decodeLoop mk f (encodeSigned n ++ rest) none v
      = afterGroup mk f rest ((zigzag n : Nat) : Int) v :=
  decodeLoop_encodeUnsigned mk f rest v (zigzag n) (zigzag_lt h0 h1)

theorem DeltasFit.mono {bits bits' : Nat} (h : bits ≤ bits') :
    ∀ (path : List (Int × Int)) (a b : Int), DeltasFit bits a b path → DeltasFit bits' a b path
  | [], _, _, _ => trivial
  | p :: ps, a, b, hd => by
    have hpow : (2 : Int) ^ bits ≤ 2 ^ bits' := pow_le_pow_right₀ (by norm_num) h
    obtain ⟨h1, h2, h3⟩ := hd
    exact ⟨⟨by omega, by omega⟩, ⟨by omega, by omega⟩, DeltasFit.mono h ps p.1 p.2 h3⟩

/-- The scan of an encoded path, started at the head of the outer loop with an even `count`
and the accumulators at the previous point, appends the points of the path. -/
theorem decodeLoop_encodeFrom (mk : Nat → Int → Int → Except String Coord) (f : Nat) :
    ∀ (path : List (Int × Int)) (a b : Int) (count : Nat) (coords : List Coord),
      count % 2 = 0 →
      (∀ p ∈ path, IsGoInt p.1 ∧ IsGoInt p.2) →
      (∀ p ∈ path, mk f p.1 p.2 = .ok (toCoord p)) →
      DeltasFit 62 a b path →
      decodeLoop mk f (encodeFrom a b path) none
          { count := count, lat := a, lng := b, coords := coords }
        = .ok (coords ++ path.map toCoord) := by
  intro path
  induction path with
  | nil =>
    intro a b count coords _ _ _ _
    simp [encodeFrom, decodeLoop]
  | cons p ps ih =>
    intro a b count coords hc hint hvalid hd
    obtain ⟨⟨hd1, hd2⟩, ⟨hd3, hd4⟩, hd5⟩ := hd
    obtain ⟨⟨hi1, hi2⟩, ⟨hi3, hi4⟩⟩ := hint p (List.mem_cons_self _ _)
    have hv := hvalid p (List.mem_cons_self _ _)
    have hlat : intAdd (p.1 - a) a = p.1 := by
      unfold intAdd
      rw [wrapInt_of_range (by omega) (by omega)]
      omega
    have hlng : intAdd (p.2 - b) b = p.2 := by
      unfold intAdd
      rw [wrapInt_of_range (by omega) (by omega)]
      omega
    have hc1 : ¬ (count + 1) % 2 = 0 := by omega
    rw [encodeFrom, List.append_assoc, decodeLoop_encodeSigned mk f _ _ _ hd1 hd2]
    simp only [afterGroup, outerTail, signDetect_zigzag, hc, if_true, hlat]
    rw [decodeLoop_encodeSigned mk f _ _ _ hd3 hd4]
    simp only [afterGroup, outerTail, signDetect_zigzag, hc1, if_false, hlng, hv]
    rw [ih p.1 p.2 (count + 1 + 1) _ (by omega)
      (fun q hq => hint q (List.mem_cons_of_mem _ hq))
      (fun q hq => hvalid q (List.mem_cons_of_mem _ hq)) hd5]
    simp

/-! ## Validation and truncation -/

theorem afterGroup_even (mk : Nat → Int → Int → Except String Coord) (f : Nat) (rest : List Nat)
    (result : Int) {count : Nat} (lat lng : Int) (coords : List Coord) (h : count % 2 = 0) :
    afterGroup mk f rest result { count := count, lat := lat, lng := lng, coords := coords }
      = decodeLoop mk f rest none
          { count := count + 1, lat := intAdd (signDetect result) lat, lng := lng,
            coords := coords } := by
  simp only [afterGroup, outerTail, h, if_true]

theorem afterGroup_odd_error (mk : Nat → Int → Int → Except String Coord) (f : Nat)
    (rest : List Nat) (result : Int) {count : Nat} (lat lng : Int) (coords : List Coord)
    (h : ¬ count % 2 = 0) {e : String}
    (hmk : mk f lat (intAdd (signDetect result) lng) = .error e) :
    afterGroup mk f rest result { count := count, lat := lat, lng := lng, coords := coords }
      = .err e := by
  simp only [afterGroup, outerTail, h, if_false, hmk]

theorem afterGroup_odd_ok (mk : Nat → Int → Int → Except String Coord) (f : Nat)
    (rest : List Nat) (result : Int) {count : Nat} (lat lng : Int) (coords : List Coord)
    (h : ¬ count % 2 = 0) {coord : Coord}
    (hmk : mk f lat (intAdd (signDetect result) lng) = .ok coord) :
    afterGroup mk f rest result { count := count, lat := lat, lng := lng, coords := coords }
      = decodeLoop mk f rest none
          { count := count + 1, lat := lat, lng := intAdd (signDetect result) lng,
            coords := coords ++ [coord] } := by
  simp only [afterGroup, outerTail, h, if_false, hmk]

/-- Coordinates already collected are carried through the scan unchanged. -/
theorem decodeLoop_coords_append (mk : Nat → Int → Int → Except String Coord) (f : Nat) :
    ∀ (bs : List Nat) (group : Option (Int × Nat)) (count : Nat) (lat lng : Int)
      (c0 c : List Coord),
      decodeLoop mk f bs group { count := count, lat := lat, lng := lng, coords := c0 ++ c }
        = prepend c0
            (decodeLoop mk f bs group { count := count, lat := lat, lng := lng, coords := c }) := by
  intro bs
  induction bs with
  | nil =>
    intro group count lat lng c0 c
    cases group <;> simp [decodeLoop, prepend]
  | cons b rest ih =>
    intro group count lat lng c0 c
    rw [decodeLoop_cons, decodeLoop_cons]
    by_cases hb : (innerStep (group.getD (0, 0)).1 (group.getD (0, 0)).2 b).1 ≥ 0x20
    · rw [if_pos hb, if_pos hb]
      exact ih _ _ _ _ _ _
    · rw [if_neg hb, if_neg hb]
      by_cases hc : count % 2 = 0
      · rw [afterGroup_even _ _ _ _ _ _ _ hc, afterGroup_even _ _ _ _ _ _ _ hc]
        exact ih _ _ _ _ _ _
      · cases hmk : mk f lat (intAdd (signDetect
            (innerStep (group.getD (0, 0)).1 (group.getD (0, 0)).2 b).2.1) lng) with
        | error e =>
          rw [afterGroup_odd_error _ _ _ _ _ _ _ hc hmk, afterGroup_odd_error _ _ _ _ _ _ _ hc hmk]
          rfl
        | ok coord =>
          rw [afterGroup_odd_ok _ _ _ _ _ _ _ hc hmk, afterGroup_odd_ok _ _ _ _ _ _ _ hc hmk,
            List.append_assoc]
          exact ih _ _ _ _ _ _

theorem EndsOnGroup.tail {b : Nat} {rest : List Nat} (h : EndsOnGroup (b :: rest))
    (hne : rest ≠ []) : EndsOnGroup rest := by
  intro c hc
  apply h c
  obtain ⟨x, xs, rfl⟩ := List.exists_cons_of_ne_nil hne
  rw [List.getLast?_cons_cons]
  exact hc

/-- Without validation, a scan that does not stop in the middle of a group returns a path. -/
theorem decodeLoop_acceptAll_ok (f : Nat) :
    ∀ (bs : List Nat) (group : Option (Int × Nat)) (v : Vars),
      EndsOnGroup bs → (bs = [] → group = none) →
      ∃ pairs, decodeLoop acceptAll f bs group v = .ok pairs := by
  intro bs
  induction bs with
  | nil =>
    intro group v _ hg
    rw [hg rfl]
    exact ⟨v.coords, rfl⟩
  | cons b rest ih =>
    intro group v hend _
    obtain ⟨count, lat, lng, coords⟩ := v
    rw [decodeLoop_cons]
    by_cases hb : (innerStep (group.getD (0, 0)).1 (group.getD (0, 0)).2 b).1 ≥ 0x20
    · rw [if_pos hb]
      have hne : rest ≠ [] := by
        intro hnil
        subst hnil
        have := hend b rfl
        simp only [innerStep] at hb
        omega
      exact ih _ _ (hend.tail hne) (fun h => absurd h hne)
    · rw [if_neg hb]
      have hrest : EndsOnGroup rest := by
        by_cases hne : rest = []
        · subst hne
          intro c hc
          cases hc
        · exact hend.tail hne
      by_cases hc : count % 2 = 0
      · rw [afterGroup_even _ _ _ _ _ _ _ hc]
        exact ih _ _ hrest (fun _ => rfl)
      · rw [afterGroup_odd_ok acceptAll _ _ _ _ _ _ hc rfl]
        exact ih _ _ hrest (fun _ => rfl)

theorem validateAll_cons_error (mk : Nat → Int → Int → Except String Coord) (f : Nat)
    (lat lng : Int) (ps : List Coord) {e : String} (h : mk f lat lng = .error e) :
    validateAll mk f ({ X := lng, Y := lat } :: ps) = .error e := by
  rw [validateAll]
  simp only [h]

theorem validateAll_cons_ok (mk : Nat → Int → Int → Except String Coord) (f : Nat)
    (lat lng : Int) (ps : List Coord) {c : Coord} (h : mk f lat lng = .ok c) :
    validateAll mk f ({ X := lng, Y := lat } :: ps)
      = match validateAll mk f ps with
        | .error e => .error e
        | .ok cs => .ok (c :: cs) := by
  rw [validateAll]
  simp only [h]

/-- The scan with a validating constructor is the scan without validation followed by the
validation of the completed pairs in order, whenever the latter scan returns a path. -/
theorem decodeLoop_eq_validateAll (mk : Nat → Int → Int → Except String Coord) (f : Nat) :
    ∀ (bs : List Nat) (group : Option (Int × Nat)) (count : Nat) (lat lng : Int)
      (pairs : List Coord),
      decodeLoop acceptAll f bs group { count := count, lat := lat, lng := lng, coords := [] }
        = .ok pairs →
      decodeLoop mk f bs group { count := count, lat := lat, lng := lng, coords := [] }
        = match validateAll mk f pairs with
          | .error e => .err e
          | .ok cs => .ok cs := by
  intro bs
  induction bs with
  | nil =>
    intro group count lat lng pairs h
    cases group with
    | none =>
      simp only [decodeLoop, DecodeResult.ok.injEq] at h
      subst h
      rfl
    | some g => simp [decodeLoop] at h
  | cons b rest ih =>
    intro group count lat lng pairs h
    rw [decodeLoop_cons] at h ⊢
    by_cases hb : (innerStep (group.getD (0, 0)).1 (group.getD (0, 0)).2 b).1 ≥ 0x20
    · rw [if_pos hb] at h ⊢
      exact ih _ _ _ _ _ h
    · rw [if_neg hb] at h ⊢
      by_cases hc : count % 2 = 0
      · rw [afterGroup_even _ _ _ _ _ _ _ hc] at h ⊢
        exact ih _ _ _ _ _ h
      · rw [afterGroup_odd_ok acceptAll _ _ _ _ _ _ hc rfl] at h
        have happ := decodeLoop_coords_append acceptAll f rest none (count + 1) lat
          (intAdd (signDetect (innerStep (group.getD (0, 0)).1 (group.getD (0, 0)).2 b).2.1) lng)
          [{ X := intAdd (signDetect
              (innerStep (group.getD (0, 0)).1 (group.getD (0, 0)).2 b).2.1) lng, Y := lat }] []
        rw [List.append_nil] at happ
        rw [List.nil_append, happ] at h
        cases hrest : decodeLoop acceptAll f rest none
            { count := count + 1, lat := lat,
              lng := intAdd (signDetect
                (innerStep (group.getD (0, 0)).1 (group.getD (0, 0)).2 b).2.1) lng,
              coords := [] } with
        | err e => rw [hrest] at h; simp [prepend] at h
        | indexOutOfRange => rw [hrest] at h; simp [prepend] at h
        | ok ps =>
          rw [hrest] at h
          simp only [prepend, DecodeResult.ok.injEq] at h
          subst h
          have hih := ih none (count + 1) lat _ ps hrest
          cases hmk : mk f lat (intAdd (signDetect
              (innerStep (group.getD (0, 0)).1 (group.getD (0, 0)).2 b).2.1) lng) with
          | error e =>
            rw [afterGroup_odd_error _ _ _ _ _ _ _ hc hmk, List.singleton_append,
              validateAll_cons_error mk f _ _ ps hmk]
          | ok coord =>
            rw [afterGroup_odd_ok _ _ _ _ _ _ _ hc hmk]
            have happ2 := decodeLoop_coords_append mk f rest none (count + 1) lat
              (intAdd (signDetect
                (innerStep (group.getD (0, 0)).1 (group.getD (0, 0)).2 b).2.1) lng) [coord] []
            rw [List.append_nil] at happ2
            rw [List.nil_append, happ2, hih, List.singleton_append,
              validateAll_cons_ok mk f _ _ ps hmk]
            cases validateAll mk f ps <;> rfl

theorem validateAll_error_iff (mk : Nat → Int → Int → Except String Coord) (f : Nat) :
    ∀ ps : List Coord,
      (∃ e, validateAll mk f ps = .error e) ↔ ∃ p ∈ ps, ∃ e, mk f p.Y p.X = .error e := by
  intro ps
  induction ps with
  | nil => simp [validateAll]
  | cons p ps ih =>
    rw [validateAll]
    cases hmk : mk f p.Y p.X with
    | error e => simp [hmk]
    | ok c =>
      simp only [List.mem_cons, exists_eq_or_imp, hmk, reduceCtorEq, exists_false, false_or]
      rw [← ih]
      cases validateAll mk f ps <;> simp

theorem validateAll_ok (mk : Nat → Int → Int → Except String Coord) (f : Nat) :
    ∀ (ps cs : List Coord), validateAll mk f ps = .ok cs →
      List.Forall₂ (fun p c => mk f p.Y p.X = .ok c) ps cs := by
  intro ps
  induction ps with
  | nil =>
    intro cs h
    simp only [validateAll, Except.ok.injEq] at h
    subst h
    exact List.Forall₂.nil
  | cons p ps ih =>
    intro cs h
    rw [validateAll] at h
    cases hmk : mk f p.Y p.X with
    | error e => simp [hmk] at h
    | ok c =>
      cases hv : validateAll mk f ps with
      | error e => simp [hmk, hv] at h
      | ok cs' =>
        simp only [hmk, hv, Except.ok.injEq] at h
        subst h
        exact List.Forall₂.cons hmk (ih cs' hv)

/-- A scan that must still read a byte when the input ends, or whose last byte asks for another
one, never returns a path: it panics, unless the constructor has rejected a pair before. -/
theorem decodeLoop_truncated (mk : Nat → Int → Int → Except String Coord) (f : Nat) :
    ∀ (bs : List Nat) (group : Option (Int × Nat)) (v : Vars),
      (bs = [] → group ≠ none) → (∀ c, bs.getLast? = some c → (c : Int) - 63 ≥ 0x20) →
      decodeLoop mk f bs group v = .indexOutOfRange ∨ ∃ e, decodeLoop mk f bs group v = .err e := by
  intro bs
  induction bs with
  | nil =>
    intro group v hg _
    cases group with
    | none => exact absurd rfl (hg rfl)
    | some g => exact Or.inl rfl
  | cons b rest ih =>
    intro group v _ hlast
    obtain ⟨count, lat, lng, coords⟩ := v
    have hrest : rest ≠ [] → ∀ c, rest.getLast? = some c → (c : Int) - 63 ≥ 0x20 := by
      intro hne c hc
      apply hlast c
      obtain ⟨x, xs, rfl⟩ := List.exists_cons_of_ne_nil hne
      rw [List.getLast?_cons_cons]
      exact hc
    rw [decodeLoop_cons]
    by_cases hb : (innerStep (group.getD (0, 0)).1 (group.getD (0, 0)).2 b).1 ≥ 0x20
    · rw [if_pos hb]
      by_cases hne : rest = []
      · subst hne
        exact Or.inl rfl
      · exact ih _ _ (fun h => absurd h hne) (hrest hne)
    · rw [if_neg hb]
      have hne : rest ≠ [] := by
        intro hnil
        subst hnil
        have := hlast b rfl
        simp only [innerStep] at hb
        omega
      by_cases hc : count % 2 = 0
      · rw [afterGroup_even _ _ _ _ _ _ _ hc]
        exact ih _ _ (fun h => absurd h hne) (hrest hne)
      · cases hmk : mk f lat (intAdd (signDetect
            (innerStep (group.getD (0, 0)).1 (group.getD (0, 0)).2 b).2.1) lng) with
        | error e =>
          rw [afterGroup_odd_error _ _ _ _ _ _ _ hc hmk]
          exact Or.inr ⟨e, rfl⟩
        | ok coord =>
          rw [afterGroup_odd_ok _ _ _ _ _ _ _ hc hmk]
          exact ih _ _ (fun h => absurd h hne) (hrest hne)

/-! ## The claims on `DecodePolyline` -/

/-- C1: decoding the reference polyline at scale 1e5 returns no error and exactly three
coordinates, in this order: (lat 38.5, lon -120.2), (lat 40.7, lon -120.95),
(lat 43.252, lon -126.453); the integer accumulators before the division by the scale are
(3850000, -12020000), (4070000, -12095000), (4325200, -12645300). -/
theorem C1_reference_polyline :
    DecodePolyline (bytes "_p~iF~ps|U_ulLnnqC_mqNvxq`@") 100000
      = .ok [{ X := -12020000, Y := 3850000 }, { X := -12095000, Y := 4070000 },
             { X := -12645300, Y := 4325200 }] := by
  decide

/-- C2: round trip.  For every validating constructor, every scale `f` and every list of
integer (lat, lon) pairs that are Go `int` values, that the constructor accepts at scale `f`
(returning the coordinate of the pair), and whose deltas (the first taken from (0, 0)) lie in
`[-2^59, 2^59)`, decoding the output of the standard encoder returns no error and the path
whose k-th coordinate has the numerators of the k-th pair. -/
theorem C2_decode_encode_roundtrip (mk : Nat → Int → Int → Except String Coord)
    (path : List (Int × Int)) (f : Nat)
    (hint : ∀ p ∈ path, IsGoInt p.1 ∧ IsGoInt p.2)
    (hvalid : ∀ p ∈ path, mk f p.1 p.2 = .ok (toCoord p))
    (hdelta : DeltasFit 59 0 0 path) :
    DecodePolylineWith mk (encode path) f = .ok (path.map toCoord) := by
  have h := decodeLoop_encodeFrom mk f path 0 0 0 [] rfl hint hvalid
    (DeltasFit.mono (by decide) path 0 0 hdelta)
  simpa [DecodePolylineWith, encode] using h

/-- C2, at the three points of the reference polyline with the constructor of the spec. -/
theorem C2_decode_encode_roundtrip_witness :
    (∀ p ∈ [((3850000 : Int), (-12020000 : Int)), (4070000, -12095000), (4325200, -12645300)],
        IsGoInt p.1 ∧ IsGoInt p.2) ∧
    (∀ p ∈ [((3850000 : Int), (-12020000 : Int)), (4070000, -12095000), (4325200, -12645300)],
        NewCoordinateFromLatLons 100000 p.1 p.2 = .ok (toCoord p)) ∧
    DeltasFit 59 0 0 [(3850000, -12020000), (4070000, -12095000), (4325200, -12645300)] ∧
    DecodePolylineWith NewCoordinateFromLatLons
        (encode [(3850000, -12020000), (4070000, -12095000), (4325200, -12645300)]) 100000
      = .ok ([(3850000, -12020000), (4070000, -12095000), (4325200, -12645300)].map toCoord) :=
  ⟨by decide, by decide, by decide,
    C2_decode_encode_roundtrip NewCoordinateFromLatLons
      [(3850000, -12020000), (4070000, -12095000), (4325200, -12645300)] 100000
      (by decide) (by decide) (by decide)⟩

/-- C3: truncated input is not reported as a decode error.  On the one-byte polyline `"_"`,
whose only byte has the continuation bit set, `DecodePolyline` reads `encoded[1]` and panics
with an index out of range at every scale, and the handler writes no response.  In general,
on a string whose last byte has the continuation bit set the function never returns a path:
it panics, unless the constructor has rejected a pair completed before the end. -/
theorem C3_truncated_input_panics :
    (∀ f : Nat, DecodePolyline (bytes "_") f = .indexOutOfRange) ∧
    (PolylineHandler (exampleEnv false) NewDefaultPolylineHandlerOptions
        [(bytes "polyline", bytes "_")]).response = none ∧
    (∀ (mk : Nat → Int → Int → Except String Coord) (f : Nat) (start : List Nat) (c : Nat),
      (c : Int) - 63 ≥ 0x20 →
      DecodePolylineWith mk (start ++ [c]) f = .indexOutOfRange ∨
        ∃ e, DecodePolylineWith mk (start ++ [c]) f = .err e) := by
  refine ⟨fun f => rfl, by decide, ?_⟩
  intro mk f start c hc
  apply decodeLoop_truncated mk f (start ++ [c]) none
  · intro h
    simp at h
  · intro c' hc'
    simp only [List.getLast?_append, List.getLast?_singleton, Option.or_some,
      Option.some.injEq] at hc'
    rw [← hc']
    exact hc

/-- C4: invalid coordinates are rejected atomically.  For every validating constructor, every
scale and every encoded string that does not end in the middle of a group, the scan without
validation returns the completed pairs, and `DecodePolyline` returns an error exactly when the
constructor rejects one of them; it returns either an error (and no path) or a path whose
coordinates are what the constructor returned for the completed pairs, in order. -/
theorem C4_error_iff_pair_rejected (mk : Nat → Int → Int → Except String Coord)
    (encoded : List Nat) (f : Nat) (hend : EndsOnGroup encoded) :
    ∃ pairs, DecodePolylineWith acceptAll encoded f = .ok pairs ∧
      ((∃ e, DecodePolylineWith mk encoded f = .err e) ↔
        ∃ p ∈ pairs, ∃ e, mk f p.Y p.X = .error e) ∧
      ((∃ e, DecodePolylineWith mk encoded f = .err e) ∨
        ∃ cs, DecodePolylineWith mk encoded f = .ok cs ∧
          List.Forall₂ (fun p c => mk f p.Y p.X = .ok c) pairs cs) := by
  obtain ⟨pairs, hpairs⟩ := decodeLoop_acceptAll_ok f encoded none
    { count := 0, lat := 0, lng := 0, coords := [] } hend (fun _ => rfl)
  have hmk := decodeLoop_eq_validateAll mk f encoded none 0 0 0 pairs hpairs
  refine ⟨pairs, hpairs, ?_, ?_⟩
  · rw [← validateAll_error_iff]
    unfold DecodePolylineWith
    rw [hmk]
    cases validateAll mk f pairs <;> simp
  · unfold DecodePolylineWith
    rw [hmk]
    cases hv : validateAll mk f pairs with
    | error e => exact Or.inl ⟨e, rfl⟩
    | ok cs => exact Or.inr ⟨cs, rfl, validateAll_ok mk f pairs cs hv⟩

/-- C4, at a polyline of two pairs whose second latitude is 91 degrees. -/
theorem C4_error_iff_pair_rejected_witness :
    EndsOnGroup (bytes "??_mljP?") ∧
    ∃ pairs, DecodePolylineWith acceptAll (bytes "??_mljP?") 100000 = .ok pairs ∧
      ((∃ e, DecodePolylineWith NewCoordinateFromLatLons (bytes "??_mljP?") 100000 = .err e) ↔
        ∃ p ∈ pairs, ∃ e, NewCoordinateFromLatLons 100000 p.Y p.X = .error e) ∧
      ((∃ e, DecodePolylineWith NewCoordinateFromLatLons (bytes "??_mljP?") 100000 = .err e) ∨
        ∃ cs, DecodePolylineWith NewCoordinateFromLatLons (bytes "??_mljP?") 100000 = .ok cs ∧
          List.Forall₂ (fun p c => NewCoordinateFromLatLons 100000 p.Y p.X = .ok c) pairs cs) :=
  ⟨by decide, C4_error_iff_pair_rejected NewCoordinateFromLatLons (bytes "??_mljP?") 100000
    (by decide)⟩

/-! ## The uniqueness pass -/

theorem firstOccurrencesAfter_append (xs : List StandardPlacesResult) :
    ∀ (earlier ys : List StandardPlacesResult),
      firstOccurrencesAfter earlier (xs ++ ys)
        = firstOccurrencesAfter earlier xs ++ firstOccurrencesAfter (earlier ++ xs) ys := by
  induction xs with
  | nil => intro earlier ys; simp [firstOccurrencesAfter]
  | cons r rs ih =>
    intro earlier ys
    have hassoc : earlier ++ r :: rs = earlier ++ [r] ++ rs := by simp
    rw [List.cons_append, firstOccurrencesAfter, firstOccurrencesAfter.eq_2 earlier r rs]
    by_cases hr : r.Id ∈ earlier.map (fun e => e.Id)
    · rw [if_pos hr, if_pos hr, ih, hassoc]
    · rw [if_neg hr, if_neg hr, ih, hassoc, List.cons_append]

/-- The inner loop appends the first occurrences among the records of the segment, as long as
`seen` holds the identifiers of the records before it. -/
theorem uniqueSegment_spec (xs : List StandardPlacesResult) :
    ∀ (rows : List StandardPlacesResult) (seen : List String)
      (earlier : List StandardPlacesResult),
      (∀ id, id ∈ seen ↔ id ∈ earlier.map (fun e => e.Id)) →
      (uniqueSegment xs (rows, seen)).1 = rows ++ firstOccurrencesAfter earlier xs ∧
      ∀ id, id ∈ (uniqueSegment xs (rows, seen)).2 ↔ id ∈ (earlier ++ xs).map (fun e => e.Id) := by
  induction xs with
  | nil =>
    intro rows seen earlier hseen
    simpa [uniqueSegment, firstOccurrencesAfter] using hseen
  | cons r rs ih =>
    intro rows seen earlier hseen
    have hassoc : earlier ++ r :: rs = earlier ++ [r] ++ rs := by simp
    by_cases hr : r.Id ∈ seen
    · have hr' : r.Id ∈ earlier.map (fun e => e.Id) := (hseen _).1 hr
      have hseen' : ∀ id, id ∈ seen ↔ id ∈ (earlier ++ [r]).map (fun e => e.Id) := by
        intro id
        rw [hseen id]
        simp only [List.map_append, List.map_cons, List.map_nil, List.mem_append,
          List.mem_singleton]
        constructor
        · exact Or.inl
        · rintro (h | h)
          · exact h
          · rw [h]; exact hr'
      have h := ih rows seen (earlier ++ [r]) hseen'
      rw [uniqueSegment, if_pos hr, firstOccurrencesAfter, if_pos hr', hassoc]
      exact h
    · have hr' : r.Id ∉ earlier.map (fun e => e.Id) := fun h => hr ((hseen _).2 h)
      have hseen' : ∀ id, id ∈ r.Id :: seen ↔ id ∈ (earlier ++ [r]).map (fun e => e.Id) := by
        intro id
        simp only [List.mem_cons, hseen id, List.map_append, List.map_cons, List.map_nil,
          List.mem_append, List.mem_singleton]
        tauto
      have h := ih (rows ++ [r]) (r.Id :: seen) (earlier ++ [r]) hseen'
      rw [uniqueSegment, if_neg hr, firstOccurrencesAfter, if_neg hr', hassoc]
      simpa using h

theorem uniqueRows_foldl (segments : List (List StandardPlacesResult)) :
    ∀ (rows : List StandardPlacesResult) (seen : List String)
      (earlier : List StandardPlacesResult),
      (∀ id, id ∈ seen ↔ id ∈ earlier.map (fun e => e.Id)) →
      (segments.foldl (fun state rs => uniqueSegment rs state) (rows, seen)).1
        = rows ++ firstOccurrencesAfter earlier segments.flatten := by
  induction segments with
  | nil => intro rows seen earlier _; simp [firstOccurrencesAfter]
  | cons rs rest ih =>
    intro rows seen earlier hseen
    obtain ⟨h1, h2⟩ := uniqueSegment_spec rs rows seen earlier hseen
    rw [List.foldl_cons, List.flatten_cons, firstOccurrencesAfter_append]
    have h := ih (uniqueSegment rs (rows, seen)).1 (uniqueSegment rs (rows, seen)).2
      (earlier ++ rs) h2
    rw [h, h1, List.append_assoc]

theorem firstOccurrencesAfter_sublist (xs : List StandardPlacesResult) :
    ∀ earlier, (firstOccurrencesAfter earlier xs).Sublist xs := by
  induction xs with
  | nil => intro earlier; exact List.Sublist.slnil
  | cons r rs ih =>
    intro earlier
    rw [firstOccurrencesAfter]
    split
    · exact List.Sublist.cons r (ih _)
    · exact List.Sublist.cons₂ r (ih _)

theorem firstOccurrencesAfter_nodup (xs : List StandardPlacesResult) :
    ∀ earlier, ((firstOccurrencesAfter earlier xs).map (fun e => e.Id)).Nodup ∧
      ∀ id ∈ (firstOccurrencesAfter earlier xs).map (fun e => e.Id),
        id ∉ earlier.map (fun e => e.Id) := by
  induction xs with
  | nil => intro earlier; simp [firstOccurrencesAfter]
  | cons r rs ih =>
    intro earlier
    obtain ⟨hnd, hdisj⟩ := ih (earlier ++ [r])
    have hdisj' : ∀ id ∈ (firstOccurrencesAfter (earlier ++ [r]) rs).map (fun e => e.Id),
        id ∉ earlier.map (fun e => e.Id) ∧ id ≠ r.Id := by
      intro id hid
      have := hdisj id hid
      simp only [List.map_append, List.map_cons, List.map_nil, List.mem_append,
        List.mem_singleton, not_or] at this
      exact this
    rw [firstOccurrencesAfter]
    split
    · exact ⟨hnd, fun id hid => (hdisj' id hid).1⟩
    · next hr =>
      refine ⟨?_, ?_⟩
      · rw [List.map_cons, List.nodup_cons]
        exact ⟨fun hmem => (hdisj' _ hmem).2 rfl, hnd⟩
      · intro id hid
        rw [List.map_cons, List.mem_cons] at hid
        rcases hid with h | h
        · rw [h]; exact hr
        · exact (hdisj' id h).1

theorem firstOccurrencesAfter_covers (xs : List StandardPlacesResult) :
    ∀ earlier, ∀ x ∈ xs, x.Id ∈ earlier.map (fun e => e.Id) ∨
      x.Id ∈ (firstOccurrencesAfter earlier xs).map (fun e => e.Id) := by
  induction xs with
  | nil => intro earlier x hx; cases hx
  | cons r rs ih =>
    intro earlier x hx
    rw [firstOccurrencesAfter]
    rw [List.mem_cons] at hx
    by_cases hr : r.Id ∈ earlier.map (fun e => e.Id)
    · rw [if_pos hr]
      rcases hx with h | h
      · rw [h]; exact Or.inl hr
      · rcases ih (earlier ++ [r]) x h with h' | h'
        · simp only [List.map_append, List.map_cons, List.map_nil, List.mem_append,
            List.mem_singleton] at h'
          rcases h' with h'' | h''
          · exact Or.inl h''
          · rw [h'']; exact Or.inl hr
        · exact Or.inr h'
    · rw [if_neg hr, List.map_cons, List.mem_cons]
      rcases hx with h | h
      · rw [h]; exact Or.inr (Or.inl rfl)
      · rcases ih (earlier ++ [r]) x h with h' | h'
        · simp only [List.map_append, List.map_cons, List.map_nil, List.mem_append,
            List.mem_singleton] at h'
          rcases h' with h'' | h''
          · exact Or.inl h''
          · exact Or.inr (Or.inl h'')
        · exact Or.inr (Or.inr h')

theorem uniqueRows_eq (results : List (List StandardPlacesResult)) :
    uniqueRows results = firstOccurrences results.flatten := by
  have h := uniqueRows_foldl results [] [] [] (by simp)
  simpa [uniqueRows, firstOccurrences] using h

/-- C5: uniqueness mode is first-occurrence deduplication.  For every sequence of segment
results, the rows collected by the uniqueness pass are the flattening of the segments' records
(segment order, then the order inside a segment) with every record removed whose identifier
already occurred earlier in the flattening; hence the rows are a subsequence of the
flattening, no two rows share an identifier, and every identifier of the input occurs in the
rows exactly once.  Identifiers [A, B] and [A, C] in two segments give exactly [A, B, C]. -/
theorem C5_unique_rows_first_occurrences :
    (∀ results : List (List StandardPlacesResult),
      uniqueRows results = firstOccurrences results.flatten ∧
      (uniqueRows results).Sublist results.flatten ∧
      ((uniqueRows results).map (fun r => r.Id)).Nodup ∧
      ∀ r ∈ results.flatten, ((uniqueRows results).map (fun r => r.Id)).count r.Id = 1) ∧
    uniqueRows [[{ Id := "A", Rest := "a1" }, { Id := "B", Rest := "b" },
                 { Id := "A", Rest := "a2" }], [{ Id := "C", Rest := "c" }]]
      = [{ Id := "A", Rest := "a1" }, { Id := "B", Rest := "b" }, { Id := "C", Rest := "c" }] ∧
    uniqueRows [[{ Id := "A", Rest := "a1" }, { Id := "B", Rest := "b" }],
                [{ Id := "A", Rest := "a2" }, { Id := "C", Rest := "c" }]]
      = [{ Id := "A", Rest := "a1" }, { Id := "B", Rest := "b" }, { Id := "C", Rest := "c" }] := by
  refine ⟨?_, by decide, by decide⟩
  intro results
  have heq := uniqueRows_eq results
  have hnd := (firstOccurrencesAfter_nodup results.flatten []).1
  refine ⟨heq, ?_, ?_, ?_⟩
  · rw [heq]
    exact firstOccurrencesAfter_sublist _ _
  · rw [heq]
    exact hnd
  · intro r hr
    rw [heq]
    apply List.count_eq_one_of_mem hnd
    rcases firstOccurrencesAfter_covers results.flatten [] r hr with h | h
    · simp at h
    · exact h

/-! ## The handler, step by step -/

section Handler

variable {Filters FC : Type} (env : Collaborators Filters FC) (opts : PolylineHandlerOptions)
  (query : Query)

theorem handler_indexing (h : env.IsIndexing = true) :
    PolylineHandler env opts query
      = { calls := [.IsIndexing], response := some (.Error "indexing records" 503) } := by
  simp only [PolylineHandler, h, if_true]

theorem handler_missing_polyline (h : env.IsIndexing = false)
    (hp : query.Get (bytes "polyline") = []) :
    PolylineHandler env opts query
      = { calls := [.IsIndexing],
          response := some (.Error "Missing 'polyline' parameter" 400) } := by
  simp [PolylineHandler, h, hp]

theorem handler_invalid_format (h : env.IsIndexing = false)
    (hp : query.Get (bytes "polyline") ≠ [])
    (hf : query.Get (bytes "format") = bytes "geojson") (ha : opts.AllowGeoJSON = false) :
    PolylineHandler env opts query
      = { calls := [.IsIndexing], response := some (.Error "Invalid format" 400) } := by
  simp [PolylineHandler, h, hp, hf, ha]

theorem handler_decode_panic (h : PassesOptions env opts query)
    (hd : decodeOf env query = .indexOutOfRange) :
    PolylineHandler env opts query
      = { calls := [.IsIndexing, decodeCall query], response := none } := by
  obtain ⟨h1, h2, h3⟩ := h
  unfold decodeOf at hd
  simp [PolylineHandler, h1, h2, h3, hd, decodeCall]

theorem handler_decode_error (h : PassesOptions env opts query) {e : String}
    (hd : decodeOf env query = .err e) :
    PolylineHandler env opts query
      = { calls := [.IsIndexing, decodeCall query], response := some (.Error e 400) } := by
  obtain ⟨h1, h2, h3⟩ := h
  unfold decodeOf at hd
  simp [PolylineHandler, h1, h2, h3, hd, decodeCall]

theorem handler_excessive (h : PassesOptions env opts query) {coords : List Coord}
    (hd : decodeOf env query = .ok coords) (hl : (coords.length : Int) > opts.MaxCoords) :
    PolylineHandler env opts query
      = { calls := [.IsIndexing, decodeCall query],
          response := some (.Error "E_EXCESSIVE_COORDINATES" 400) } := by
  obtain ⟨h1, h2, h3⟩ := h
  unfold decodeOf at hd
  simp [PolylineHandler, h1, h2, h3, hd, decodeCall, hl]

theorem handler_filter_error (h : PassesOptions env opts query) {coords : List Coord}
    (hd : decodeOf env query = .ok coords) (hl : ¬ (coords.length : Int) > opts.MaxCoords)
    {e : String} (hf : env.NewSPRFilterFromQuery query = .error e) :
    PolylineHandler env opts query
      = { calls := [.IsIndexing, decodeCall query, .NewSPRFilterFromQuery query],
          response := some (.Error e 400) } := by
  obtain ⟨h1, h2, h3⟩ := h
  unfold decodeOf at hd
  simp [PolylineHandler, h1, h2, h3, hd, decodeCall, hl, hf]

theorem handler_query_error (h : PassesOptions env opts query) {coords : List Coord}
    (hd : decodeOf env query = .ok coords) (hl : ¬ (coords.length : Int) > opts.MaxCoords)
    {filters : Filters} (hf : env.NewSPRFilterFromQuery query = .ok filters)
    {e : String} (hq : env.GetIntersectsByPath coords filters = .error e) :
    PolylineHandler env opts query
      = { calls := [.IsIndexing, decodeCall query, .NewSPRFilterFromQuery query,
            .GetIntersectsByPath coords filters],
          response := some (.Error e 500) } := by
  obtain ⟨h1, h2, h3⟩ := h
  unfold decodeOf at hd
  simp [PolylineHandler, h1, h2, h3, hd, decodeCall, hl, hf, hq]

theorem handler_query_ok (h : PassesOptions env opts query) {coords : List Coord}
    (hd : decodeOf env query = .ok coords) (hl : ¬ (coords.length : Int) > opts.MaxCoords)
    {filters : Filters} (hf : env.NewSPRFilterFromQuery query = .ok filters)
    {results : List (List StandardPlacesResult)}
    (hq : env.GetIntersectsByPath coords filters = .ok results) :
    PolylineHandler env opts query
      = assemble env (decide (query.Get (bytes "format") = bytes "geojson"))
          (decide (query.Get (bytes "unique") ≠ [])) results
          [.IsIndexing, decodeCall query, .NewSPRFilterFromQuery query,
            .GetIntersectsByPath coords filters] := by
  obtain ⟨h1, h2, h3⟩ := h
  unfold decodeOf at hd
  simp [PolylineHandler, h1, h2, h3, hd, decodeCall, hl, hf, hq]

theorem marshalAndWrite_calls (final : Final FC) (calls : List (Call Filters FC)) :
    (marshalAndWrite env final calls).calls = calls ++ [.Marshal final] := by
  unfold marshalAndWrite
  cases env.Marshal final <;> rfl

theorem marshalAndWrite_error (final : Final FC) (calls : List (Call Filters FC)) {e : String}
    (h : env.Marshal final = .error e) :
    (marshalAndWrite env final calls).response = some (.Error e 500) := by
  unfold marshalAndWrite
  rw [h]

theorem marshalAndWrite_ok (final : Final FC) (calls : List (Call Filters FC)) {js : String}
    (h : env.Marshal final = .ok js) :
    (marshalAndWrite env final calls).response
      = some (.Write [("Content-Type", "application/json"),
          ("Access-Control-Allow-Origin", "*")] js) := by
  unfold marshalAndWrite
  rw [h]

/-- The conversion loop against the spec: its result is `convertAll` after the collections it
started with; its calls are conversions only; and when it fails, its last call is a conversion
that returned the error. -/
theorem collectionsLoop_spec (convert : List StandardPlacesResult → Except String FC) :
    ∀ (results : List (List StandardPlacesResult)) (collections : List FC),
      ((collectionsLoop convert results collections :
          List (Call Filters FC) × Except String (List FC)).2
        = match convertAll convert results with
          | .error e => .error e
          | .ok cs => .ok (collections ++ cs)) ∧
      (∀ c ∈ (collectionsLoop convert results collections :
          List (Call Filters FC) × Except String (List FC)).1,
        ∃ rs, c = .ResultsToFeatureCollection rs) ∧
      (∀ e, convertAll convert results = .error e →
        ∃ before rs, (collectionsLoop convert results collections :
            List (Call Filters FC) × Except String (List FC)).1
          = before ++ [.ResultsToFeatureCollection rs] ∧ convert rs = .error e) := by
  intro results
  induction results with
  | nil =>
    intro collections
    simp [collectionsLoop, convertAll]
  | cons rs rest ih =>
    intro collections
    cases hc : convert rs with
    | error e =>
      simp only [collectionsLoop, convertAll, hc]
      refine ⟨trivial, ?_, ?_⟩
      · intro c hcm
        exact ⟨rs, by simpa using hcm⟩
      · intro e' he'
        cases he'
        exact ⟨[], rs, rfl, hc⟩
    | ok collection =>
      obtain ⟨h1, h2, h3⟩ := ih (collections ++ [collection])
      simp only [collectionsLoop, convertAll, hc]
      refine ⟨?_, ?_, ?_⟩
      · rw [h1]
        cases convertAll convert rest <;> simp
      · intro c hcm
        rw [List.mem_cons] at hcm
        rcases hcm with h | h
        · exact ⟨rs, h⟩
        · exact h2 c h
      · intro e he
        cases hr : convertAll convert rest with
        | ok cs => rw [hr] at he; cases he
        | error e' =>
          rw [hr] at he
          cases he
          obtain ⟨before, rs', hb, hrs'⟩ := h3 _ hr
          exact ⟨.ResultsToFeatureCollection rs :: before, rs', by rw [hb]; rfl, hrs'⟩

/-- The envelope is built as the spec says.  When a conversion fails the response is the 500
error, the last call made is the failing conversion and nothing is marshalled; otherwise the
envelope of the spec is marshalled and written after conversion calls only. -/
theorem assemble_spec (geojson unique : Bool) (results : List (List StandardPlacesResult))
    (calls : List (Call Filters FC)) :
    match envelope env geojson unique results with
    | .error e =>
      (assemble env geojson unique results calls).response = some (.Error e 500) ∧
      ∃ before rs, (assemble env geojson unique results calls).calls
          = before ++ [.ResultsToFeatureCollection rs] ∧
        env.ResultsToFeatureCollection rs = .error e
    | .ok final =>
      ∃ converted : List (Call Filters FC),
        (∀ c ∈ converted, ∃ rs, c = .ResultsToFeatureCollection rs) ∧
        assemble env geojson unique results calls
          = marshalAndWrite env final (calls ++ converted) := by
  cases geojson <;> cases unique
  · exact ⟨[], by simp, by simp [assemble]⟩
  · refine ⟨[], by simp, ?_⟩
    simp [assemble, uniqueRows_eq]
  · obtain ⟨h1, h2, h3⟩ := @collectionsLoop_spec Filters FC
      env.ResultsToFeatureCollection results []
    simp only [envelope, assemble, if_true, Bool.false_eq_true, if_false]
    rcases hl : @collectionsLoop Filters FC env.ResultsToFeatureCollection results []
      with ⟨converted, res⟩
    rw [hl] at h1 h2 h3
    cases hc : convertAll env.ResultsToFeatureCollection results with
    | error e =>
      rw [hc] at h1
      obtain ⟨before, rs, hb, hrs⟩ := h3 e hc
      simp only at h1 hb
      subst h1
      refine ⟨rfl, calls ++ before, rs, ?_, hrs⟩
      simp only [hb, List.append_assoc]
    | ok cs =>
      rw [hc] at h1
      simp only [List.nil_append] at h1
      subst h1
      exact ⟨converted, h2, rfl⟩
  · simp only [envelope, assemble, uniqueRows_eq]
    cases hc : env.ResultsToFeatureCollection (firstOccurrences results.flatten) with
    | error e =>
      exact ⟨by simp, calls, _, rfl, hc⟩
    | ok collection =>
      exact ⟨[.ResultsToFeatureCollection (firstOccurrences results.flatten)], by simp, by simp⟩

theorem assemble_calls_mem (geojson unique : Bool) (results : List (List StandardPlacesResult))
    (calls : List (Call Filters FC)) :
    ∀ c ∈ (assemble env geojson unique results calls).calls,
      c ∈ calls ∨ (∃ rs, c = .ResultsToFeatureCollection rs) ∨ ∃ final, c = .Marshal final := by
  intro c hc
  have hspec := assemble_spec env geojson unique results calls
  cases he : envelope env geojson unique results with
  | ok final =>
    rw [he] at hspec
    obtain ⟨converted, hconv, heq⟩ := hspec
    rw [heq, marshalAndWrite_calls, List.mem_append, List.mem_append, List.mem_singleton] at hc
    rcases hc with (h | h) | h
    · exact Or.inl h
    · exact Or.inr (Or.inl (hconv c h))
    · exact Or.inr (Or.inr ⟨final, h⟩)
  | error e =>
    cases geojson <;> cases unique
    · simp [envelope] at he
    · simp [envelope] at he
    · simp only [assemble, if_true, Bool.false_eq_true, if_false] at hc
      obtain ⟨_, h2, _⟩ := @collectionsLoop_spec Filters FC
        env.ResultsToFeatureCollection results []
      rcases hl : @collectionsLoop Filters FC env.ResultsToFeatureCollection results []
        with ⟨converted, res⟩
      rw [hl] at h2 hc
      cases res with
      | error e' =>
        simp only [List.mem_append] at hc
        rcases hc with h | h
        · exact Or.inl h
        · exact Or.inr (Or.inl (h2 c h))
      | ok cs =>
        simp only [marshalAndWrite_calls, List.mem_append, List.mem_singleton] at hc
        rcases hc with (h | h) | h
        · exact Or.inl h
        · exact Or.inr (Or.inl (h2 c h))
        · exact Or.inr (Or.inr ⟨_, h⟩)
    · simp only [assemble, if_true] at hc
      cases hconv : env.ResultsToFeatureCollection (uniqueRows results) with
      | error e' =>
        rw [hconv] at hc
        simp only [List.mem_append, List.mem_singleton] at hc
        rcases hc with h | h
        · exact Or.inl h
        · exact Or.inr (Or.inl ⟨_, h⟩)
      | ok collection =>
        rw [hconv] at hc
        simp only [marshalAndWrite_calls, List.mem_append, List.mem_singleton] at hc
        rcases hc with (h | h) | h
        · exact Or.inl h
        · exact Or.inr (Or.inl ⟨_, h⟩)
        · exact Or.inr (Or.inr ⟨_, h⟩)

/-- Every run of the handler is one of these nine. -/
theorem handler_cases :
    (env.IsIndexing = true ∧ PolylineHandler env opts query
      = { calls := [.IsIndexing], response := some (.Error "indexing records" 503) }) ∨
    (env.IsIndexing = false ∧ query.Get (bytes "polyline") = [] ∧ PolylineHandler env opts query
      = { calls := [.IsIndexing],
          response := some (.Error "Missing 'polyline' parameter" 400) }) ∨
    (env.IsIndexing = false ∧ query.Get (bytes "polyline") ≠ [] ∧
      query.Get (bytes "format") = bytes "geojson" ∧ opts.AllowGeoJSON = false ∧
      PolylineHandler env opts query
        = { calls := [.IsIndexing], response := some (.Error "Invalid format" 400) }) ∨
    (PassesOptions env opts query ∧ decodeOf env query = .indexOutOfRange ∧
      PolylineHandler env opts query
        = { calls := [.IsIndexing, decodeCall query], response := none }) ∨
    (PassesOptions env opts query ∧ ∃ e, decodeOf env query = .err e ∧
      PolylineHandler env opts query
        = { calls := [.IsIndexing, decodeCall query], response := some (.Error e 400) }) ∨
    (PassesOptions env opts query ∧ ∃ coords, decodeOf env query = .ok coords ∧
      (coords.length : Int) > opts.MaxCoords ∧
      PolylineHandler env opts query
        = { calls := [.IsIndexing, decodeCall query],
            response := some (.Error "E_EXCESSIVE_COORDINATES" 400) }) ∨
    (PassesOptions env opts query ∧ ∃ coords, decodeOf env query = .ok coords ∧
      ¬ (coords.length : Int) > opts.MaxCoords ∧
      ∃ e, env.NewSPRFilterFromQuery query = .error e ∧
      PolylineHandler env opts query
        = { calls := [.IsIndexing, decodeCall query, .NewSPRFilterFromQuery query],
            response := some (.Error e 400) }) ∨
    (PassesOptions env opts query ∧ ∃ coords, decodeOf env query = .ok coords ∧
      ¬ (coords.length : Int) > opts.MaxCoords ∧
      ∃ filters, env.NewSPRFilterFromQuery query = .ok filters ∧
      ∃ e, env.GetIntersectsByPath coords filters = .error e ∧
      PolylineHandler env opts query
        = { calls := [.IsIndexing, decodeCall query, .NewSPRFilterFromQuery query,
              .GetIntersectsByPath coords filters],
            response := some (.Error e 500) }) ∨
    (PassesOptions env opts query ∧ ∃ coords, decodeOf env query = .ok coords ∧
      ¬ (coords.length : Int) > opts.MaxCoords ∧
      ∃ filters, env.NewSPRFilterFromQuery query = .ok filters ∧
      ∃ results, env.GetIntersectsByPath coords filters = .ok results ∧
      PolylineHandler env opts query
        = assemble env (decide (query.Get (bytes "format") = bytes "geojson"))
            (decide (query.Get (bytes "unique") ≠ [])) results
            [.IsIndexing, decodeCall query, .NewSPRFilterFromQuery query,
              .GetIntersectsByPath coords filters]) := by
  by_cases hidx : env.IsIndexing = true
  · exact Or.inl ⟨hidx, handler_indexing env opts query hidx⟩
  have hidx' : env.IsIndexing = false := by simpa using hidx
  by_cases hp : query.Get (bytes "polyline") = []
  · exact Or.inr (Or.inl ⟨hidx', hp, handler_missing_polyline env opts query hidx' hp⟩)
  by_cases hf : query.Get (bytes "format") = bytes "geojson" ∧ opts.AllowGeoJSON = false
  · exact Or.inr (Or.inr (Or.inl ⟨hidx', hp, hf.1, hf.2,
      handler_invalid_format env opts query hidx' hp hf.1 hf.2⟩))
  have hpass : PassesOptions env opts query := ⟨hidx', hp, hf⟩
  right; right; right
  cases hd : decodeOf env query with
  | indexOutOfRange => exact Or.inl ⟨hpass, rfl, handler_decode_panic env opts query hpass hd⟩
  | err e => exact Or.inr (Or.inl ⟨hpass, e, rfl, handler_decode_error env opts query hpass hd⟩)
  | ok coords =>
    right; right
    by_cases hl : (coords.length : Int) > opts.MaxCoords
    · exact Or.inl ⟨hpass, coords, rfl, hl, handler_excessive env opts query hpass hd hl⟩
    right
    cases hfl : env.NewSPRFilterFromQuery query with
    | error e =>
      exact Or.inl ⟨hpass, coords, rfl, hl, e, rfl,
        handler_filter_error env opts query hpass hd hl hfl⟩
    | ok filters =>
      right
      cases hq : env.GetIntersectsByPath coords filters with
      | error e =>
        exact Or.inl ⟨hpass, coords, rfl, hl, filters, rfl, e, hq,
          handler_query_error env opts query hpass hd hl hfl hq⟩
      | ok results =>
        exact Or.inr ⟨hpass, coords, rfl, hl, filters, rfl, results, hq,
          handler_query_ok env opts query hpass hd hl hfl hq⟩

theorem assemble_calls_prefix (geojson unique : Bool)
    (results : List (List StandardPlacesResult)) (calls : List (Call Filters FC)) :
    ∃ more, (assemble env geojson unique results calls).calls = calls ++ more := by
  cases geojson <;> cases unique
  · exact ⟨_, by simp only [assemble, Bool.false_eq_true, if_false, marshalAndWrite_calls]; rfl⟩
  · exact ⟨_, by simp only [assemble, Bool.false_eq_true, if_false, if_true,
      marshalAndWrite_calls]; rfl⟩
  · simp only [assemble, if_true, Bool.false_eq_true, if_false]
    rcases @collectionsLoop Filters FC env.ResultsToFeatureCollection results []
      with ⟨converted, res⟩
    cases res with
    | error e => exact ⟨converted, rfl⟩
    | ok cs =>
      exact ⟨converted ++ _, by simp only [marshalAndWrite_calls, List.append_assoc]; rfl⟩
  · simp only [assemble, if_true]
    cases env.ResultsToFeatureCollection (uniqueRows results) with
    | error e => exact ⟨_, rfl⟩
    | ok collection =>
      exact ⟨_ ++ _, by simp only [marshalAndWrite_calls, List.append_assoc]; rfl⟩

end Handler

/-! ## The claims on the handler -/

/-- C7: no silent truncation.  In every run of the handler in which the index's
path-intersection query is invoked, the path passed to it is exactly the path returned by
`DecodePolyline` for the request's polyline and its length is at most `MaxCoords`; a decoded
path of length exactly `MaxCoords` passes the bound check (the query is invoked with it once
the filters parse), and a decoded path of length `MaxCoords + 1` is rejected with the 400
error `E_EXCESSIVE_COORDINATES` without the query being invoked. -/
theorem C7_no_silent_truncation {Filters FC : Type}
    (env : Collaborators Filters FC) (opts : PolylineHandlerOptions) (query : Query) :
    (∀ coords filters,
      Call.GetIntersectsByPath coords filters ∈ (PolylineHandler env opts query).calls →
      decodeOf env query = .ok coords ∧ (coords.length : Int) ≤ opts.MaxCoords) ∧
    (∀ coords filters, PassesOptions env opts query → decodeOf env query = .ok coords →
      (coords.length : Int) = opts.MaxCoords → env.NewSPRFilterFromQuery query = .ok filters →
      Call.GetIntersectsByPath coords filters ∈ (PolylineHandler env opts query).calls) ∧
    (∀ coords, PassesOptions env opts query → decodeOf env query = .ok coords →
      (coords.length : Int) = opts.MaxCoords + 1 →
      (PolylineHandler env opts query).response
        = some (.Error "E_EXCESSIVE_COORDINATES" 400) ∧
      ∀ cs fs, Call.GetIntersectsByPath cs fs ∉ (PolylineHandler env opts query).calls) := by
  refine ⟨?_, ?_, ?_⟩
  · intro coords filters hmem
    rcases handler_cases env opts query with
      ⟨_, heq⟩ | ⟨_, _, heq⟩ | ⟨_, _, _, _, heq⟩ | ⟨_, _, heq⟩ | ⟨_, e, _, heq⟩ |
      ⟨_, cs, _, _, heq⟩ | ⟨_, cs, _, _, e, _, heq⟩ |
      ⟨_, cs, hd, hl, fs, _, e, _, heq⟩ | ⟨_, cs, hd, hl, fs, _, results, _, heq⟩
    all_goals rw [heq] at hmem
    · simp at hmem
    · simp at hmem
    · simp at hmem
    · simp [decodeCall] at hmem
    · simp [decodeCall] at hmem
    · simp [decodeCall] at hmem
    · simp [decodeCall] at hmem
    · simp only [decodeCall, List.mem_cons, reduceCtorEq, Call.GetIntersectsByPath.injEq,
        List.mem_nil_iff, or_false, false_or] at hmem
      rw [hmem.1]
      exact ⟨hd, by omega⟩
    · rcases assemble_calls_mem env _ _ results _ _ hmem with h | ⟨rs, h⟩ | ⟨final, h⟩
      · simp only [decodeCall, List.mem_cons, reduceCtorEq, Call.GetIntersectsByPath.injEq,
          List.mem_nil_iff, or_false, false_or] at h
        rw [h.1]
        exact ⟨hd, by omega⟩
      · cases h
      · cases h
  · intro coords filters hpass hd hlen hfl
    have hl : ¬ (coords.length : Int) > opts.MaxCoords := by omega
    cases hq : env.GetIntersectsByPath coords filters with
    | error e =>
      rw [handler_query_error env opts query hpass hd hl hfl hq]
      simp
    | ok results =>
      rw [handler_query_ok env opts query hpass hd hl hfl hq]
      obtain ⟨more, hmore⟩ := assemble_calls_prefix env
        (decide (query.Get (bytes "format") = bytes "geojson"))
        (decide (query.Get (bytes "unique") ≠ [])) results
        [.IsIndexing, decodeCall query, .NewSPRFilterFromQuery query,
          .GetIntersectsByPath coords filters]
      rw [hmore]
      simp
  · intro coords hpass hd hlen
    have hl : (coords.length : Int) > opts.MaxCoords := by omega
    rw [handler_excessive env opts query hpass hd hl]
    refine ⟨rfl, ?_⟩
    intro cs fs
    simp [decodeCall]

/-- C7, at the default `MaxCoords = 500` replaced by 2: a polyline of two pairs reaches the
index query with both coordinates. -/
theorem C7_no_silent_truncation_witness :
    Call.GetIntersectsByPath [{ X := 0, Y := 0 }, { X := 0, Y := 9000000 }] ()
      ∈ (PolylineHandler (exampleEnv false) { AllowGeoJSON := false, MaxCoords := 2 }
          [(bytes "polyline", bytes "??_cidP?")]).calls :=
  (C7_no_silent_truncation (exampleEnv false) { AllowGeoJSON := false, MaxCoords := 2 }
    [(bytes "polyline", bytes "??_cidP?")]).2.1
    [{ X := 0, Y := 0 }, { X := 0, Y := 9000000 }] () (by decide) (by decide) (by decide)
    (by decide)

/-- The step order of the handler on the runs in which `DecodePolyline` returns (a path or an
error): indexing gives 503; an empty or missing polyline gives 400; `format=geojson` while
`AllowGeoJSON` is false gives 400; an error returned by the decoder gives 400 with its message;
a path longer than `MaxCoords` gives 400; a filter error gives 400 with its message; an index
query error gives 500; a GeoJSON conversion error gives 500; a serialization error gives 500.
In each of these cases the calls made end with the failing step.  The status is 200 exactly
when the request passes the options, the decoder returns a path within the bound and every
later step succeeds; a panic of the decoder is not covered by the cases above. -/
theorem handler_first_failing_step {Filters FC : Type}
    (env : Collaborators Filters FC) (opts : PolylineHandlerOptions) (query : Query) :
    (env.IsIndexing = true →
      PolylineHandler env opts query
        = { calls := [.IsIndexing], response := some (.Error "indexing records" 503) }) ∧
    (env.IsIndexing = false → query.Get (bytes "polyline") = [] →
      PolylineHandler env opts query
        = { calls := [.IsIndexing],
            response := some (.Error "Missing 'polyline' parameter" 400) }) ∧
    (env.IsIndexing = false → query.Get (bytes "polyline") ≠ [] →
      query.Get (bytes "format") = bytes "geojson" → opts.AllowGeoJSON = false →
      PolylineHandler env opts query
        = { calls := [.IsIndexing], response := some (.Error "Invalid format" 400) }) ∧
    (PassesOptions env opts query → ∀ e, decodeOf env query = .err e →
      PolylineHandler env opts query
        = { calls := [.IsIndexing, decodeCall query], response := some (.Error e 400) }) ∧
    (PassesOptions env opts query → ∀ coords, decodeOf env query = .ok coords →
      (coords.length : Int) > opts.MaxCoords →
      PolylineHandler env opts query
        = { calls := [.IsIndexing, decodeCall query],
            response := some (.Error "E_EXCESSIVE_COORDINATES" 400) }) ∧
    (PassesOptions env opts query → ∀ coords, decodeOf env query = .ok coords →
      ¬ (coords.length : Int) > opts.MaxCoords →
      (∀ e, env.NewSPRFilterFromQuery query = .error e →
        PolylineHandler env opts query
          = { calls := [.IsIndexing, decodeCall query, .NewSPRFilterFromQuery query],
              response := some (.Error e 400) }) ∧
      ∀ filters, env.NewSPRFilterFromQuery query = .ok filters →
        (∀ e, env.GetIntersectsByPath coords filters = .error e →
          PolylineHandler env opts query
            = { calls := [.IsIndexing, decodeCall query, .NewSPRFilterFromQuery query,
                  .GetIntersectsByPath coords filters],
                response := some (.Error e 500) }) ∧
        ∀ results, env.GetIntersectsByPath coords filters = .ok results →
          (∀ e, envelope env (decide (query.Get (bytes "format") = bytes "geojson"))
              (decide (query.Get (bytes "unique") ≠ [])) results = .error e →
            (PolylineHandler env opts query).response = some (.Error e 500) ∧
            ∃ before rs, (PolylineHandler env opts query).calls
                = before ++ [.ResultsToFeatureCollection rs] ∧
              env.ResultsToFeatureCollection rs = .error e) ∧
          ∀ final, envelope env (decide (query.Get (bytes "format") = bytes "geojson"))
              (decide (query.Get (bytes "unique") ≠ [])) results = .ok final →
            (∃ before, (PolylineHandler env opts query).calls = before ++ [.Marshal final]) ∧
            (∀ e, env.Marshal final = .error e →
              (PolylineHandler env opts query).response = some (.Error e 500)) ∧
            ∀ js, env.Marshal final = .ok js →
              (PolylineHandler env opts query).response
                = some (.Write [("Content-Type", "application/json"),
                    ("Access-Control-Allow-Origin", "*")] js)) ∧
    ((PolylineHandler env opts query).status = some 200 ↔ AllStepsSucceed env opts query) := by
  refine ⟨handler_indexing env opts query, handler_missing_polyline env opts query,
    handler_invalid_format env opts query,
    fun hp e hd => handler_decode_error env opts query hp hd,
    fun hp coords hd hl => handler_excessive env opts query hp hd hl, ?_, ?_⟩
  · intro hp coords hd hl
    refine ⟨fun e hf => handler_filter_error env opts query hp hd hl hf, ?_⟩
    intro filters hf
    refine ⟨fun e hq => handler_query_error env opts query hp hd hl hf hq, ?_⟩
    intro results hq
    have hrun := handler_query_ok env opts query hp hd hl hf hq
    have hspec := assemble_spec env (decide (query.Get (bytes "format") = bytes "geojson"))
      (decide (query.Get (bytes "unique") ≠ [])) results
      [.IsIndexing, decodeCall query, .NewSPRFilterFromQuery query,
        .GetIntersectsByPath coords filters]
    refine ⟨?_, ?_⟩
    · intro e he
      rw [he] at hspec
      rw [hrun]
      exact hspec
    · intro final he
      rw [he] at hspec
      obtain ⟨converted, _, heq⟩ := hspec
      rw [hrun, heq]
      exact ⟨⟨_, marshalAndWrite_calls env final _⟩,
        fun e hm => marshalAndWrite_error env final _ hm,
        fun js hm => marshalAndWrite_ok env final _ hm⟩
  · constructor
    · intro hstatus
      rcases handler_cases env opts query with
        ⟨_, heq⟩ | ⟨_, _, heq⟩ | ⟨_, _, _, _, heq⟩ | ⟨_, _, heq⟩ | ⟨_, e, _, heq⟩ |
        ⟨_, cs, _, _, heq⟩ | ⟨_, cs, _, _, e, _, heq⟩ |
        ⟨_, cs, hd, hl, fs, _, e, _, heq⟩ | ⟨hp, cs, hd, hl, fs, hf, results, hq, heq⟩
      all_goals rw [heq] at hstatus
      · simp [Run.status, Response.status] at hstatus
      · simp [Run.status, Response.status] at hstatus
      · simp [Run.status, Response.status] at hstatus
      · simp [Run.status, Response.status] at hstatus
      · simp [Run.status, Response.status] at hstatus
      · simp [Run.status, Response.status] at hstatus
      · simp [Run.status, Response.status] at hstatus
      · simp [Run.status, Response.status] at hstatus
      · have hspec := assemble_spec env (decide (query.Get (bytes "format") = bytes "geojson"))
          (decide (query.Get (bytes "unique") ≠ [])) results
          [.IsIndexing, decodeCall query, .NewSPRFilterFromQuery query,
            .GetIntersectsByPath cs fs]
        cases he : envelope env (decide (query.Get (bytes "format") = bytes "geojson"))
            (decide (query.Get (bytes "unique") ≠ [])) results with
        | error e =>
          rw [he] at hspec
          have h1 := hspec.1
          unfold Run.status at hstatus
          rw [h1] at hstatus
          simp [Response.status] at hstatus
        | ok final =>
          rw [he] at hspec
          obtain ⟨converted, _, heq2⟩ := hspec
          rw [heq2] at hstatus
          cases hm : env.Marshal final with
          | error e =>
            unfold Run.status at hstatus
            rw [marshalAndWrite_error env final _ hm] at hstatus
            simp [Response.status] at hstatus
          | ok js => exact ⟨hp, cs, hd, hl, fs, hf, results, hq, final, he, js, hm⟩
    · rintro ⟨hp, cs, hd, hl, fs, hf, results, hq, final, he, js, hm⟩
      have hspec := assemble_spec env (decide (query.Get (bytes "format") = bytes "geojson"))
        (decide (query.Get (bytes "unique") ≠ [])) results
        [.IsIndexing, decodeCall query, .NewSPRFilterFromQuery query,
          .GetIntersectsByPath cs fs]
      rw [he] at hspec
      obtain ⟨converted, _, heq2⟩ := hspec
      rw [handler_query_ok env opts query hp hd hl hf hq, heq2]
      unfold Run.status
      rw [marshalAndWrite_ok env final _ hm]
      rfl

/-- C9: availability gate first.  If the index reports indexing-in-progress then, whatever the
options and the query parameters are (a missing polyline or a disallowed format included),
the response is the same 503 error, made before any parameter is read: the only call is
`IsIndexing`, and neither the decoder nor the index query is invoked. -/
theorem C9_indexing_gate_first {Filters FC : Type}
    (env : Collaborators Filters FC) (opts : PolylineHandlerOptions) (query : Query)
    (h : env.IsIndexing = true) :
    (PolylineHandler env opts query).response = some (.Error "indexing records" 503) ∧
    (PolylineHandler env opts query).status = some 503 ∧
    (∀ opts' query', PolylineHandler env opts' query' = PolylineHandler env opts query) ∧
    (PolylineHandler env opts query).calls = [.IsIndexing] ∧
    (∀ encoded f, Call.DecodePolyline encoded f ∉ (PolylineHandler env opts query).calls) ∧
    (∀ coords filters,
      Call.GetIntersectsByPath coords filters ∉ (PolylineHandler env opts query).calls) := by
  rw [handler_indexing env opts query h]
  refine ⟨rfl, rfl, fun opts' query' => handler_indexing env opts' query' h, rfl, ?_, ?_⟩
  · intro encoded f
    simp
  · intro coords filters
    simp

/-- C9, at a request without a polyline that asks for the disallowed GeoJSON format. -/
theorem C9_indexing_gate_first_witness :
    (exampleEnv true).IsIndexing = true ∧
    (PolylineHandler (exampleEnv true) NewDefaultPolylineHandlerOptions
        [(bytes "format", bytes "geojson")]).response
      = some (.Error "indexing records" 503) :=
  ⟨rfl, (C9_indexing_gate_first (exampleEnv true) NewDefaultPolylineHandlerOptions
    [(bytes "format", bytes "geojson")] rfl).1⟩

/-- C10 as stated fails: with `format=geojson`, `AllowGeoJSON = false` and an index that is
indexing, the response status is 503, not 400. -/
theorem C10_counterexample_indexing :
    NewDefaultPolylineHandlerOptions.AllowGeoJSON = false ∧
    Query.Get [(bytes "polyline", bytes "??"), (bytes "format", bytes "geojson")]
        (bytes "format") = bytes "geojson" ∧
    (PolylineHandler (exampleEnv true) NewDefaultPolylineHandlerOptions
        [(bytes "polyline", bytes "??"), (bytes "format", bytes "geojson")]).status
      = some 503 := by
  decide

/-- C10, amended: for every request with `format=geojson` handled with `AllowGeoJSON = false`
while the index is not indexing, the response status is 400, whatever the polyline, `valhalla`,
`unique` and filter parameters are: the error is the missing-polyline one when the polyline is
empty and the invalid-format one otherwise, the only call is `IsIndexing`, and the decoder and
the index query are never invoked. -/
theorem C10_geojson_disabled_is_400 {Filters FC : Type}
    (env : Collaborators Filters FC) (opts : PolylineHandlerOptions) (query : Query)
    (hidx : env.IsIndexing = false)
    (hfmt : query.Get (bytes "format") = bytes "geojson") (hallow : opts.AllowGeoJSON = false) :
    (PolylineHandler env opts query).status = some 400 ∧
    (PolylineHandler env opts query).response
      = some (.Error (if query.Get (bytes "polyline") = [] then "Missing 'polyline' parameter"
          else "Invalid format") 400) ∧
    (PolylineHandler env opts query).calls = [.IsIndexing] ∧
    (∀ encoded f, Call.DecodePolyline encoded f ∉ (PolylineHandler env opts query).calls) ∧
    (∀ coords filters,
      Call.GetIntersectsByPath coords filters ∉ (PolylineHandler env opts query).calls) := by
  by_cases hp : query.Get (bytes "polyline") = []
  · rw [handler_missing_polyline env opts query hidx hp, if_pos hp]
    refine ⟨rfl, rfl, rfl, ?_, ?_⟩
    · intro encoded f
      simp
    · intro coords filters
      simp
  · rw [handler_invalid_format env opts query hidx hp hfmt hallow, if_neg hp]
    refine ⟨rfl, rfl, rfl, ?_, ?_⟩
    · intro encoded f
      simp
    · intro coords filters
      simp

/-- C10 amended, at a request with a valid polyline and the default options. -/
theorem C10_geojson_disabled_is_400_witness :
    (exampleEnv false).IsIndexing = false ∧
    Query.Get [(bytes "polyline", bytes "??"), (bytes "format", bytes "geojson")]
        (bytes "format") = bytes "geojson" ∧
    NewDefaultPolylineHandlerOptions.AllowGeoJSON = false ∧
    (PolylineHandler (exampleEnv false) NewDefaultPolylineHandlerOptions
        [(bytes "polyline", bytes "??"), (bytes "format", bytes "geojson")]).status
      = some 400 :=
  ⟨rfl, by decide, rfl,
    (C10_geojson_disabled_is_400 (exampleEnv false) NewDefaultPolylineHandlerOptions
      [(bytes "polyline", bytes "??"), (bytes "format", bytes "geojson")] rfl (by decide)
      rfl).1⟩

/-! ## Groups: assembly and sign -/

/-- The scan of a non-empty input is the inner loop followed by the tail of the outer loop. -/
theorem decodeLoop_eq_innerLoop (mk : Nat → Int → Int → Except String Coord) (f : Nat)
    (v : Vars) :
    ∀ (bs : List Nat) (group : Option (Int × Nat)), bs ≠ [] →
      decodeLoop mk f bs group v
        = match innerLoop bs (group.getD (0, 0)).1 (group.getD (0, 0)).2 with
          | none => .indexOutOfRange
          | some (result, rest) => afterGroup mk f rest result v := by
  intro bs
  induction bs with
  | nil => intro group h; exact absurd rfl h
  | cons c rest ih =>
    intro group _
    rw [decodeLoop_cons, innerLoop]
    by_cases hb : (innerStep (group.getD (0, 0)).1 (group.getD (0, 0)).2 c).1 ≥ 0x20
    · rw [if_pos hb, if_pos hb]
      cases rest with
      | nil => rfl
      | cons c' rest' => exact ih _ (List.cons_ne_nil _ _)
    · rw [if_neg hb, if_neg hb]

theorem groupPayload_lt (cs : List Nat) : groupPayload cs < 2 ^ (5 * cs.length) := by
  induction cs with
  | nil => simp [groupPayload]
  | cons c cs ih =>
    have h1 : (c - 63) % 32 < 32 := Nat.mod_lt _ (by decide)
    have h2 : 2 ^ (5 * (c :: cs).length) = 32 * 2 ^ (5 * cs.length) := by
      rw [List.length_cons, Nat.mul_add, pow_add]
      ring
    rw [groupPayload, h2]
    omega

theorem groupPayload_eq_sum (cs : List Nat) :
    groupPayload cs = ∑ i in Finset.range cs.length, (cs.getD i 0 - 63) % 32 * 32 ^ i := by
  induction cs with
  | nil => simp [groupPayload]
  | cons c cs ih =>
    rw [groupPayload, List.length_cons, Finset.sum_range_succ', ih, Finset.mul_sum]
    simp only [List.getD_cons_succ, List.getD_cons_zero, pow_zero, mul_one, pow_succ]
    rw [Nat.add_comm]
    congr 1
    apply Finset.sum_congr rfl
    intro i _
    ring

/-- The inner loop on a group of bytes of at least 63, all but the last with the continuation
bit set, while the assembled bits stay below bit 60: the payloads are added above the bits
already in `result`. -/
theorem innerLoop_group (rest : List Nat) (last : Nat) :
    ∀ (start : List Nat) (r s : Nat), r < 2 ^ s → s + 5 * (start.length + 1) ≤ 60 →
      (∀ c ∈ start, 63 ≤ c ∧ (c : Int) - 63 ≥ 0x20) → 63 ≤ last → (last : Int) - 63 < 0x20 →
      innerLoop (start ++ [last] ++ rest) (r : Int) s
        = some (((r + groupPayload (start ++ [last]) * 2 ^ s : Nat) : Int), rest) := by
  intro start
  induction start with
  | nil =>
    intro r s hr hs _ hl63 hlast
    have hp : (last - 63) % 32 < 32 := Nat.mod_lt _ (by decide)
    have hpow : 2 ^ s * 32 ≤ 2 ^ 60 := by
      have h5 : (32 : Nat) = 2 ^ 5 := by decide
      rw [h5, ← pow_add]
      exact Nat.pow_le_pow_right (by decide) (by simpa using hs)
    have hmul : (last - 63) % 32 * 2 ^ s ≤ 31 * 2 ^ s := Nat.mul_le_mul_right _ (by omega)
    have hstep := @innerStep_natCast r s last hl63 (by omega) hr (by omega)
    have hb : ¬ (innerStep (r : Int) s last).1 ≥ 0x20 := by
      rw [hstep]
      show ¬ ((last - 63 : Nat) : Int) ≥ 0x20
      omega
    rw [List.nil_append, List.singleton_append, innerLoop, if_neg hb, hstep]
    simp [groupPayload]
  | cons c start ih =>
    intro r s hr hs hstart hl63 hlast
    obtain ⟨hc63, hcont⟩ := hstart c (List.mem_cons_self _ _)
    have hp : (c - 63) % 32 < 32 := Nat.mod_lt _ (by decide)
    have hlen : s + 5 * (start.length + 1) + 5 ≤ 60 := by
      simp only [List.length_cons] at hs
      omega
    have hpow : 2 ^ s * 32 ≤ 2 ^ 60 := by
      have h5 : (32 : Nat) = 2 ^ 5 := by decide
      rw [h5, ← pow_add]
      exact Nat.pow_le_pow_right (by decide) (by omega)
    have hmul : (c - 63) % 32 * 2 ^ s ≤ 31 * 2 ^ s := Nat.mul_le_mul_right _ (by omega)
    have hstep := @innerStep_natCast r s c hc63 (by omega) hr (by omega)
    have hb : (innerStep (r : Int) s c).1 ≥ 0x20 := by
      rw [hstep]
      show ((c - 63 : Nat) : Int) ≥ 0x20
      omega
    have hr' : r + (c - 63) % 32 * 2 ^ s < 2 ^ (s + 5) := by
      have h5 : 2 ^ (s + 5) = 2 ^ s * 32 := by rw [pow_add]; rfl
      omega
    have hih := ih (r + (c - 63) % 32 * 2 ^ s) (s + 5) hr' (by omega)
      (fun c' hc' => hstart c' (List.mem_cons_of_mem _ hc')) hl63 hlast
    rw [List.cons_append, List.cons_append, innerLoop, if_pos hb, hstep]
    dsimp only
    rw [hih, groupPayload]
    congr 2
    have h5 : 2 ^ (s + 5) = 2 ^ s * 32 := by rw [pow_add]; rfl
    rw [h5]
    push_cast
    ring

/-- The inner loop stops at the first byte whose continuation bit is clear: what it returns
are the bytes after that byte, and every byte before it has the bit set. -/
theorem innerLoop_stops_at_first_clear :
    ∀ (bs : List Nat) (r : Int) (s : Nat) (result : Int) (rest : List Nat),
      innerLoop bs r s = some (result, rest) →
      ∃ (start : List Nat) (last : Nat), bs = start ++ [last] ++ rest ∧
        (∀ c ∈ start, (c : Int) - 63 ≥ 0x20) ∧ (last : Int) - 63 < 0x20 := by
  intro bs
  induction bs with
  | nil => intro r s result rest h; simp [innerLoop] at h
  | cons c cs ih =>
    intro r s result rest h
    rw [innerLoop] at h
    by_cases hb : (innerStep r s c).1 ≥ 0x20
    · rw [if_pos hb] at h
      obtain ⟨start, last, hcs, hstart, hlast⟩ := ih _ _ _ _ h
      refine ⟨c :: start, last, by rw [hcs]; rfl, ?_, hlast⟩
      intro c' hc'
      rw [List.mem_cons] at hc'
      rcases hc' with h' | h'
      · rw [h']; exact hb
      · exact hstart c' h'
    · rw [if_neg hb] at h
      simp only [Option.some.injEq, Prod.mk.injEq] at h
      refine ⟨[], c, by rw [← h.2]; rfl, by simp, ?_⟩
      simp only [innerStep] at hb
      omega

/-! ## The claims on the empty string, the sign and the groups -/

/-- C13: for every scale `f` (and every validating constructor), `DecodePolyline("", f)`
returns an empty coordinate path and no error. -/
theorem C13_empty_string_empty_path :
    (∀ f : Nat, DecodePolyline [] f = .ok [] ∧ DecodePolyline (bytes "") f = .ok []) ∧
    ∀ (mk : Nat → Int → Int → Except String Coord) (f : Nat),
      DecodePolylineWith mk [] f = .ok [] :=
  ⟨fun _ => ⟨rfl, rfl⟩, fun _ _ => rfl⟩

/-- C16: zig-zag sign recovery.  For every assembled non-negative group value `v`, the signed
delta is `v >> 1` (`v / 2`) when `v` is even and the complement of `v >> 1`
(`-(v / 2) - 1`) when `v` is odd; this map undoes the zig-zag code `2n` for `n ≥ 0`,
`-2n - 1` for `n < 0`, so every signed integer is recovered from its code, and every
non-negative value is the code of the delta it decodes to. -/
theorem C16_zigzag_sign_recovery :
    (∀ v : Int, 0 ≤ v →
      (v % 2 = 0 → signDetect v = intShr1 v ∧ signDetect v = v / 2) ∧
      (v % 2 = 1 → signDetect v = intNot (intShr1 v) ∧ signDetect v = -(v / 2) - 1)) ∧
    (∀ n : Int, (0 ≤ n → (zigzag n : Int) = 2 * n) ∧ (n < 0 → (zigzag n : Int) = -2 * n - 1)) ∧
    (∀ n : Int, signDetect (zigzag n : Int) = n) ∧
    (∀ v : Int, 0 ≤ v → (zigzag (signDetect v) : Int) = v) := by
  refine ⟨?_, ?_, signDetect_zigzag, ?_⟩
  · intro v _
    constructor
    · intro hv
      have h : ¬ intAnd v 1 ≠ 0 := by rw [intAnd_one]; omega
      unfold signDetect intShr1
      rw [if_neg h]
      exact ⟨rfl, rfl⟩
    · intro hv
      have h : intAnd v 1 ≠ 0 := by rw [intAnd_one]; omega
      unfold signDetect intShr1 intNot
      rw [if_pos h]
      exact ⟨rfl, rfl⟩
  · intro n
    unfold zigzag
    constructor
    · intro hn
      rw [if_pos hn]
      omega
    · intro hn
      rw [if_neg (by omega)]
      omega
  · intro v hv
    unfold signDetect zigzag intShr1 intNot
    rw [intAnd_one]
    split <;> split <;> omega

/-- C16, at the code 7700000 of the delta 3850000 and the code 1 of the delta -1. -/
theorem C16_zigzag_sign_recovery_witness :
    signDetect 7700000 = 3850000 ∧ signDetect 1 = -1 ∧ (zigzag (-1) : Int) = 1 :=
  ⟨((C16_zigzag_sign_recovery.1 7700000 (by decide)).1 (by decide)).2,
   ((C16_zigzag_sign_recovery.1 1 (by decide)).2 (by decide)).2,
   (C16_zigzag_sign_recovery.2.1 (-1)).2 (by decide)⟩

/-- C17: group assembly.  For every group of at most 12 bytes in the polyline alphabet
(63..126), of which exactly the last has its continuation bit clear, the inner loop started
with `result = 0` and `shift = 0` assembles the sum over `i` of
`((c_i - 63) mod 32) * 32^i`, consumes exactly these bytes (it returns the bytes that follow
the group) and the scan goes on with the tail of the outer loop on that value; and on any
input the inner loop stops at the first byte whose continuation bit is clear. -/
theorem C17_group_assembly (start : List Nat) (last : Nat) (rest : List Nat)
    (hlen : (start ++ [last]).length ≤ 12)
    (halpha : ∀ c ∈ start ++ [last], 63 ≤ c ∧ c ≤ 126)
    (hcont : ∀ c ∈ start, (c : Int) - 63 ≥ 0x20) (hlast : (last : Int) - 63 < 0x20) :
    innerLoop (start ++ [last] ++ rest) 0 0
      = some (((∑ i in Finset.range (start ++ [last]).length,
          ((start ++ [last]).getD i 0 - 63) % 32 * 32 ^ i : Nat) : Int), rest) ∧
    (∀ (mk : Nat → Int → Int → Except String Coord) (f : Nat) (v : Vars),
      decodeLoop mk f (start ++ [last] ++ rest) none v
        = afterGroup mk f rest ((∑ i in Finset.range (start ++ [last]).length,
            ((start ++ [last]).getD i 0 - 63) % 32 * 32 ^ i : Nat) : Int) v) ∧
    (∑ i in Finset.range (start ++ [last]).length,
        ((start ++ [last]).getD i 0 - 63) % 32 * 32 ^ i) = groupPayload (start ++ [last]) ∧
    (∀ (bs : List Nat) (r : Int) (s : Nat) (result : Int) (after : List Nat),
      innerLoop bs r s = some (result, after) →
      ∃ (before : List Nat) (stop : Nat), bs = before ++ [stop] ++ after ∧
        (∀ c ∈ before, (c : Int) - 63 ≥ 0x20) ∧ (stop : Int) - 63 < 0x20) := by
  have hinner : innerLoop (start ++ [last] ++ rest) 0 0
      = some (((groupPayload (start ++ [last]) : Nat) : Int), rest) := by
    have h := innerLoop_group rest last start 0 0 (by decide)
      (by simp only [List.length_append, List.length_singleton] at hlen; omega)
      (fun c hc => ⟨(halpha c (List.mem_append_left _ hc)).1, hcont c hc⟩)
      (halpha last (by simp)).1 hlast
    simpa using h
  rw [← groupPayload_eq_sum]
  refine ⟨hinner, ?_, rfl, innerLoop_stops_at_first_clear⟩
  intro mk f v
  rw [decodeLoop_eq_innerLoop mk f v _ none (by simp)]
  simp only [Option.getD_none]
  rw [hinner]

/-- C17, at the first group `"_p~iF"` of the reference polyline, whose value is 7700000. -/
theorem C17_group_assembly_witness :
    (bytes "_p~i" ++ [70]).length ≤ 12 ∧
    (∀ c ∈ bytes "_p~i" ++ [70], 63 ≤ c ∧ c ≤ 126) ∧
    (∀ c ∈ bytes "_p~i", (c : Int) - 63 ≥ 0x20) ∧ ((70 : Nat) : Int) - 63 < 0x20 ∧
    groupPayload (bytes "_p~i" ++ [70]) = 7700000 ∧
    innerLoop (bytes "_p~i" ++ [70] ++ bytes "~ps|U") 0 0
      = some (((∑ i in Finset.range (bytes "_p~i" ++ [70]).length,
          ((bytes "_p~i" ++ [70]).getD i 0 - 63) % 32 * 32 ^ i : Nat) : Int), bytes "~ps|U") :=
  ⟨by decide, by decide, by decide, by decide, by decide,
    (C17_group_assembly (bytes "_p~i") 70 (bytes "~ps|U") (by decide) (by decide) (by decide)
      (by decide)).1⟩

/-! ## Bytes outside the alphabet and over-long groups -/

theorem ofBits_isGoInt (n : Nat) : IsGoInt (ofBits n) := by
  unfold IsGoInt ofBits
  have h : n % 2 ^ 64 < 2 ^ 64 := Nat.mod_lt _ (by decide)
  split <;> constructor <;> omega

theorem innerStep_isGoInt (result : Int) (shift c : Nat) :
    IsGoInt (innerStep result shift c).2.1 := by
  unfold innerStep intOr
  exact ofBits_isGoInt _

theorem intOr_zero {r : Int} (h : IsGoInt r) : intOr r 0 = r := by
  unfold intOr
  have h0 : toBits 0 = 0 := by decide
  rw [h0, Nat.or_zero]
  exact wrapInt_of_range h.1 h.2

theorem intShl_of_ge (x : Int) {s : Nat} (h : 64 ≤ s) : intShl x s = 0 := by
  unfold intShl
  rw [if_neg (by omega)]

/-- With a shift of 64 or more the inner loop body leaves `result` as it is. -/
theorem innerStep_of_shift_ge {r : Int} {s : Nat} (c : Nat) (hr : IsGoInt r) (hs : 64 ≤ s) :
    innerStep r s c = ((c : Int) - 63, r, uintAdd5 s) := by
  unfold innerStep
  simp only [intShl_of_ge _ hs, intOr_zero hr]

/-- An error of the scan is an error of the validating constructor. -/
theorem decodeLoop_err_from_constructor (mk : Nat → Int → Int → Except String Coord) (f : Nat)
    (e : String) :
    ∀ (bs : List Nat) (group : Option (Int × Nat)) (v : Vars),
      decodeLoop mk f bs group v = .err e → ∃ lat lng, mk f lat lng = .error e := by
  intro bs
  induction bs with
  | nil =>
    intro group v h
    cases group <;> simp [decodeLoop] at h
  | cons b rest ih =>
    intro group v h
    obtain ⟨count, lat, lng, coords⟩ := v
    rw [decodeLoop_cons] at h
    by_cases hb : (innerStep (group.getD (0, 0)).1 (group.getD (0, 0)).2 b).1 ≥ 0x20
    · rw [if_pos hb] at h
      exact ih _ _ h
    · rw [if_neg hb] at h
      by_cases hc : count % 2 = 0
      · rw [afterGroup_even _ _ _ _ _ _ _ hc] at h
        exact ih _ _ h
      · cases hmk : mk f lat (intAdd (signDetect
            (innerStep (group.getD (0, 0)).1 (group.getD (0, 0)).2 b).2.1) lng) with
        | error e' =>
          rw [afterGroup_odd_error _ _ _ _ _ _ _ hc hmk] at h
          cases h
          exact ⟨_, _, hmk⟩
        | ok coord =>
          rw [afterGroup_odd_ok _ _ _ _ _ _ _ hc hmk] at h
          exact ih _ _ h

/-- At a byte read with a shift of 64 or more, only `(c - 63) >> 5` matters to the scan. -/
theorem decodeLoop_payload_lost (mk : Nat → Int → Int → Except String Coord) (f : Nat)
    (rest : List Nat) (v : Vars) {c c' : Nat} {r : Int} {s : Nat}
    (hsame : ((c : Int) - 63) / 32 = ((c' : Int) - 63) / 32) (hr : IsGoInt r) (hs : 64 ≤ s) :
    decodeLoop mk f (c :: rest) (some (r, s)) v = decodeLoop mk f (c' :: rest) (some (r, s)) v := by
  rw [decodeLoop_cons, decodeLoop_cons]
  simp only [Option.getD_some]
  rw [innerStep_of_shift_ge c hr hs, innerStep_of_shift_ge c' hr hs]
  by_cases hb : (c : Int) - 63 ≥ 0x20
  · have hb' : (c' : Int) - 63 ≥ 0x20 := by omega
    rw [if_pos hb, if_pos hb']
  · have hb' : ¬ (c' : Int) - 63 ≥ 0x20 := by omega
    rw [if_neg hb, if_neg hb']

theorem decodeLoop_payload_lost_conts (mk : Nat → Int → Int → Except String Coord) (f : Nat)
    (rest : List Nat) (v : Vars) {c c' : Nat}
    (hsame : ((c : Int) - 63) / 32 = ((c' : Int) - 63) / 32) :
    ∀ (conts : List Nat) (group : Option (Int × Nat)),
      (∀ x ∈ conts, (x : Int) - 63 ≥ 0x20) →
      (∀ r s, group = some (r, s) → IsGoInt r) →
      64 ≤ (group.getD (0, 0)).2 + 5 * conts.length →
      (group.getD (0, 0)).2 + 5 * conts.length < 2 ^ 64 →
      decodeLoop mk f (conts ++ c :: rest) group v
        = decodeLoop mk f (conts ++ c' :: rest) group v := by
  intro conts
  induction conts with
  | nil =>
    intro group _ hgo hge _
    cases group with
    | none => simp at hge
    | some g =>
      obtain ⟨r, s⟩ := g
      simp only [List.length_nil, Nat.mul_zero, Nat.add_zero, Option.getD_some] at hge
      exact decodeLoop_payload_lost mk f rest v hsame (hgo r s rfl) hge
  | cons x conts ih =>
    intro group hconts hgo hge hlt
    have hx : (innerStep (group.getD (0, 0)).1 (group.getD (0, 0)).2 x).1 ≥ 0x20 := by
      have := hconts x (List.mem_cons_self _ _)
      simpa [innerStep] using this
    rw [List.cons_append, List.cons_append, decodeLoop_cons, decodeLoop_cons, if_pos hx,
      if_pos hx]
    have hshift : (innerStep (group.getD (0, 0)).1 (group.getD (0, 0)).2 x).2.2
        = (group.getD (0, 0)).2 + 5 := by
      simp only [innerStep, uintAdd5, List.length_cons] at hlt ⊢
      omega
    apply ih
    · exact fun y hy => hconts y (List.mem_cons_of_mem _ hy)
    · intro r s hrs
      cases hrs
      exact innerStep_isGoInt _ _ _
    · simp only [Option.getD_some, hshift, List.length_cons] at hge ⊢
      omega
    · simp only [Option.getD_some, hshift, List.length_cons] at hlt ⊢
      omega

theorem decodeLoop_payload_lost_from (mk : Nat → Int → Int → Except String Coord) (f : Nat)
    (rest conts : List Nat) {c c' : Nat}
    (hsame : ((c : Int) - 63) / 32 = ((c' : Int) - 63) / 32)
    (hconts : ∀ x ∈ conts, (x : Int) - 63 ≥ 0x20) (h13 : 13 ≤ conts.length) :
    ∀ (start : List Nat) (n : Nat) (group : Option (Int × Nat)) (v : Vars),
      (∀ r s, group = some (r, s) → IsGoInt r ∧ s ≤ 5 * n) →
      5 * (n + start.length + conts.length) < 2 ^ 64 →
      decodeLoop mk f (start ++ (conts ++ c :: rest)) group v
        = decodeLoop mk f (start ++ (conts ++ c' :: rest)) group v := by
  intro start
  induction start with
  | nil =>
    intro n group v hg hlen
    have hs : (group.getD (0, 0)).2 ≤ 5 * n := by
      cases group with
      | none => simp
      | some g => exact (hg g.1 g.2 rfl).2
    simp only [List.length_nil, Nat.add_zero] at hlen
    exact decodeLoop_payload_lost_conts mk f rest v hsame conts group hconts
      (fun r s h => (hg r s h).1) (by omega) (by omega)
  | cons b start ih =>
    intro n group v hg hlen
    obtain ⟨count, lat, lng, coords⟩ := v
    have hs : (group.getD (0, 0)).2 ≤ 5 * n := by
      cases group with
      | none => simp
      | some g => exact (hg g.1 g.2 rfl).2
    simp only [List.length_cons] at hlen
    rw [List.cons_append, List.cons_append, decodeLoop_cons, decodeLoop_cons]
    by_cases hb : (innerStep (group.getD (0, 0)).1 (group.getD (0, 0)).2 b).1 ≥ 0x20
    · rw [if_pos hb, if_pos hb]
      apply ih (n + 1)
      · intro r s hrs
        cases hrs
        refine ⟨innerStep_isGoInt _ _ _, ?_⟩
        simp only [innerStep, uintAdd5]
        omega
      · omega
    · rw [if_neg hb, if_neg hb]
      by_cases hc : count % 2 = 0
      · rw [afterGroup_even _ _ _ _ _ _ _ hc, afterGroup_even _ _ _ _ _ _ _ hc]
        exact ih (n + 1) none _ (fun r s h => by cases h) (by omega)
      · cases hmk : mk f lat (intAdd (signDetect
            (innerStep (group.getD (0, 0)).1 (group.getD (0, 0)).2 b).2.1) lng) with
        | error e =>
          rw [afterGroup_odd_error _ _ _ _ _ _ _ hc hmk, afterGroup_odd_error _ _ _ _ _ _ _ hc hmk]
        | ok coord =>
          rw [afterGroup_odd_ok _ _ _ _ _ _ _ hc hmk, afterGroup_odd_ok _ _ _ _ _ _ _ hc hmk]
          exact ih (n + 1) none _ (fun r s h => by cases h) (by omega)

/-- C19: bytes outside the polyline alphabet are never rejected.  For every byte `c < 63` the
value `b = c - 63` is negative, so the byte ends the current group, and it contributes
`(c - 63) mod 32` as its payload; every byte `c ≥ 127` is treated as a continuation byte,
also when bit 5 of `b` is clear (as for `c = 127`, `b = 64`); an error of `DecodePolyline` is
always an error of the validating constructor, so without validation no input gives an error.
The two-space string `"  "` at scale 1e5 decodes to one coordinate with the accumulators
(-1, -1). -/
theorem C19_bytes_outside_alphabet :
    (∀ (c : Nat), c < 63 → ∀ (result : Int) (shift : Nat),
      (innerStep result shift c).1 < 0 ∧
      (innerStep result shift c).2.1 = intOr result (intShl (((c : Int) - 63) % 32) shift) ∧
      0 ≤ ((c : Int) - 63) % 32 ∧ ((c : Int) - 63) % 32 < 32 ∧
      ∀ (mk : Nat → Int → Int → Except String Coord) (f : Nat) (rest : List Nat) (v : Vars),
        decodeLoop mk f (c :: rest) (some (result, shift)) v
          = afterGroup mk f rest (intOr result (intShl (((c : Int) - 63) % 32) shift)) v) ∧
    (∀ (c : Nat), 127 ≤ c → ∀ (result : Int) (shift : Nat),
      (innerStep result shift c).1 ≥ 0x20 ∧
      ∀ (mk : Nat → Int → Int → Except String Coord) (f : Nat) (rest : List Nat) (v : Vars),
        decodeLoop mk f (c :: rest) (some (result, shift)) v
          = decodeLoop mk f rest (some (innerStep result shift c).2) v) ∧
    ((innerStep 0 0 127).1 = 64 ∧ intAnd 64 0x20 = 0) ∧
    (∀ (mk : Nat → Int → Int → Except String Coord) (f : Nat) (encoded : List Nat) (e : String),
      DecodePolylineWith mk encoded f = .err e → ∃ lat lng, mk f lat lng = .error e) ∧
    (∀ (f : Nat) (encoded : List Nat) (e : String),
      DecodePolylineWith acceptAll encoded f ≠ .err e) ∧
    DecodePolyline (bytes "  ") 100000 = .ok [{ X := -1, Y := -1 }] := by
  refine ⟨?_, ?_, by decide, ?_, ?_, by decide⟩
  · intro c hc result shift
    have hb : ¬ (innerStep result shift c).1 ≥ 0x20 := by
      simp only [innerStep]
      omega
    refine ⟨?_, ?_, by omega, by omega, ?_⟩
    · simp only [innerStep]
      omega
    · simp only [innerStep, intAnd_0x1f]
    · intro mk f rest v
      rw [decodeLoop_cons]
      simp only [Option.getD_some]
      rw [if_neg hb]
      simp only [innerStep, intAnd_0x1f]
  · intro c hc result shift
    have hb : (innerStep result shift c).1 ≥ 0x20 := by
      simp only [innerStep]
      omega
    refine ⟨hb, ?_⟩
    intro mk f rest v
    rw [decodeLoop_cons]
    simp only [Option.getD_some]
    rw [if_pos hb]
  · intro mk f encoded e h
    exact decodeLoop_err_from_constructor mk f e encoded none _ h
  · intro f encoded e h
    obtain ⟨lat, lng, hmk⟩ := decodeLoop_err_from_constructor acceptAll f e encoded none _ h
    simp [acceptAll] at hmk

/-- C19, at the space (byte 32, payload 1) and at the byte 200. -/
theorem C19_bytes_outside_alphabet_witness :
    (32 : Nat) < 63 ∧ (innerStep 0 0 32).2.1 = 1 ∧ (127 : Nat) ≤ 200 ∧
    (innerStep 0 0 200).1 ≥ 0x20 :=
  ⟨by decide,
   ((C19_bytes_outside_alphabet.1 32 (by decide) 0 0).2.1).trans (by decide),
   by decide, (C19_bytes_outside_alphabet.2.1 200 (by decide) 0 0).1⟩

/-- C20: over-long groups lose bits silently.  With 64-bit `int` arithmetic, a byte read as
the 14th or a later byte of its group (at least 13 continuation bytes come right before it)
is read with a shift of 65 or more, so its payload does not reach `result`: two encoded
strings that differ only in the payload bits of such a byte (the two bytes have the same
`(c - 63) >> 5`) decode to identical results, for every validating constructor and scale; the
only errors are those of the constructor.  The strings are taken short enough for the `uint`
shift not to wrap (`5 * length < 2^64`). -/
theorem C20_overlong_group_loses_bits (mk : Nat → Int → Int → Except String Coord) (f : Nat)
    (start conts : List Nat) (c c' : Nat) (rest : List Nat)
    (hconts : ∀ x ∈ conts, (x : Int) - 63 ≥ 0x20) (h13 : 13 ≤ conts.length)
    (hsame : ((c : Int) - 63) / 32 = ((c' : Int) - 63) / 32)
    (hlen : 5 * (start ++ conts).length < 2 ^ 64) :
    DecodePolylineWith mk (start ++ conts ++ [c] ++ rest) f
      = DecodePolylineWith mk (start ++ conts ++ [c'] ++ rest) f ∧
    (∀ (r : Int) (s : Nat), IsGoInt r → 64 ≤ s → (innerStep r s c).2.1 = r) ∧
    (∀ e, DecodePolylineWith mk (start ++ conts ++ [c] ++ rest) f = .err e →
      ∃ lat lng, mk f lat lng = .error e) := by
  refine ⟨?_, ?_, ?_⟩
  · have h := decodeLoop_payload_lost_from mk f rest conts hsame hconts h13 start 0 none
      { count := 0, lat := 0, lng := 0, coords := [] } (fun r s h => by cases h)
      (by simpa [List.length_append] using hlen)
    simpa [DecodePolylineWith, List.append_assoc] using h
  · intro r s hr hs
    rw [innerStep_of_shift_ge c hr hs]
  · intro e h
    exact decodeLoop_err_from_constructor mk f e _ none _ h

/-- C20, at a group of 13 continuation bytes `"_"` followed by `"@"` (payload 1) or `"?"`
(payload 0): both strings decode to the single coordinate (0, 0). -/
theorem C20_overlong_group_loses_bits_witness :
    (∀ x ∈ bytes "_____________", (x : Int) - 63 ≥ 0x20) ∧
    13 ≤ (bytes "_____________").length ∧
    ((64 : Nat) : Int) - 63 ≠ ((63 : Nat) : Int) - 63 ∧
    DecodePolylineWith NewCoordinateFromLatLons
        ([] ++ bytes "_____________" ++ [64] ++ bytes "?") 100000
      = DecodePolylineWith NewCoordinateFromLatLons
        ([] ++ bytes "_____________" ++ [63] ++ bytes "?") 100000 ∧
    DecodePolylineWith NewCoordinateFromLatLons
        ([] ++ bytes "_____________" ++ [63] ++ bytes "?") 100000 = .ok [{ X := 0, Y := 0 }] :=
  ⟨by decide, by decide, by decide,
    (C20_overlong_group_loses_bits NewCoordinateFromLatLons 100000 [] (bytes "_____________")
      64 63 (bytes "?") (by decide) (by decide) (by decide) (by decide)).1,
    by decide⟩

/-! ## The envelope and the option triggers -/

section Envelope

variable {Filters FC : Type} (env : Collaborators Filters FC)

/-- When every conversion succeeds the loop converts every segment result, in order. -/
theorem collectionsLoop_ok (convert : List StandardPlacesResult → Except String FC)
    {results : List (List StandardPlacesResult)} {converted : List FC}
    (h : List.Forall₂ (fun rs c => convert rs = .ok c) results converted) :
    ∀ collections : List FC,
      (collectionsLoop convert results collections :
          List (Call Filters FC) × Except String (List FC))
        = (results.map (fun rs => .ResultsToFeatureCollection rs),
            .ok (collections ++ converted)) := by
  induction h with
  | nil => intro collections; simp [collectionsLoop]
  | cons hhead _ ih =>
    intro collections
    simp only [collectionsLoop, hhead, ih, List.map_cons, List.append_assoc,
      List.singleton_append]

/-- When a conversion fails the loop ends in an error after conversion calls only. -/
theorem collectionsLoop_error (convert : List StandardPlacesResult → Except String FC) :
    ∀ (results : List (List StandardPlacesResult)) (collections : List FC)
      (rs : List StandardPlacesResult) (e : String), rs ∈ results → convert rs = .error e →
      ∃ (made : List (Call Filters FC)) (e' : String),
        (collectionsLoop convert results collections :
            List (Call Filters FC) × Except String (List FC)) = (made, .error e') ∧
        ∀ c ∈ made, ∃ rs', c = .ResultsToFeatureCollection rs' := by
  intro results
  induction results with
  | nil => intro _ rs e hrs; cases hrs
  | cons head rest ih =>
    intro collections rs e hrs he
    cases hc : convert head with
    | error e' =>
      refine ⟨[.ResultsToFeatureCollection head], e', by simp only [collectionsLoop, hc], ?_⟩
      intro c hcm
      exact ⟨head, by simpa using hcm⟩
    | ok collection =>
      have hrs' : rs ∈ rest := by
        rw [List.mem_cons] at hrs
        rcases hrs with h | h
        · rw [h, hc] at he; cases he
        · exact h
      obtain ⟨made, e', hloop, hmade⟩ := ih (collections ++ [collection]) rs e hrs' he
      refine ⟨.ResultsToFeatureCollection head :: made, e',
        by simp only [collectionsLoop, hc, hloop], ?_⟩
      intro c hcm
      rw [List.mem_cons] at hcm
      rcases hcm with h | h
      · exact ⟨head, h⟩
      · exact hmade c h

theorem assemble_geojson_unique_ok (results : List (List StandardPlacesResult))
    (calls : List (Call Filters FC)) {collection : FC}
    (h : env.ResultsToFeatureCollection (uniqueRows results) = .ok collection) :
    assemble env true true results calls
      = marshalAndWrite env (.collection collection)
          (calls ++ [.ResultsToFeatureCollection (uniqueRows results)]) := by
  simp only [assemble, if_true, h]

theorem assemble_geojson_unique_error (results : List (List StandardPlacesResult))
    (calls : List (Call Filters FC)) {e : String}
    (h : env.ResultsToFeatureCollection (uniqueRows results) = .error e) :
    assemble env true true results calls
      = { calls := calls ++ [.ResultsToFeatureCollection (uniqueRows results)],
          response := some (.Error e 500) } := by
  simp only [assemble, if_true, h]

theorem assemble_geojson_set_ok (results : List (List StandardPlacesResult))
    (calls : List (Call Filters FC)) {collections : List FC}
    (h : List.Forall₂ (fun rs c => env.ResultsToFeatureCollection rs = .ok c)
      results collections) :
    assemble env true false results calls
      = marshalAndWrite env
          (.collectionSet { Kind := "FeatureCollectionSet", Collections := collections })
          (calls ++ results.map (fun rs => .ResultsToFeatureCollection rs)) := by
  simp only [assemble, if_true, Bool.false_eq_true, if_false,
    @collectionsLoop_ok Filters FC env.ResultsToFeatureCollection results collections h [],
    List.nil_append]

theorem assemble_geojson_set_error (results : List (List StandardPlacesResult))
    (calls : List (Call Filters FC)) {rs : List StandardPlacesResult} {e : String}
    (hrs : rs ∈ results) (h : env.ResultsToFeatureCollection rs = .error e) :
    ∃ (made : List (Call Filters FC)) (e' : String),
      assemble env true false results calls
        = { calls := calls ++ made, response := some (.Error e' 500) } ∧
      ∀ c ∈ made, ∃ rs', c = .ResultsToFeatureCollection rs' := by
  obtain ⟨made, e', hloop, hmade⟩ :=
    @collectionsLoop_error Filters FC env.ResultsToFeatureCollection results [] rs e hrs h
  refine ⟨made, e', ?_, hmade⟩
  simp only [assemble, if_true, Bool.false_eq_true, if_false, hloop]

end Envelope

/-- C11: GeoJSON shapes.  For every request with `format=geojson` that reaches the envelope
(the steps up to the index query succeed, with segment results `results`): (1) if `unique` is
set and the adapter converts the deduplicated rows, what is marshalled is exactly that one
feature collection, after a single conversion call; (2) if `unique` is not set and the
adapter converts every segment result, what is marshalled is the collection-set of type
`"FeatureCollectionSet"` whose k-th collection is the conversion of the k-th segment result,
so that their number is the number of segment results; and if the conversion of any single
segment fails (or that of the rows in unique mode), the response is a 500 error and nothing is
marshalled, not even the collections converted before. -/
theorem C11_geojson_shapes {Filters FC : Type}
    (env : Collaborators Filters FC) (opts : PolylineHandlerOptions) (query : Query)
    (coords : List Coord) (filters : Filters) (results : List (List StandardPlacesResult))
    (hpass : PassesOptions env opts query) (hd : decodeOf env query = .ok coords)
    (hl : ¬ (coords.length : Int) > opts.MaxCoords)
    (hf : env.NewSPRFilterFromQuery query = .ok filters)
    (hq : env.GetIntersectsByPath coords filters = .ok results)
    (hfmt : query.Get (bytes "format") = bytes "geojson") :
    (query.Get (bytes "unique") ≠ [] →
      uniqueRows results = firstOccurrences results.flatten ∧
      (∀ collection, env.ResultsToFeatureCollection (uniqueRows results) = .ok collection →
        (PolylineHandler env opts query).calls
          = [.IsIndexing, decodeCall query, .NewSPRFilterFromQuery query,
              .GetIntersectsByPath coords filters,
              .ResultsToFeatureCollection (uniqueRows results),
              .Marshal (.collection collection)] ∧
        ∀ js, env.Marshal (.collection collection) = .ok js →
          (PolylineHandler env opts query).response
            = some (.Write [("Content-Type", "application/json"),
                ("Access-Control-Allow-Origin", "*")] js)) ∧
      (∀ e, env.ResultsToFeatureCollection (uniqueRows results) = .error e →
        (PolylineHandler env opts query).response = some (.Error e 500) ∧
        ∀ final, Call.Marshal final ∉ (PolylineHandler env opts query).calls)) ∧
    (query.Get (bytes "unique") = [] →
      (∀ collections,
        List.Forall₂ (fun rs c => env.ResultsToFeatureCollection rs = .ok c)
          results collections →
        collections.length = results.length ∧
        (PolylineHandler env opts query).calls
          = [.IsIndexing, decodeCall query, .NewSPRFilterFromQuery query,
              .GetIntersectsByPath coords filters]
            ++ results.map (fun rs => .ResultsToFeatureCollection rs)
            ++ [.Marshal (.collectionSet
                { Kind := "FeatureCollectionSet", Collections := collections })] ∧
        ∀ js, env.Marshal (.collectionSet
            { Kind := "FeatureCollectionSet", Collections := collections }) = .ok js →
          (PolylineHandler env opts query).response
            = some (.Write [("Content-Type", "application/json"),
                ("Access-Control-Allow-Origin", "*")] js)) ∧
      (∀ rs ∈ results, ∀ e, env.ResultsToFeatureCollection rs = .error e →
        (∃ e', (PolylineHandler env opts query).response = some (.Error e' 500)) ∧
        ∀ final, Call.Marshal final ∉ (PolylineHandler env opts query).calls)) := by
  have hrun := handler_query_ok env opts query hpass hd hl hf hq
  rw [decide_eq_true hfmt] at hrun
  constructor
  · intro hu
    rw [decide_eq_true hu] at hrun
    refine ⟨uniqueRows_eq results, ?_, ?_⟩
    · intro collection hconv
      rw [hrun, assemble_geojson_unique_ok env results _ hconv]
      refine ⟨by rw [marshalAndWrite_calls]; rfl, ?_⟩
      intro js hm
      exact marshalAndWrite_ok env _ _ hm
    · intro e hconv
      rw [hrun, assemble_geojson_unique_error env results _ hconv]
      refine ⟨rfl, ?_⟩
      intro final
      simp [decodeCall]
  · intro hu
    have hdec : decide (query.Get (bytes "unique") ≠ []) = false := by
      simp [hu]
    rw [hdec] at hrun
    constructor
    · intro collections hall
      rw [hrun, assemble_geojson_set_ok env results _ hall]
      refine ⟨(List.Forall₂.length_eq hall).symm, by rw [marshalAndWrite_calls], ?_⟩
      intro js hm
      exact marshalAndWrite_ok env _ _ hm
    · intro rs hrs e he
      obtain ⟨made, e', heq, hmade⟩ := assemble_geojson_set_error env results
        [.IsIndexing, decodeCall query, .NewSPRFilterFromQuery query,
          .GetIntersectsByPath coords filters] hrs he
      rw [hrun, heq]
      refine ⟨⟨e', rfl⟩, ?_⟩
      intro final hmem
      simp only [List.mem_append, List.mem_cons, decodeCall, reduceCtorEq, List.mem_nil_iff,
        or_false, false_or] at hmem
      obtain ⟨rs', hrs'⟩ := hmade _ hmem
      cases hrs'

/-- C11, at a request for GeoJSON without `unique`, two coordinates and the example index
(one segment result per coordinate): two conversions, then a collection-set of two. -/
theorem C11_geojson_shapes_witness :
    (PolylineHandler (exampleEnv false) { AllowGeoJSON := true, MaxCoords := 2 }
        [(bytes "polyline", bytes "??_cidP?"), (bytes "format", bytes "geojson")]).calls
      = [.IsIndexing,
          decodeCall [(bytes "polyline", bytes "??_cidP?"), (bytes "format", bytes "geojson")],
          .NewSPRFilterFromQuery
            [(bytes "polyline", bytes "??_cidP?"), (bytes "format", bytes "geojson")],
          .GetIntersectsByPath [{ X := 0, Y := 0 }, { X := 0, Y := 9000000 }] ()]
        ++ [[], []].map (fun rs => .ResultsToFeatureCollection rs)
        ++ [.Marshal (.collectionSet
            { Kind := "FeatureCollectionSet", Collections := ["0", "0"] })] :=
  ((C11_geojson_shapes (exampleEnv false) { AllowGeoJSON := true, MaxCoords := 2 }
    [(bytes "polyline", bytes "??_cidP?"), (bytes "format", bytes "geojson")]
    [{ X := 0, Y := 0 }, { X := 0, Y := 9000000 }] () [[], []]
    (by decide) (by decide) (by decide) rfl rfl (by decide)).2 (by decide)).1
    ["0", "0"] (List.Forall₂.cons rfl (List.Forall₂.cons rfl List.Forall₂.nil)) |>.2.1

section Triggers

variable {Filters FC : Type} (env : Collaborators Filters FC)

/-- What is marshalled after the index query is the envelope of the spec. -/
theorem assemble_marshal_mem (geojson unique : Bool)
    (results : List (List StandardPlacesResult)) (calls : List (Call Filters FC))
    (final : Final FC)
    (h : Call.Marshal final ∈ (assemble env geojson unique results calls).calls) :
    Call.Marshal final ∈ calls ∨ envelope env geojson unique results = .ok final := by
  have hspec := assemble_spec env geojson unique results calls
  cases he : envelope env geojson unique results with
  | ok final' =>
    rw [he] at hspec
    obtain ⟨converted, hconv, heq⟩ := hspec
    rw [heq, marshalAndWrite_calls, List.mem_append, List.mem_append, List.mem_singleton] at h
    rcases h with (h | h) | h
    · exact Or.inl h
    · obtain ⟨rs, hrs⟩ := hconv _ h
      cases hrs
    · cases h
      exact Or.inr rfl
  | error e =>
    left
    cases geojson <;> cases unique
    · simp [envelope] at he
    · simp [envelope] at he
    · obtain ⟨h1, h2, _⟩ := @collectionsLoop_spec Filters FC
        env.ResultsToFeatureCollection results []
      simp only [envelope] at he
      simp only [assemble, if_true, Bool.false_eq_true, if_false] at h
      rcases hl : @collectionsLoop Filters FC env.ResultsToFeatureCollection results []
        with ⟨converted, res⟩
      rw [hl] at h1 h2 h
      cases hc : convertAll env.ResultsToFeatureCollection results with
      | ok cs => rw [hc] at he; cases he
      | error e' =>
        rw [hc] at h1
        simp only at h1
        subst h1
        simp only [List.mem_append] at h
        rcases h with h | h
        · exact h
        · obtain ⟨rs, hrs⟩ := h2 _ h
          cases hrs
    · simp only [envelope, ← uniqueRows_eq] at he
      cases hc : env.ResultsToFeatureCollection (uniqueRows results) with
      | ok collection => rw [hc] at he; cases he
      | error e' =>
        rw [assemble_geojson_unique_error env results calls hc] at h
        simpa using h

/-- The envelope is a deduplicated one exactly in unique mode. -/
theorem envelope_unique_iff (geojson unique : Bool)
    (results : List (List StandardPlacesResult)) (final : Final FC)
    (h : envelope env geojson unique results = .ok final) :
    unique = true ↔ (∃ unq, final = .unique unq) ∨ ∃ collection, final = .collection collection := by
  cases geojson <;> cases unique
  · simp only [envelope, Except.ok.injEq] at h
    subst h
    simp
  · simp only [envelope, Except.ok.injEq] at h
    subst h
    simp
  · simp only [envelope] at h
    cases hc : convertAll env.ResultsToFeatureCollection results with
    | error e => rw [hc] at h; cases h
    | ok cs =>
      rw [hc] at h
      simp only [Except.ok.injEq] at h
      subst h
      simp
  · simp only [envelope] at h
    cases hc : env.ResultsToFeatureCollection (firstOccurrences results.flatten) with
    | error e => rw [hc] at h; cases h
    | ok c =>
      rw [hc] at h
      simp only [Except.ok.injEq] at h
      subst h
      simp

end Triggers

theorem Query.Get_of_absent (query : Query) (key : List Nat) (h : ∀ kv ∈ query, kv.1 ≠ key) :
    query.Get key = [] := by
  unfold Query.Get
  have hfind : query.find? (fun kv => kv.1 == key) = none := by
    rw [List.find?_eq_none]
    intro kv hkv
    simpa using h kv hkv
  rw [hfind]

/-- C12: option triggers are the presence of a non-empty value, not boolean parsing.  For
every request, the decoder is invoked on the polyline with scale 1e6 if and only if the
`valhalla` value is a non-empty string, and with 1e5 otherwise; what is marshalled is a
deduplicated envelope (the unique rows, or their single feature collection) if and only if
the `unique` value is a non-empty string; a key that is absent and a key whose value is empty
read the same.  So `unique=false` and `unique=0` enable deduplication, `valhalla=false`
selects 1e6, and empty `unique=` and `valhalla=` values behave as absent. -/
theorem C12_option_triggers {Filters FC : Type}
    (env : Collaborators Filters FC) (opts : PolylineHandlerOptions) (query : Query) :
    (∀ encoded f, Call.DecodePolyline encoded f ∈ (PolylineHandler env opts query).calls →
      encoded = query.Get (bytes "polyline") ∧
      (f = 1000000 ↔ query.Get (bytes "valhalla") ≠ []) ∧
      (f = 100000 ↔ query.Get (bytes "valhalla") = [])) ∧
    (∀ final, Call.Marshal final ∈ (PolylineHandler env opts query).calls →
      (query.Get (bytes "unique") ≠ [] ↔
        (∃ unq, final = .unique unq) ∨ ∃ collection, final = .collection collection)) ∧
    (∀ (q : Query) (key : List Nat), (∀ kv ∈ q, kv.1 ≠ key) →
      q.Get key = [] ∧ Query.Get ((key, []) :: q) key = []) ∧
    ((PolylineHandler (exampleEnv false) NewDefaultPolylineHandlerOptions
        [(bytes "polyline", bytes "??"), (bytes "unique", bytes "false")]).calls.getLast?
      = some (.Marshal (.unique { Rows := [] })) ∧
     (PolylineHandler (exampleEnv false) NewDefaultPolylineHandlerOptions
        [(bytes "polyline", bytes "??"), (bytes "unique", bytes "0")]).calls.getLast?
      = some (.Marshal (.unique { Rows := [] })) ∧
     (PolylineHandler (exampleEnv false) NewDefaultPolylineHandlerOptions
        [(bytes "polyline", bytes "??"), (bytes "unique", bytes "")]).calls.getLast?
      = some (.Marshal (.results [[]])) ∧
     (PolylineHandler (exampleEnv false) NewDefaultPolylineHandlerOptions
        [(bytes "polyline", bytes "??")]).calls.getLast?
      = some (.Marshal (.results [[]])) ∧
     (PolylineHandler (exampleEnv false) NewDefaultPolylineHandlerOptions
        [(bytes "polyline", bytes "??"), (bytes "valhalla", bytes "false")]).calls.take 2
      = [.IsIndexing, .DecodePolyline (bytes "??") 1000000] ∧
     (PolylineHandler (exampleEnv false) NewDefaultPolylineHandlerOptions
        [(bytes "polyline", bytes "??"), (bytes "valhalla", bytes "")]).calls.take 2
      = [.IsIndexing, .DecodePolyline (bytes "??") 100000]) := by
  refine ⟨?_, ?_, ?_, by decide⟩
  · intro encoded f hmem
    have hfac : (polyFactor (query.Get (bytes "valhalla")) = 1000000 ↔
          query.Get (bytes "valhalla") ≠ []) ∧
        (polyFactor (query.Get (bytes "valhalla")) = 100000 ↔
          query.Get (bytes "valhalla") = []) := by
      unfold polyFactor
      by_cases hv : query.Get (bytes "valhalla") = []
      · simp [hv]
      · simp [hv]
    have hkey : Call.DecodePolyline encoded f
        ∈ ([.IsIndexing, decodeCall query, .NewSPRFilterFromQuery query] :
            List (Call Filters FC)) →
        encoded = query.Get (bytes "polyline") ∧
        (f = 1000000 ↔ query.Get (bytes "valhalla") ≠ []) ∧
        (f = 100000 ↔ query.Get (bytes "valhalla") = []) := by
      intro h
      simp only [decodeCall, List.mem_cons, reduceCtorEq, Call.DecodePolyline.injEq,
        List.mem_nil_iff, or_false, false_or] at h
      rw [h.1, h.2]
      exact ⟨rfl, hfac⟩
    rcases handler_cases env opts query with
      ⟨_, heq⟩ | ⟨_, _, heq⟩ | ⟨_, _, _, _, heq⟩ | ⟨_, _, heq⟩ | ⟨_, e, _, heq⟩ |
      ⟨_, cs, _, _, heq⟩ | ⟨_, cs, _, _, e, _, heq⟩ |
      ⟨_, cs, hd, hl, fs, _, e, _, heq⟩ | ⟨_, cs, hd, hl, fs, _, results, _, heq⟩
    all_goals rw [heq] at hmem
    · simp at hmem
    · simp at hmem
    · simp at hmem
    · exact hkey (by simp only [List.mem_cons] at hmem ⊢; tauto)
    · exact hkey (by simp only [List.mem_cons] at hmem ⊢; tauto)
    · exact hkey (by simp only [List.mem_cons] at hmem ⊢; tauto)
    · exact hkey hmem
    · apply hkey
      simp only [List.mem_cons, reduceCtorEq, List.mem_nil_iff, or_false, false_or] at hmem ⊢
      exact hmem
    · rcases assemble_calls_mem env _ _ results _ _ hmem with h | ⟨rs, h⟩ | ⟨final, h⟩
      · apply hkey
        simp only [List.mem_cons, reduceCtorEq, List.mem_nil_iff, or_false, false_or] at h ⊢
        exact h
      · cases h
      · cases h
  · intro final hmem
    rcases handler_cases env opts query with
      ⟨_, heq⟩ | ⟨_, _, heq⟩ | ⟨_, _, _, _, heq⟩ | ⟨_, _, heq⟩ | ⟨_, e, _, heq⟩ |
      ⟨_, cs, _, _, heq⟩ | ⟨_, cs, _, _, e, _, heq⟩ |
      ⟨_, cs, hd, hl, fs, _, e, _, heq⟩ | ⟨_, cs, hd, hl, fs, _, results, _, heq⟩
    all_goals rw [heq] at hmem
    · simp at hmem
    · simp at hmem
    · simp at hmem
    · simp [decodeCall] at hmem
    · simp [decodeCall] at hmem
    · simp [decodeCall] at hmem
    · simp [decodeCall] at hmem
    · simp [decodeCall] at hmem
    · rcases assemble_marshal_mem env _ _ results _ final hmem with h | h
      · simp [decodeCall] at h
      · rw [← envelope_unique_iff env _ _ results final h]
        simp
  · intro q key habs
    refine ⟨Query.Get_of_absent q key habs, ?_⟩
    simp [Query.Get]

/-- C12, at a run of the example environment with `unique=0`: the `Marshal` call carries the
unique rows, and the value `0` is not empty. -/
theorem C12_option_triggers_witness :
    Query.Get [(bytes "polyline", bytes "??"), (bytes "unique", bytes "0")] (bytes "unique")
      ≠ [] :=
  ((C12_option_triggers (exampleEnv false) NewDefaultPolylineHandlerOptions
    [(bytes "polyline", bytes "??"), (bytes "unique", bytes "0")]).2.1
    (.unique { Rows := [] }) (by decide)).2 (Or.inl ⟨_, rfl⟩)

/-! ## Delta accumulation -/

theorem wrapInt_add_wrapInt (x y : Int) : wrapInt (x + wrapInt y) = wrapInt (x + y) := by
  unfold wrapInt ofBits toBits
  split <;> split <;> split <;> omega

theorem wrapInt_isGoInt (x : Int) : IsGoInt (wrapInt x) := ofBits_isGoInt _

theorem intAdd_wrapInt (d a : Int) : intAdd d (wrapInt a) = wrapInt (a + d) := by
  unfold intAdd
  rw [wrapInt_add_wrapInt, Int.add_comm]

/-- Without validation, a scan that does not stop in the middle of a group returns the
running sums of the group values. -/
theorem decodeLoop_acceptAll_deltaPath (f : Nat) :
    ∀ (bs : List Nat) (group : Option (Int × Nat)) (count : Nat) (lat lng : Int)
      (coords : List Coord),
      EndsOnGroup bs → (bs = [] → group = none) →
      decodeLoop acceptAll f bs group
          { count := count, lat := lat, lng := lng, coords := coords }
        = .ok (coords ++ deltaPath (groupValues bs group) count lat lng) := by
  intro bs
  induction bs with
  | nil =>
    intro group count lat lng coords _ hg
    rw [hg rfl]
    simp [decodeLoop, groupValues, deltaPath]
  | cons b rest ih =>
    intro group count lat lng coords hend _
    rw [decodeLoop_cons, groupValues]
    by_cases hb : (innerStep (group.getD (0, 0)).1 (group.getD (0, 0)).2 b).1 ≥ 0x20
    · rw [if_pos hb, if_pos hb]
      have hne : rest ≠ [] := by
        intro hnil
        subst hnil
        have := hend b rfl
        simp only [innerStep] at hb
        omega
      exact ih _ _ _ _ _ (hend.tail hne) (fun h => absurd h hne)
    · rw [if_neg hb, if_neg hb]
      have hrest : EndsOnGroup rest := by
        by_cases hne : rest = []
        · subst hne
          intro c hc
          cases hc
        · exact hend.tail hne
      by_cases hc : count % 2 = 0
      · rw [afterGroup_even _ _ _ _ _ _ _ hc, deltaPath, if_pos hc]
        exact ih _ _ _ _ _ hrest (fun _ => rfl)
      · rw [afterGroup_odd_ok acceptAll _ _ _ _ _ _ hc rfl, deltaPath, if_neg hc]
        rw [ih _ _ _ _ _ hrest (fun _ => rfl)]
        simp

theorem deltaPath_pair (d0 d1 : Int) (ds : List Int) {count : Nat} (lat lng : Int)
    (hc : count % 2 = 0) :
    deltaPath (d0 :: d1 :: ds) count lat lng
      = { X := intAdd d1 lng, Y := intAdd d0 lat }
        :: deltaPath ds (count + 2) (intAdd d0 lat) (intAdd d1 lng) := by
  have hc1 : ¬ (count + 1) % 2 = 0 := by omega
  rw [deltaPath, if_pos hc, deltaPath, if_neg hc1]

theorem deltaPath_single (d : Int) {count : Nat} (lat lng : Int) (hc : count % 2 = 0) :
    deltaPath [d] count lat lng = [] := by
  rw [deltaPath, if_pos hc, deltaPath]

theorem deltaPath_length :
    ∀ (n : Nat) (ds : List Int) (count : Nat) (lat lng : Int), ds.length ≤ n → count % 2 = 0 →
      (deltaPath ds count lat lng).length = ds.length / 2 := by
  intro n
  induction n using Nat.strong_induction_on with
  | _ n ih =>
    intro ds count lat lng hn hc
    match ds with
    | [] => simp [deltaPath]
    | [d] => simp [deltaPath_single d lat lng hc]
    | d0 :: d1 :: ds =>
      simp only [List.length_cons] at hn
      rw [deltaPath_pair d0 d1 ds lat lng hc, List.length_cons,
        ih ds.length (by omega) ds (count + 2) _ _ (Nat.le_refl _) (by omega)]
      simp only [List.length_cons]
      omega

/-- The k-th coordinate of the path of running sums: the Go `int` sums of the values at the
even positions up to `2k` and at the odd positions up to `2k + 1`, added to the start. -/
theorem deltaPath_getElem? :
    ∀ (k : Nat) (ds : List Int) (count : Nat) (a b : Int), count % 2 = 0 → 2 * k + 1 < ds.length →
      (deltaPath ds count (wrapInt a) (wrapInt b))[k]?
        = some { X := wrapInt (b + ∑ i in Finset.range (k + 1), ds.getD (2 * i + 1) 0),
                 Y := wrapInt (a + ∑ i in Finset.range (k + 1), ds.getD (2 * i) 0) } := by
  intro k
  induction k with
  | zero =>
    intro ds count a b hc hlen
    match ds with
    | [] => simp at hlen
    | [d] => simp at hlen
    | d0 :: d1 :: ds =>
      rw [deltaPath_pair d0 d1 ds _ _ hc, intAdd_wrapInt, intAdd_wrapInt]
      simp
  | succ k ih =>
    intro ds count a b hc hlen
    match ds with
    | [] => simp at hlen
    | [d] => simp at hlen
    | d0 :: d1 :: ds =>
      simp only [List.length_cons] at hlen
      rw [deltaPath_pair d0 d1 ds _ _ hc, intAdd_wrapInt, intAdd_wrapInt, List.getElem?_cons_succ,
        ih ds (count + 2) (a + d0) (b + d1) (by omega) (by omega)]
      have he : ∑ i in Finset.range (k + 1 + 1), (d0 :: d1 :: ds).getD (2 * i) 0
          = d0 + ∑ i in Finset.range (k + 1), ds.getD (2 * i) 0 := by
        rw [Finset.sum_range_succ' _ (k + 1)]
        simp only [Nat.mul_zero, List.getD_cons_zero]
        rw [Int.add_comm]
        congr 1
      have ho : ∑ i in Finset.range (k + 1 + 1), (d0 :: d1 :: ds).getD (2 * i + 1) 0
          = d1 + ∑ i in Finset.range (k + 1), ds.getD (2 * i + 1) 0 := by
        rw [Finset.sum_range_succ' _ (k + 1)]
        simp only [Nat.mul_zero, Nat.zero_add, List.getD_cons_succ, List.getD_cons_zero]
        rw [Int.add_comm]
        congr 1
      rw [he, ho, Int.add_assoc, Int.add_assoc]

/-- A path returned by `DecodePolyline` is the validation of the running sums of the group
values of the input, which does not end in the middle of a group. -/
theorem decode_ok_deltaPath (mk : Nat → Int → Int → Except String Coord) (f : Nat)
    (encoded : List Nat) (cs : List Coord) (h : DecodePolylineWith mk encoded f = .ok cs) :
    EndsOnGroup encoded ∧
    DecodePolylineWith acceptAll encoded f
      = .ok (deltaPath (groupValues encoded none) 0 0 0) ∧
    List.Forall₂ (fun p c => mk f p.Y p.X = .ok c)
      (deltaPath (groupValues encoded none) 0 0 0) cs := by
  have hend : EndsOnGroup encoded := by
    by_contra hnot
    unfold EndsOnGroup at hnot
    push_neg at hnot
    obtain ⟨c, hc, hcont⟩ := hnot
    have hne : encoded ≠ [] := by
      intro hnil
      rw [hnil] at hc
      cases hc
    have htr := decodeLoop_truncated mk f encoded none
      { count := 0, lat := 0, lng := 0, coords := [] } (fun hnil => absurd hnil hne)
      (by
        intro c' hc'
        rw [hc] at hc'
        cases hc'
        omega)
    unfold DecodePolylineWith at h
    rw [h] at htr
    rcases htr with h1 | ⟨e, h1⟩ <;> cases h1
  have hall := decodeLoop_acceptAll_deltaPath f encoded none 0 0 0 [] hend (fun _ => rfl)
  rw [List.nil_append] at hall
  refine ⟨hend, hall, ?_⟩
  have hmk := decodeLoop_eq_validateAll mk f encoded none 0 0 0 _ hall
  unfold DecodePolylineWith at h
  rw [h] at hmk
  cases hv : validateAll mk f (deltaPath (groupValues encoded none) 0 0 0) with
  | error e => rw [hv] at hmk; cases hmk
  | ok cs' =>
    rw [hv] at hmk
    cases hmk
    exact validateAll_ok mk f _ _ hv

theorem forall₂_getElem? {α β : Type} {R : α → β → Prop} {l₁ : List α} {l₂ : List β}
    (h : List.Forall₂ R l₁ l₂) :
    ∀ (k : Nat) (a : α) (b : β), l₁[k]? = some a → l₂[k]? = some b → R a b := by
  induction h with
  | nil => intro k a b ha; simp at ha
  | cons hhead _ ih =>
    intro k a b ha hb
    cases k with
    | zero =>
      simp only [List.getElem?_cons_zero, Option.some.injEq] at ha hb
      rw [← ha, ← hb]
      exact hhead
    | succ k =>
      simp only [List.getElem?_cons_succ] at ha hb
      exact ih k a b ha hb

theorem signDetect_isGoInt {r : Int} (h : IsGoInt r) : IsGoInt (signDetect r) := by
  unfold IsGoInt signDetect intShr1 intNot at *
  split <;> constructor <;> omega

theorem groupValues_isGoInt :
    ∀ (bs : List Nat) (group : Option (Int × Nat)), ∀ d ∈ groupValues bs group, IsGoInt d := by
  intro bs
  induction bs with
  | nil => intro group d hd; simp [groupValues] at hd
  | cons c rest ih =>
    intro group d hd
    rw [groupValues] at hd
    by_cases hb : (innerStep (group.getD (0, 0)).1 (group.getD (0, 0)).2 c).1 ≥ 0x20
    · rw [if_pos hb] at hd
      exact ih _ d hd
    · rw [if_neg hb, List.mem_cons] at hd
      rcases hd with h | h
      · rw [h]
        exact signDetect_isGoInt (innerStep_isGoInt _ _ _)
      · exact ih _ d h

theorem getD_isGoInt {ds : List Int} (h : ∀ d ∈ ds, IsGoInt d) (i : Nat) :
    IsGoInt (ds.getD i 0) := by
  by_cases hi : i < ds.length
  · rw [List.getD_eq_getElem _ _ hi]
    exact h _ (List.getElem_mem hi)
  · rw [List.getD_eq_default _ _ (by omega)]
    unfold IsGoInt
    omega

theorem NewCoordinateFromLatLons_ok {f : Nat} {lat lng : Int} {c : Coord}
    (h : NewCoordinateFromLatLons f lat lng = .ok c) :
    (-90 * (f : Int) ≤ lat ∧ lat ≤ 90 * (f : Int)) ∧
    (-180 * (f : Int) ≤ lng ∧ lng ≤ 180 * (f : Int)) ∧ c = { X := lng, Y := lat } := by
  unfold NewCoordinateFromLatLons at h
  split at h
  · cases h
  · split at h
    · cases h
    · simp only [Except.ok.injEq] at h
      refine ⟨by omega, by omega, h.symm⟩

/-- With the bounds of the spec and a scale below `2^63 / 360`, the sums of a path whose
coordinates are all valid do not wrap. -/
theorem sums_do_not_wrap (f : Nat) (hf : 360 * f < 2 ^ 63) (ds : List Int)
    (hds : ∀ d ∈ ds, IsGoInt d)
    (hvalid : ∀ p ∈ deltaPath ds 0 0 0,
      (-90 * (f : Int) ≤ p.Y ∧ p.Y ≤ 90 * (f : Int)) ∧
      (-180 * (f : Int) ≤ p.X ∧ p.X ≤ 180 * (f : Int))) :
    ∀ k, 2 * k + 1 < ds.length →
      wrapInt (∑ i in Finset.range (k + 1), ds.getD (2 * i) 0)
        = ∑ i in Finset.range (k + 1), ds.getD (2 * i) 0 ∧
      wrapInt (∑ i in Finset.range (k + 1), ds.getD (2 * i + 1) 0)
        = ∑ i in Finset.range (k + 1), ds.getD (2 * i + 1) 0 := by
  have h0 : wrapInt 0 = 0 := by decide
  have hget : ∀ k, 2 * k + 1 < ds.length →
      (-90 * (f : Int) ≤ wrapInt (∑ i in Finset.range (k + 1), ds.getD (2 * i) 0) ∧
        wrapInt (∑ i in Finset.range (k + 1), ds.getD (2 * i) 0) ≤ 90 * (f : Int)) ∧
      (-180 * (f : Int) ≤ wrapInt (∑ i in Finset.range (k + 1), ds.getD (2 * i + 1) 0) ∧
        wrapInt (∑ i in Finset.range (k + 1), ds.getD (2 * i + 1) 0) ≤ 180 * (f : Int)) := by
    intro k hk
    have h := deltaPath_getElem? k ds 0 0 0 rfl hk
    rw [h0, Int.zero_add, Int.zero_add] at h
    have hmem := List.getElem?_mem h
    exact hvalid _ hmem
  intro k
  induction k with
  | zero =>
    intro _
    simp only [Nat.zero_add, Finset.range_one, Finset.sum_singleton, Nat.mul_zero]
    exact ⟨wrapInt_of_range (getD_isGoInt hds 0).1 (getD_isGoInt hds 0).2,
      wrapInt_of_range (getD_isGoInt hds 1).1 (getD_isGoInt hds 1).2⟩
  | succ k ih =>
    intro hk
    obtain ⟨ihe, iho⟩ := ih (by omega)
    obtain ⟨⟨he1, he2⟩, ⟨ho1, ho2⟩⟩ := hget k (by omega)
    obtain ⟨⟨hn1, hn2⟩, ⟨hm1, hm2⟩⟩ := hget (k + 1) hk
    rw [ihe] at he1 he2
    rw [iho] at ho1 ho2
    have hde := getD_isGoInt hds (2 * (k + 1))
    have hdo := getD_isGoInt hds (2 * (k + 1) + 1)
    rw [Finset.sum_range_succ _ (k + 1)] at hn1 hn2 ⊢
    rw [Finset.sum_range_succ (fun i => ds.getD (2 * i + 1) 0) (k + 1)] at hm1 hm2 ⊢
    unfold IsGoInt at hde hdo
    generalize (∑ i in Finset.range (k + 1), ds.getD (2 * i) 0) = se at *
    generalize (∑ i in Finset.range (k + 1), ds.getD (2 * i + 1) 0) = so at *
    generalize ds.getD (2 * (k + 1)) 0 = de at *
    generalize ds.getD (2 * (k + 1) + 1) 0 = dodd at *
    constructor
    · unfold wrapInt ofBits toBits at hn1 hn2 ⊢
      split at hn1 <;> split <;> omega
    · unfold wrapInt ofBits toBits at hm1 hm2 ⊢
      split at hm1 <;> split <;> omega

theorem forall₂_left_exists {α β : Type} {R : α → β → Prop} {l₁ : List α} {l₂ : List β}
    (h : List.Forall₂ R l₁ l₂) : ∀ a ∈ l₁, ∃ b, R a b := by
  induction h with
  | nil => intro a ha; cases ha
  | cons hhead _ ih =>
    intro a ha
    rw [List.mem_cons] at ha
    rcases ha with h | h
    · rw [h]; exact ⟨_, hhead⟩
    · exact ih a h

/-- The k-th coordinate of a returned path, by its position in the path of running sums. -/
theorem decode_ok_getElem? (mk : Nat → Int → Int → Except String Coord) (f : Nat)
    (encoded : List Nat) (cs : List Coord) (h : DecodePolylineWith mk encoded f = .ok cs)
    (k : Nat) (c : Coord) (hk : cs[k]? = some c) :
    2 * k + 1 < (groupValues encoded none).length ∧
    mk f (wrapInt (∑ i in Finset.range (k + 1), (groupValues encoded none).getD (2 * i) 0))
        (wrapInt (∑ i in Finset.range (k + 1), (groupValues encoded none).getD (2 * i + 1) 0))
      = .ok c := by
  obtain ⟨_, _, hall⟩ := decode_ok_deltaPath mk f encoded cs h
  have hlen := deltaPath_length _ (groupValues encoded none) 0 0 0 (Nat.le_refl _) rfl
  have hklt : k < cs.length := by
    obtain ⟨hlt, _⟩ := List.getElem?_eq_some.1 hk
    exact hlt
  have h2k : 2 * k + 1 < (groupValues encoded none).length := by
    rw [← hall.length_eq, hlen] at hklt
    omega
  have hp := deltaPath_getElem? k (groupValues encoded none) 0 0 0 rfl h2k
  have h0 : wrapInt 0 = 0 := by decide
  rw [h0, Int.zero_add, Int.zero_add] at hp
  exact ⟨h2k, forall₂_getElem? hall k _ c hp hk⟩

/-- C14: delta accumulation.  For every encoded string that decodes without error, with
`d_0, d_1, ...` the signed values of its groups in input order, the returned path has one
coordinate for each odd-indexed value, and its k-th coordinate is what the constructor
returns for the latitude `d_0 + d_2 + ... + d_2k` and the longitude
`d_1 + d_3 + ... + d_(2k+1)` (sums of Go `int`, over the scale `f`).  With the constructor of
the spec and a scale below `2^63 / 360` the sums do not wrap and are the accumulators of the
coordinate.  In the loop body a value met at an even `count` changes only the latitude, and
a value met at an odd `count` changes only the longitude and appends one coordinate. -/
theorem C14_delta_accumulation :
    (∀ (mk : Nat → Int → Int → Except String Coord) (f : Nat) (encoded : List Nat)
        (cs : List Coord), DecodePolylineWith mk encoded f = .ok cs →
      cs.length = (groupValues encoded none).length / 2 ∧
      ∀ k c, cs[k]? = some c →
        mk f (wrapInt (∑ i in Finset.range (k + 1), (groupValues encoded none).getD (2 * i) 0))
            (wrapInt
              (∑ i in Finset.range (k + 1), (groupValues encoded none).getD (2 * i + 1) 0))
          = .ok c) ∧
    (∀ (f : Nat) (encoded : List Nat) (cs : List Coord), 360 * f < 2 ^ 63 →
      DecodePolyline encoded f = .ok cs →
      ∀ (k : Nat) (c : Coord), cs[k]? = some c →
        c = { X := ∑ i in Finset.range (k + 1), (groupValues encoded none).getD (2 * i + 1) 0,
              Y := ∑ i in Finset.range (k + 1), (groupValues encoded none).getD (2 * i) 0 }) ∧
    (∀ (mk : Nat → Int → Int → Except String Coord) (f : Nat) (result : Int) (v : Vars),
      (v.count % 2 = 0 →
        outerTail mk f result v
          = .ok { count := v.count + 1, lat := intAdd (signDetect result) v.lat, lng := v.lng,
                  coords := v.coords }) ∧
      (v.count % 2 = 1 → ∀ c, mk f v.lat (intAdd (signDetect result) v.lng) = .ok c →
        outerTail mk f result v
          = .ok { count := v.count + 1, lat := v.lat, lng := intAdd (signDetect result) v.lng,
                  coords := v.coords ++ [c] })) := by
  refine ⟨?_, ?_, ?_⟩
  · intro mk f encoded cs h
    obtain ⟨_, _, hall⟩ := decode_ok_deltaPath mk f encoded cs h
    have hlen := deltaPath_length _ (groupValues encoded none) 0 0 0 (Nat.le_refl _) rfl
    refine ⟨by rw [← hall.length_eq, hlen], ?_⟩
    intro k c hk
    exact (decode_ok_getElem? mk f encoded cs h k c hk).2
  · intro f encoded cs hf h k c hk
    obtain ⟨_, _, hall⟩ := decode_ok_deltaPath NewCoordinateFromLatLons f encoded cs h
    obtain ⟨h2k, hmk⟩ := decode_ok_getElem? NewCoordinateFromLatLons f encoded cs h k c hk
    have hvalid : ∀ p ∈ deltaPath (groupValues encoded none) 0 0 0,
        (-90 * (f : Int) ≤ p.Y ∧ p.Y ≤ 90 * (f : Int)) ∧
        (-180 * (f : Int) ≤ p.X ∧ p.X ≤ 180 * (f : Int)) := by
      intro p hp
      obtain ⟨c', hc'⟩ := forall₂_left_exists hall p hp
      obtain ⟨h1, h2, _⟩ := NewCoordinateFromLatLons_ok hc'
      exact ⟨h1, h2⟩
    obtain ⟨he, ho⟩ := sums_do_not_wrap f hf (groupValues encoded none)
      (groupValues_isGoInt encoded none) hvalid k h2k
    rw [he, ho] at hmk
    exact (NewCoordinateFromLatLons_ok hmk).2.2
  · intro mk f result v
    constructor
    · intro hc
      simp only [outerTail, hc, if_true]
    · intro hc c hmk
      have hc' : ¬ v.count % 2 = 0 := by omega
      simp only [outerTail, hc', if_false, hmk]

/-- C14, at the reference polyline: its second coordinate is made of the sums of the first
two even-indexed and the first two odd-indexed group values. -/
theorem C14_delta_accumulation_witness :
    groupValues (bytes "_p~iF~ps|U_ulLnnqC_mqNvxq`@") none
      = [3850000, -12020000, 220000, -75000, 255200, -550300] ∧
    ({ X := -12095000, Y := 4070000 } : Coord)
      = { X := ∑ i in Finset.range (1 + 1),
                (groupValues (bytes "_p~iF~ps|U_ulLnnqC_mqNvxq`@") none).getD (2 * i + 1) 0,
          Y := ∑ i in Finset.range (1 + 1),
                (groupValues (bytes "_p~iF~ps|U_ulLnnqC_mqNvxq`@") none).getD (2 * i) 0 } :=
  ⟨by decide,
    C14_delta_accumulation.2.1 100000 (bytes "_p~iF~ps|U_ulLnnqC_mqNvxq`@")
      [{ X := -12020000, Y := 3850000 }, { X := -12095000, Y := 4070000 },
        { X := -12645300, Y := 4325200 }] (by decide) (by decide) 1
      { X := -12095000, Y := 4070000 } (by decide)⟩

/-! ## A trailing unpaired value -/

theorem groupValues_append (rest : List Nat) :
    ∀ (start : List Nat) (group : Option (Int × Nat)),
      EndsOnGroup start → (start = [] → group = none) →
      groupValues (start ++ rest) group = groupValues start group ++ groupValues rest none := by
  intro start
  induction start with
  | nil =>
    intro group _ hg
    rw [hg rfl]
    simp [groupValues]
  | cons b start ih =>
    intro group hend _
    rw [List.cons_append, groupValues, groupValues]
    by_cases hb : (innerStep (group.getD (0, 0)).1 (group.getD (0, 0)).2 b).1 ≥ 0x20
    · rw [if_pos hb, if_pos hb]
      have hne : start ≠ [] := by
        intro hnil
        subst hnil
        have := hend b rfl
        simp only [innerStep] at hb
        omega
      exact ih _ (hend.tail hne) (fun h => absurd h hne)
    · rw [if_neg hb, if_neg hb, List.cons_append]
      have hstart : EndsOnGroup start := by
        by_cases hne : start = []
        · subst hne
          intro c hc
          cases hc
        · exact hend.tail hne
      rw [ih none hstart (fun _ => rfl)]

/-- Continuation bytes closed by a byte with the bit clear are one group. -/
theorem groupValues_one_group (last : Nat) (hlast : (last : Int) - 63 < 0x20) :
    ∀ (conts : List Nat) (group : Option (Int × Nat)),
      (∀ c ∈ conts, (c : Int) - 63 ≥ 0x20) →
      ∃ d, groupValues (conts ++ [last]) group = [d] := by
  intro conts
  induction conts with
  | nil =>
    intro group _
    have hb : ¬ (innerStep (group.getD (0, 0)).1 (group.getD (0, 0)).2 last).1 ≥ 0x20 := by
      simp only [innerStep]
      omega
    exact ⟨_, by rw [List.nil_append, groupValues, if_neg hb, groupValues]⟩
  | cons c conts ih =>
    intro group hconts
    have hb : (innerStep (group.getD (0, 0)).1 (group.getD (0, 0)).2 c).1 ≥ 0x20 := by
      have := hconts c (List.mem_cons_self _ _)
      simpa [innerStep] using this
    obtain ⟨d, hd⟩ := ih (some (innerStep (group.getD (0, 0)).1 (group.getD (0, 0)).2 c).2)
      (fun x hx => hconts x (List.mem_cons_of_mem _ hx))
    exact ⟨d, by rw [List.cons_append, groupValues, if_pos hb, hd]⟩

theorem deltaPath_append_single (d : Int) :
    ∀ (ds : List Int) (count : Nat) (lat lng : Int), (count + ds.length) % 2 = 0 →
      deltaPath (ds ++ [d]) count lat lng = deltaPath ds count lat lng := by
  intro ds
  induction ds with
  | nil =>
    intro count lat lng hc
    simp only [List.length_nil, Nat.add_zero] at hc
    rw [List.nil_append, deltaPath_single d lat lng hc, deltaPath]
  | cons x ds ih =>
    intro count lat lng hc
    simp only [List.length_cons] at hc
    rw [List.cons_append, deltaPath, deltaPath]
    by_cases hcount : count % 2 = 0
    · rw [if_pos hcount, if_pos hcount, ih (count + 1) _ _ (by omega)]
    · rw [if_neg hcount, if_neg hcount, ih (count + 1) _ _ (by omega)]

/-- On an input that does not end in the middle of a group, `DecodePolyline` is the validation
of the path of running sums of the group values. -/
theorem decode_eq_validateAll_deltaPath (mk : Nat → Int → Int → Except String Coord) (f : Nat)
    (encoded : List Nat) (hend : EndsOnGroup encoded) :
    DecodePolylineWith mk encoded f
      = match validateAll mk f (deltaPath (groupValues encoded none) 0 0 0) with
        | .error e => .err e
        | .ok cs => .ok cs := by
  have hall := decodeLoop_acceptAll_deltaPath f encoded none 0 0 0 [] hend (fun _ => rfl)
  rw [List.nil_append] at hall
  exact decodeLoop_eq_validateAll mk f encoded none 0 0 0 _ hall

theorem rdropWhile_append_rtakeWhile {α : Type} (p : α → Bool) (l : List α) :
    l.rdropWhile p ++ l.rtakeWhile p = l := by
  unfold List.rdropWhile List.rtakeWhile
  rw [← List.reverse_append, List.takeWhile_append_dropWhile, List.reverse_reverse]

theorem mem_rtakeWhile {α : Type} (p : α → Bool) (l : List α) :
    ∀ x ∈ l.rtakeWhile p, p x = true := by
  intro x hx
  unfold List.rtakeWhile at hx
  rw [List.mem_reverse] at hx
  exact List.mem_takeWhile_imp hx

/-- The decomposition of a non-empty input that ends on a group: the input with its final
group removed ends on a group, and the final group is one group. -/
theorem dropLastGroup_spec (encoded : List Nat) (hend : EndsOnGroup encoded)
    (hne : encoded ≠ []) :
    EndsOnGroup (dropLastGroup encoded) ∧
    ∃ d, groupValues encoded none = groupValues (dropLastGroup encoded) none ++ [d] := by
  have hsplit := List.dropLast_append_getLast hne
  have hlast : ((encoded.getLast hne : Nat) : Int) - 63 < 0x20 :=
    hend _ (List.getLast?_eq_getLast _ hne)
  have hstart : EndsOnGroup (dropLastGroup encoded) := by
    intro c hc
    unfold dropLastGroup at hc
    by_cases hnil : encoded.dropLast.rdropWhile continues = []
    · rw [hnil] at hc
      cases hc
    · have hnot := List.rdropWhile_last_not continues encoded.dropLast hnil
      rw [List.getLast?_eq_getLast _ hnil] at hc
      cases hc
      simpa [continues] using hnot
  refine ⟨hstart, ?_⟩
  have hdecomp : encoded = dropLastGroup encoded
      ++ (encoded.dropLast.rtakeWhile continues ++ [encoded.getLast hne]) := by
    rw [← List.append_assoc]
    unfold dropLastGroup
    rw [rdropWhile_append_rtakeWhile, hsplit]
  obtain ⟨d, hd⟩ := groupValues_one_group (encoded.getLast hne) hlast
    (encoded.dropLast.rtakeWhile continues) none
    (by
      intro c hc
      have := mem_rtakeWhile _ _ c hc
      simpa [continues] using this)
  refine ⟨d, ?_⟩
  conv_lhs => rw [hdecomp]
  rw [groupValues_append _ _ none hstart (fun _ => rfl), hd]

/-- C18: a trailing unpaired value is silently discarded.  For every encoded string that
decodes without error, the returned path has exactly `g / 2` (rounded down) coordinates,
`g` being the number of its groups; when `g` is odd, the string with its final group removed
has the same group values but the last and decodes to the same path, so the dangling
latitude delta reports no error.  The one-group input `"?"` gives an empty path and no
error. -/
theorem C18_trailing_value_discarded :
    (∀ (mk : Nat → Int → Int → Except String Coord) (f : Nat) (encoded : List Nat)
        (cs : List Coord), DecodePolylineWith mk encoded f = .ok cs →
      cs.length = (groupValues encoded none).length / 2 ∧
      ((groupValues encoded none).length % 2 = 1 →
        groupValues (dropLastGroup encoded) none = (groupValues encoded none).dropLast ∧
        DecodePolylineWith mk (dropLastGroup encoded) f = .ok cs)) ∧
    (∀ f : Nat, DecodePolyline (bytes "?") f = .ok []) ∧
    groupValues (bytes "?") none = [0] := by
  refine ⟨?_, fun f => rfl, by decide⟩
  intro mk f encoded cs h
  obtain ⟨hend, _, hall⟩ := decode_ok_deltaPath mk f encoded cs h
  have hlen := deltaPath_length _ (groupValues encoded none) 0 0 0 (Nat.le_refl _) rfl
  refine ⟨by rw [← hall.length_eq, hlen], ?_⟩
  intro hodd
  have hne : encoded ≠ [] := by
    intro hnil
    rw [hnil] at hodd
    simp [groupValues] at hodd
  obtain ⟨hstart, d, hd⟩ := dropLastGroup_spec encoded hend hne
  have hvals : groupValues (dropLastGroup encoded) none = (groupValues encoded none).dropLast := by
    rw [hd, List.dropLast_concat]
  refine ⟨hvals, ?_⟩
  have heven : (0 + (groupValues (dropLastGroup encoded) none).length) % 2 = 0 := by
    rw [hd, List.length_append, List.length_singleton] at hodd
    omega
  rw [decode_eq_validateAll_deltaPath mk f _ hstart,
    ← deltaPath_append_single d _ 0 0 0 heven, ← hd,
    ← decode_eq_validateAll_deltaPath mk f _ hend]
  exact h

/-- C18, at the five-group string `"??_cidP??"`: one group more than `"??_cidP?"`, the
same path of two coordinates. -/
theorem C18_trailing_value_discarded_witness :
    (groupValues (bytes "??_cidP??") none).length = 5 ∧
    dropLastGroup (bytes "??_cidP??") = bytes "??_cidP?" ∧
    DecodePolylineWith NewCoordinateFromLatLons (dropLastGroup (bytes "??_cidP??")) 100000
      = .ok [{ X := 0, Y := 0 }, { X := 0, Y := 9000000 }] :=
  ⟨by decide, by decide,
    ((C18_trailing_value_discarded.1 NewCoordinateFromLatLons 100000 (bytes "??_cidP??")
      [{ X := 0, Y := 0 }, { X := 0, Y := 9000000 }] (by decide)).2 (by decide)).2⟩

/-! ## The index of the reads -/

/-- The loops with the index explicit, given enough fuel, finish with the result of the scan
of the bytes from `index` on; they read consecutive indices from `index`; unless the run
panics every index read is in range; and a returned path means all bytes were read. -/
theorem decodeAt_spec (mk : Nat → Int → Int → Except String Coord) (f : Nat)
    (encoded : List Nat) :
    ∀ (fuel index : Nat) (group : Option (Int × Nat)) (v : Vars) (reads : List Nat),
      index ≤ encoded.length → encoded.length - index < fuel →
      ∃ n final, decodeAt mk f encoded fuel index group v reads
          = some { reads := reads ++ List.range' index n, index := final,
                   result := decodeLoop mk f (encoded.drop index) group v } ∧
        (decodeLoop mk f (encoded.drop index) group v ≠ .indexOutOfRange →
          index + n ≤ encoded.length ∧ final = index + n) ∧
        (∀ cs, decodeLoop mk f (encoded.drop index) group v = .ok cs →
          index + n = encoded.length) := by
  intro fuel
  induction fuel with
  | zero => intro index group v reads _ h; omega
  | succ fuel ih =>
    intro index group v reads hle hfuel
    rw [decodeAt]
    by_cases hcond : group = none ∧ ¬ index < encoded.length
    · obtain ⟨hg, hlt⟩ := hcond
      have hdrop : encoded.drop index = [] := List.drop_eq_nil_of_le (by omega)
      rw [if_pos ⟨hg, hlt⟩, hdrop, hg]
      refine ⟨0, index, by simp [decodeLoop], fun _ => ⟨by omega, rfl⟩, fun _ _ => by omega⟩
    · rw [if_neg hcond]
      cases hget : encoded[index]? with
      | none =>
        have hlen : encoded.length ≤ index := List.getElem?_eq_none_iff.1 hget
        have hdrop : encoded.drop index = [] := List.drop_eq_nil_of_le hlen
        have hg : group ≠ none := fun hg => hcond ⟨hg, by omega⟩
        obtain ⟨g, hg'⟩ := Option.ne_none_iff_exists'.1 hg
        rw [hdrop, hg']
        refine ⟨1, index, by simp [decodeLoop], fun h => absurd rfl h, fun cs h => ?_⟩
        simp [decodeLoop] at h
      | some c =>
        obtain ⟨hlt, hc⟩ := List.getElem?_eq_some.1 hget
        have hdrop : encoded.drop index = c :: encoded.drop (index + 1) := by
          rw [List.drop_eq_getElem_cons hlt, hc]
        rw [hdrop, decodeLoop_cons]
        simp only []
        by_cases hb : (innerStep (group.getD (0, 0)).1 (group.getD (0, 0)).2 c).1 ≥ 0x20
        · rw [if_pos hb, if_pos hb]
          obtain ⟨n, final, heq, h1, h2⟩ := ih (index + 1)
            (some (innerStep (group.getD (0, 0)).1 (group.getD (0, 0)).2 c).2) v
            (reads ++ [index]) (by omega) (by omega)
          refine ⟨n + 1, final, ?_, ?_, ?_⟩
          · rw [heq, List.range'_succ, List.append_assoc, List.singleton_append]
          · intro hne
            have := h1 hne
            omega
          · intro cs hcs
            have := h2 cs hcs
            omega
        · rw [if_neg hb, if_neg hb]
          unfold afterGroup
          cases hout : outerTail mk f
              (innerStep (group.getD (0, 0)).1 (group.getD (0, 0)).2 c).2.1 v with
          | error e =>
            refine ⟨1, index + 1, by simp, fun _ => ⟨by omega, rfl⟩, fun cs h => ?_⟩
            cases h
          | ok v' =>
            simp only []
            obtain ⟨n, final, heq, h1, h2⟩ := ih (index + 1) none v' (reads ++ [index])
              (by omega) (by omega)
            refine ⟨n + 1, final, ?_, ?_, ?_⟩
            · rw [heq, List.range'_succ, List.append_assoc, List.singleton_append]
            · intro hne
              have := h1 hne
              omega
            · intro cs hcs
              have := h2 cs hcs
              omega

/-- C15: totality on well-formed input.  For every encoded string that is empty or whose last
byte has its continuation bit clear, and every bound on the reads above its length, the loops
of `DecodePolyline` finish, with the result of `DecodePolyline`, which is not the
out-of-range panic; the indices read are strictly increasing (consecutive from 0) and each
is below `len(encoded)`; `index` ends as the number of reads, at most `len(encoded)`; and
when a path is returned the outer loop has left with `index = len(encoded)`, every index
having been read once. -/
theorem C15_totality_well_formed (mk : Nat → Int → Int → Except String Coord) (f : Nat)
    (encoded : List Nat) (hend : EndsOnGroup encoded) :
    ∀ fuel, encoded.length < fuel →
      ∃ run, decodeAt mk f encoded fuel 0 none { count := 0, lat := 0, lng := 0, coords := [] } []
          = some run ∧
        run.result = DecodePolylineWith mk encoded f ∧
        run.result ≠ .indexOutOfRange ∧
        run.reads.Pairwise (fun i j => i < j) ∧
        (∃ n, run.reads = List.range n) ∧
        (∀ i ∈ run.reads, i < encoded.length) ∧
        (run.index = run.reads.length ∧ run.index ≤ encoded.length) ∧
        (∀ cs, run.result = .ok cs →
          run.index = encoded.length ∧ run.reads = List.range encoded.length) := by
  intro fuel hfuel
  obtain ⟨n, final, heq, h1, h2⟩ := decodeAt_spec mk f encoded fuel 0 none
    { count := 0, lat := 0, lng := 0, coords := [] } [] (Nat.zero_le _) (by omega)
  rw [List.drop_zero, List.nil_append] at heq
  rw [List.drop_zero] at h1 h2
  have hres : decodeLoop mk f encoded none { count := 0, lat := 0, lng := 0, coords := [] }
      ≠ .indexOutOfRange := by
    have hv := decode_eq_validateAll_deltaPath mk f encoded hend
    unfold DecodePolylineWith at hv
    rw [hv]
    cases validateAll mk f (deltaPath (groupValues encoded none) 0 0 0) <;> simp
  obtain ⟨hn, hfinal⟩ := h1 hres
  refine ⟨_, heq, rfl, hres, ?_, ⟨n, (List.range_eq_range' n).symm⟩, ?_, ?_, ?_⟩
  · exact List.pairwise_lt_range' 0 n
  · intro i hi
    simp only [List.mem_range'_1] at hi
    omega
  · simp only [List.length_range']
    omega
  · intro cs hcs
    have hlen := h2 cs hcs
    simp only at hcs ⊢
    rw [hfinal]
    refine ⟨by omega, ?_⟩
    rw [List.range_eq_range']
    congr 1
    omega

/-- C15, at the first two groups of the reference polyline: ten reads, `index = 10`. -/
theorem C15_totality_well_formed_witness :
    EndsOnGroup (bytes "_p~iF~ps|U") ∧
    ∃ run, decodeAt NewCoordinateFromLatLons 100000 (bytes "_p~iF~ps|U") 11 0 none
          { count := 0, lat := 0, lng := 0, coords := [] } [] = some run ∧
        run.result = DecodePolylineWith NewCoordinateFromLatLons (bytes "_p~iF~ps|U") 100000 ∧
        run.result ≠ .indexOutOfRange ∧
        run.reads.Pairwise (fun i j => i < j) ∧
        (∃ n, run.reads = List.range n) ∧
        (∀ i ∈ run.reads, i < (bytes "_p~iF~ps|U").length) ∧
        (run.index = run.reads.length ∧ run.index ≤ (bytes "_p~iF~ps|U").length) ∧
        (∀ cs, run.result = .ok cs →
          run.index = (bytes "_p~iF~ps|U").length ∧
          run.reads = List.range (bytes "_p~iF~ps|U").length) :=
  ⟨by decide,
    C15_totality_well_formed NewCoordinateFromLatLons 100000 (bytes "_p~iF~ps|U") (by decide)
      11 (by decide)⟩

/-! ## Truncated polylines in the handler -/

/-- With a constructor that never returns an error, an input that ends on a group decodes to
a path of one coordinate for every two groups. -/
theorem decode_ok_of_never_rejects (mk : Nat → Int → Int → Except String Coord) (f : Nat)
    (hmk : ∀ lat lng e, mk f lat lng ≠ .error e) (encoded : List Nat)
    (hend : EndsOnGroup encoded) :
    ∃ cs, DecodePolylineWith mk encoded f = .ok cs ∧
      cs.length = (groupValues encoded none).length / 2 := by
  have hv := decode_eq_validateAll_deltaPath mk f encoded hend
  cases hval : validateAll mk f (deltaPath (groupValues encoded none) 0 0 0) with
  | error e =>
    obtain ⟨p, _, e', he'⟩ := (validateAll_error_iff mk f _).1 ⟨e, hval⟩
    exact absurd he' (hmk _ _ _)
  | ok cs =>
    rw [hval] at hv
    obtain ⟨_, _, hall⟩ := decode_ok_deltaPath mk f encoded cs hv
    have hlen := deltaPath_length _ (groupValues encoded none) 0 0 0 (Nat.le_refl _) rfl
    exact ⟨cs, hv, by rw [← hall.length_eq, hlen]⟩

/-- With a constructor that never returns an error, an input whose last byte has the
continuation bit set makes the decoder panic. -/
theorem decode_panics_of_truncated (mk : Nat → Int → Int → Except String Coord) (f : Nat)
    (hmk : ∀ lat lng e, mk f lat lng ≠ .error e) (encoded : List Nat) (c : Nat)
    (hlast : encoded.getLast? = some c) (hc : (c : Int) - 63 ≥ 0x20) :
    DecodePolylineWith mk encoded f = .indexOutOfRange := by
  have hne : encoded ≠ [] := by
    intro hnil
    rw [hnil] at hlast
    cases hlast
  rcases decodeLoop_truncated mk f encoded none
      { count := 0, lat := 0, lng := 0, coords := [] } (fun h => absurd h hne)
      (by
        intro c' hc'
        rw [hlast] at hc'
        cases hc'
        exact hc) with h | ⟨e, h⟩
  · exact h
  · obtain ⟨lat, lng, he⟩ := decodeLoop_err_from_constructor mk f e encoded none _ h
    exact absurd he (hmk _ _ _)

/-- C6: the excessive-coordinates error is missed on a truncated polyline.  With
`MaxCoords = 1` the polyline `"????_"` encodes two pairs, (0, 0) and (0, 0), and then ends in
the middle of a group: `DecodePolyline` panics (the defect of C3) and the handler writes no
response instead of the 400 error `E_EXCESSIVE_COORDINATES`, with the constructor of the spec
and with one that accepts every pair alike.  In general, with a constructor that never
returns an error, a request that passes the gate and the option parsing gets no response when
its polyline ends in the middle of a group, and gets the 400 error
`E_EXCESSIVE_COORDINATES` right after the decoder call when its polyline ends on a group and
encodes more than `MaxCoords` pairs, whatever its other parameters are. -/
theorem C6_truncated_polyline_misses_bound :
    (PassesOptions (exampleEnv false) { AllowGeoJSON := false, MaxCoords := 1 }
        [(bytes "polyline", bytes "????_")] ∧
      DecodePolylineWith acceptAll (bytes "????") 100000
        = .ok [{ X := 0, Y := 0 }, { X := 0, Y := 0 }] ∧
      PolylineHandler (exampleEnv false) { AllowGeoJSON := false, MaxCoords := 1 }
          [(bytes "polyline", bytes "????_")]
        = { calls := [.IsIndexing, .DecodePolyline (bytes "????_") 100000],
            response := none } ∧
      PolylineHandler { exampleEnv false with NewCoordinateFromLatLons := acceptAll }
          { AllowGeoJSON := false, MaxCoords := 1 } [(bytes "polyline", bytes "????_")]
        = { calls := [.IsIndexing, .DecodePolyline (bytes "????_") 100000],
            response := none }) ∧
    (∀ (Filters FC : Type) (env : Collaborators Filters FC) (opts : PolylineHandlerOptions)
        (query : Query), PassesOptions env opts query →
      (∀ f lat lng e, env.NewCoordinateFromLatLons f lat lng ≠ .error e) →
      (∀ c : Nat, (query.Get (bytes "polyline")).getLast? = some c → (c : Int) - 63 ≥ 0x20 →
        PolylineHandler env opts query
          = { calls := [.IsIndexing, decodeCall query], response := none }) ∧
      (EndsOnGroup (query.Get (bytes "polyline")) →
        (((groupValues (query.Get (bytes "polyline")) none).length / 2 : Nat) : Int)
          > opts.MaxCoords →
        PolylineHandler env opts query
          = { calls := [.IsIndexing, decodeCall query],
              response := some (.Error "E_EXCESSIVE_COORDINATES" 400) })) := by
  refine ⟨by decide, ?_⟩
  intro Filters FC env opts query hpass hmk
  constructor
  · intro c hlast hc
    apply handler_decode_panic env opts query hpass
    exact decode_panics_of_truncated _ _ (hmk _) _ c hlast hc
  · intro hend hmany
    obtain ⟨cs, hdec, hlen⟩ := decode_ok_of_never_rejects env.NewCoordinateFromLatLons
      (polyFactor (query.Get (bytes "valhalla"))) (hmk _) _ hend
    apply handler_excessive env opts query hpass hdec
    rw [hlen]
    exact hmany

/-- C8: the step order is broken by a truncated polyline.  On the request `?polyline=_` the
index is not indexing, the polyline is present and the format is allowed; the decoder is
called, panics (the defect of C3) and the handler writes no response, where the claim has a
decode error answered by 400 with the decoder's message.  In general a panic of the decoder
leaves the run without a response: its status is neither the 400 of a decode error nor 200,
and the decoder call is the last call. -/
theorem C8_truncated_polyline_writes_no_response :
    (PassesOptions (exampleEnv false) NewDefaultPolylineHandlerOptions
        [(bytes "polyline", bytes "_")] ∧
      PolylineHandler (exampleEnv false) NewDefaultPolylineHandlerOptions
          [(bytes "polyline", bytes "_")]
        = { calls := [.IsIndexing, .DecodePolyline (bytes "_") 100000], response := none } ∧
      (PolylineHandler (exampleEnv false) NewDefaultPolylineHandlerOptions
          [(bytes "polyline", bytes "_")]).status = none ∧
      (PolylineHandler { exampleEnv false with NewCoordinateFromLatLons := acceptAll }
          NewDefaultPolylineHandlerOptions [(bytes "polyline", bytes "_")]).status = none) ∧
    (∀ (Filters FC : Type) (env : Collaborators Filters FC) (opts : PolylineHandlerOptions)
        (query : Query), PassesOptions env opts query →
      decodeOf env query = .indexOutOfRange →
      PolylineHandler env opts query
        = { calls := [.IsIndexing, decodeCall query], response := none } ∧
      (PolylineHandler env opts query).status ≠ some 400 ∧
      (PolylineHandler env opts query).status ≠ some 200) ∧
    (∀ (Filters FC : Type) (env : Collaborators Filters FC) (query : Query) (c : Nat),
      (∀ f lat lng e, env.NewCoordinateFromLatLons f lat lng ≠ .error e) →
      (query.Get (bytes "polyline")).getLast? = some c → (c : Int) - 63 ≥ 0x20 →
      decodeOf env query = .indexOutOfRange) := by
  refine ⟨by decide, ?_, ?_⟩
  · intro Filters FC env opts query hpass hd
    rw [handler_decode_panic env opts query hpass hd]
    exact ⟨rfl, by simp [Run.status], by simp [Run.status]⟩
  · intro Filters FC env query c hmk hlast hc
    exact decode_panics_of_truncated _ _ (hmk _) _ c hlast hc

end Polyline
